import Mathlib

/-!
# Ticket translation (`src/day16/day16.go`)

A shallow embedding of the day 16 program: the validity engine, the
error-rate calculator, the ticket filter, the candidate-matrix builder, the
backtracking assignment solver `detectOrder` and the projection loop of `main`.

Modelling conventions.

* Go `int` is the 64-bit two's-complement integer of the usual targets: values
  are mathematical integers and every arithmetic result is passed through `wrapInt`.
* A Go `map[string]Field` is a list of `(name, field)` pairs: the list order is
  the order in which one `range` over the map enumerates it, and the keys of a
  map are pairwise distinct (a hypothesis wherever it is needed).
* A Go run-time panic is a value of `Panic`; functions that can panic return
  `Except Panic _`.
* `sort.Slice` belongs to the Go standard library, not to this repository: the
  solver takes it as a parameter.  `insertionSortSlice` is the insertion sort it
  runs on a slice of at most 12 elements, `pdqsortSlice` its run on a longer one.
-/

namespace Day16

/-! ## Data model -/

/-- The number of bits of a Go `int`. -/
def intBits : Nat := 64

/-- Two's-complement wrap-around of a mathematical integer into the range of a Go `int`. -/
def wrapInt (x : Int) : Int :=
  (x + 2 ^ (intBits - 1)) % 2 ^ intBits - 2 ^ (intBits - 1)

/-- The run-time failures of the program. -/
inductive Panic where
  /-- Go's `index out of range` run-time error. -/
  | indexOutOfRange
  /-- The explicit `panic("No valid permutation of fields")` of `detectOrder`. -/
  | noValidPermutation
  /-- The explicit `panic("Too many splits")` of `divideString`. -/
  | tooManySplits
  deriving DecidableEq

/-- The Go struct `Interval`, an inclusive range `start ..= end`. -/
structure Interval where
  start : Int
  «end» : Int
  deriving DecidableEq

/-- The Go struct `Field`. -/
structure Field where
  rules : List Interval
  deriving DecidableEq

/-- The Go type `Ticket`. -/
abbrev Ticket := List Int

/-- The Go struct `Puzzle`; `fields` lists the map in enumeration order. -/
structure Puzzle where
  fields : List (String × Field)
  ticket : Ticket
  nearbyTickets : List Ticket


/-- Slice read `xs[i]`, panicking when `i` is out of range. -/
def index {α : Type} (xs : List α) (i : Nat) : Except Panic α :=
  match xs[i]? with
  | some x => .ok x
  | none => .error .indexOutOfRange

/-- Slice write `xs[i] = x`, panicking when `i` is out of range. -/
def assign {α : Type} (xs : List α) (i : Nat) (x : α) : Except Panic (List α) :=
  if i < xs.length then .ok (xs.set i x) else .error .indexOutOfRange

/-! ## Validity engine -/

/-- The loop of `Field.canBeValidValue` over the remaining intervals. -/
def canBeValidValueLoop (val : Int) : List Interval → Bool
  | [] => false
  | interval :: rest =>
    if interval.start ≤ val ∧ val ≤ interval.end then true
    else canBeValidValueLoop val rest

/-- The method `Field.canBeValidValue`. -/
def Field.canBeValidValue (field : Field) (val : Int) : Bool :=
  canBeValidValueLoop val field.rules

/-- The function `validForAnyField`: a `range` over the map with an early return. -/
def validForAnyField (val : Int) : List (String × Field) → Bool
  | [] => false
  | (_, field) :: rest =>
    if field.canBeValidValue val then true else validForAnyField val rest

/-! ## Error-rate calculator -/

/-- The inner loop of `getTicketScanningErrorRate` over the values of one ticket. -/
def errorRateTicket (fields : List (String × Field)) (errorRate : Int) : List Int → Int
  | [] => errorRate
  | val :: rest =>
    if !validForAnyField val fields then
      errorRateTicket fields (wrapInt (errorRate + val)) rest
    else errorRateTicket fields errorRate rest

/-- The outer loop of `getTicketScanningErrorRate` over the nearby tickets. -/
def errorRateLoop (fields : List (String × Field)) (errorRate : Int) : List Ticket → Int
  | [] => errorRate
  | ticket :: rest => errorRateLoop fields (errorRateTicket fields errorRate ticket) rest

/-- The function `getTicketScanningErrorRate`. -/
def getTicketScanningErrorRate (puzzle : Puzzle) : Int :=
  errorRateLoop puzzle.fields 0 puzzle.nearbyTickets

/-! ## Ticket filter -/

/-- The inner loop of `getValidTickets`: the final value of `isValidTicket`,
leaving the loop at the first rejected value. -/
def isValidTicket (fields : List (String × Field)) : List Int → Bool
  | [] => true
  | val :: rest =>
    if !validForAnyField val fields then false else isValidTicket fields rest

/-- The outer loop of `getValidTickets`, appending to `validTickets`. -/
def validTicketsLoop (fields : List (String × Field)) (validTickets : List Ticket) :
    List Ticket → List Ticket
  | [] => validTickets
  | ticket :: rest =>
    if isValidTicket fields ticket then validTicketsLoop fields (validTickets ++ [ticket]) rest
    else validTicketsLoop fields validTickets rest

/-- The function `getValidTickets`. -/
def getValidTickets (puzzle : Puzzle) : List Ticket :=
  validTicketsLoop puzzle.fields [] puzzle.nearbyTickets ++ [puzzle.ticket]

/-! ## Result projector -/

/-- Go's `strings.HasPrefix`, on the characters of the two strings (for UTF-8 text
the same as on their bytes). -/
def hasPrefix (s pre : String) : Bool :=
  pre.toList.isPrefixOf s.toList

/-- The marker string tested by `main`. -/
def departureMarker : String := "departure "

/-- The projection loop of `main` from column `idx` on, for a marker string. -/
def projectionLoop (marker : String) (ticket : Ticket) :
    Nat → List String → Int → Except Panic Int
  | _, [], solution => .ok solution
  | idx, field :: rest, solution =>
    if hasPrefix field marker then do
      let v ← index ticket idx
      projectionLoop marker ticket (idx + 1) rest (wrapInt (solution * v))
    else projectionLoop marker ticket (idx + 1) rest solution

/-- The second number printed by `main`, from the result of `detectOrder`. -/
def mainSolution (orderedFields : List String) (ticket : Ticket) : Except Panic Int :=
  projectionLoop departureMarker ticket 0 orderedFields 1

/-! ## Candidate matrix -/

/-- The innermost loop of the matrix construction in `detectOrder`: for one value
of one ticket, every field's verdict is and-ed into row `ticketPos`. -/
def narrowFields (val : Int) (ticketPos : Nat) :
    Nat → List Field → List (List Bool) → Except Panic (List (List Bool))
  | _, [], ticketPosField => .ok ticketPosField
  | fieldIdx, field :: rest, ticketPosField => do
    let row ← index ticketPosField ticketPos
    let old ← index row fieldIdx
    let row' ← assign row fieldIdx (old && field.canBeValidValue val)
    let ticketPosField' ← assign ticketPosField ticketPos row'
    narrowFields val ticketPos (fieldIdx + 1) rest ticketPosField'

/-- The middle loop of the matrix construction, over the values of one ticket. -/
def narrowTicket (fields : List Field) :
    Nat → List Int → List (List Bool) → Except Panic (List (List Bool))
  | _, [], ticketPosField => .ok ticketPosField
  | ticketPos, val :: rest, ticketPosField => do
    let ticketPosField' ← narrowFields val ticketPos 0 fields ticketPosField
    narrowTicket fields (ticketPos + 1) rest ticketPosField'

/-- The outer loop of the matrix construction, over the retained tickets. -/
def narrowTickets (fields : List Field) :
    List Ticket → List (List Bool) → Except Panic (List (List Bool))
  | [], ticketPosField => .ok ticketPosField
  | ticket :: rest, ticketPosField => do
    let ticketPosField' ← narrowTicket fields 0 ticket ticketPosField
    narrowTickets fields rest ticketPosField'

/-- The freshly made `ticketPosField`: every entry `true`. -/
def initMatrix (ncols nfields : Nat) : List (List Bool) :=
  List.replicate ncols (List.replicate nfields true)

/-- The matrix-building part of `detectOrder`, for a field list, a column count and
the tickets to scan. -/
def buildMatrix (fields : List Field) (ncols : Nat) (tickets : List Ticket) :
    Except Panic (List (List Bool)) :=
  narrowTickets fields tickets (initMatrix ncols fields.length)

/-- The candidate matrix `ticketPosField` that `detectOrder` builds for a puzzle. -/
def candidateMatrix (puzzle : Puzzle) : Except Panic (List (List Bool)) :=
  buildMatrix (puzzle.fields.map Prod.snd) puzzle.ticket.length (getValidTickets puzzle)

/-! ## Assignment solver -/

/-- The local struct `pair` of `detectOrder`. -/
structure Pair where
  idx : Nat
  count : Nat
  deriving DecidableEq

/-- The counting loop over one row of the matrix. -/
def countLoop : Nat → List Bool → Nat
  | count, [] => count
  | count, val :: rest => if val then countLoop (count + 1) rest else countLoop count rest

/-- The loop that fills `searchOrder` before it is sorted. -/
def searchOrderLoop : Nat → List (List Bool) → List Pair → List Pair
  | _, [], searchOrder => searchOrder
  | idx, fieldCandidates :: rest, searchOrder =>
    searchOrderLoop (idx + 1) rest (searchOrder ++ [⟨idx, countLoop 0 fieldCandidates⟩])

/-- The comparison handed to `sort.Slice`. -/
def lessCount (a b : Pair) : Bool := decide (a.count < b.count)

/-- The type of `sort.Slice` at `[]pair`: the slice and the comparison go in, the
reordered slice comes out. -/
abbrev SortSlice := List Pair → (Pair → Pair → Bool) → List Pair

/-- The variables `stopComputation`, `permutation` and `inPermutation` that the
closure `genPerm` mutates. -/
structure SearchState where
  stopComputation : Bool
  permutation : List Nat
  inPermutation : List Bool
  deriving DecidableEq

/-- The `for` loop of `genPerm` over the row of column `ticketIdx`, from field
`fieldIdx` on; `recur` is the recursive call `genPerm(fromIdx + 1)`. -/
def genPermLoop (recur : SearchState → Except Panic SearchState) (ticketIdx : Nat) :
    Nat → List Bool → SearchState → Except Panic SearchState
  | _, [], s => .ok s
  | fieldIdx, isCandidate :: rest, s =>
    if isCandidate && !s.stopComputation then do
      let used ← index s.inPermutation fieldIdx
      if !used then do
        let inPermutation ← assign s.inPermutation fieldIdx true
        let permutation ← assign s.permutation ticketIdx fieldIdx
        let s' ← recur ⟨s.stopComputation, permutation, inPermutation⟩
        let inPermutation' ← assign s'.inPermutation fieldIdx false
        genPermLoop recur ticketIdx (fieldIdx + 1) rest
          ⟨s'.stopComputation, s'.permutation, inPermutation'⟩
      else genPermLoop recur ticketIdx (fieldIdx + 1) rest s
    else genPermLoop recur ticketIdx (fieldIdx + 1) rest s

/-- The closure `genPerm`, by recursion on `remaining = len(fields) - fromIdx`, the
number of search positions still to fill: `fromIdx == len(fields)` is `remaining = 0`. -/
def genPermFrom (nfields : Nat) (ticketPosField : List (List Bool)) (searchOrder : List Pair) :
    Nat → SearchState → Except Panic SearchState
  | 0, s => if s.stopComputation then .ok s else .ok ⟨true, s.permutation, s.inPermutation⟩
  | remaining + 1, s =>
    if s.stopComputation then .ok s
    else do
      let pr ← index searchOrder (nfields - (remaining + 1))
      let row ← index ticketPosField pr.idx
      genPermLoop (genPermFrom nfields ticketPosField searchOrder remaining) pr.idx 0 row s

/-- The call `genPerm(fromIdx)`, for `fromIdx ≤ len(fields)`. -/
def genPerm (nfields : Nat) (ticketPosField : List (List Bool)) (searchOrder : List Pair)
    (fromIdx : Nat) (s : SearchState) : Except Panic SearchState :=
  genPermFrom nfields ticketPosField searchOrder (nfields - fromIdx) s

/-- The final loop of `detectOrder`, writing field names into `orderedFields`. -/
def orderedFieldsLoop (fieldNames : List String) :
    Nat → List Nat → List String → Except Panic (List String)
  | _, [], orderedFields => .ok orderedFields
  | idx, fieldIdx :: rest, orderedFields => do
    let name ← index fieldNames fieldIdx
    let orderedFields' ← assign orderedFields idx name
    orderedFieldsLoop fieldNames (idx + 1) rest orderedFields'

/-- The search of `detectOrder` from the candidate matrix on: the search order, the
call `genPerm(0)` and the check of `stopComputation`; the result is `permutation`. -/
def solveMatrix (sortSlice : SortSlice) (nfields : Nat) (ticketPosField : List (List Bool)) :
    Except Panic (List Nat) := do
  let searchOrder := sortSlice (searchOrderLoop 0 ticketPosField []) lessCount
  let s ← genPerm nfields ticketPosField searchOrder 0
    ⟨false, List.replicate nfields 0, List.replicate nfields false⟩
  if !s.stopComputation then throw Panic.noValidPermutation
  pure s.permutation

/-- The function `detectOrder`. -/
def detectOrder (sortSlice : SortSlice) (puzzle : Puzzle) : Except Panic (List String) := do
  let fieldNames := puzzle.fields.map Prod.fst
  let fields := puzzle.fields.map Prod.snd
  let ticketPosField ← buildMatrix fields puzzle.ticket.length (getValidTickets puzzle)
  let permutation ← solveMatrix sortSlice fields.length ticketPosField
  orderedFieldsLoop fieldNames 0 permutation (List.replicate fields.length "")

/-- Insertion of `x` into a sorted prefix held in reverse, moving left past every
element that `x` is less than. -/
def insertLeft (less : Pair → Pair → Bool) (x : Pair) : List Pair → List Pair
  | [] => [x]
  | y :: ys => if less x y then y :: insertLeft less x ys else x :: y :: ys

/-- An instance of `sort.Slice`: the insertion sort that Go runs on short slices. -/
def insertionSortSlice : SortSlice := fun xs less =>
  (xs.foldl (fun sortedRev x => insertLeft less x sortedRev) []).reverse

/-! ## The sort of the Go standard library

`sort.Slice` as Go 1.19 and later have it (`pdqsort_func` in `zsortfunc.go`), on a
slice of pairs: `data.Less(i, j)` compares the elements at `i` and `j`, `data.Swap`
exchanges them.  A loop of the source is a recursion on a bound of its iterations;
`none` is the answer for an index out of range or a bound used up, and in
`pdqsortFunc` for the two parts of the source that are not followed. -/

/-- The Go type `sortedHint` of the package `sort`. -/
inductive SortedHint where
  | unknownHint
  | increasingHint
  | decreasingHint
  deriving DecidableEq

/-- The call `data.Less(i, j)` of the package `sort` on the slice `data`: `none` for
an index out of range. -/
def dataLess (less : Pair → Pair → Bool) (data : List Pair) (i j : Nat) : Option Bool :=
  match data[i]?, data[j]? with
  | some x, some y => some (less x y)
  | _, _ => none

/-- The call `data.Swap(i, j)` of the package `sort`: `none` for an index out of
range. -/
def dataSwap (data : List Pair) (i j : Nat) : Option (List Pair) :=
  match data[i]?, data[j]? with
  | some x, some y => some ((data.set i y).set j x)
  | _, _ => none

/-- The inner loop `for j := i; j > a && data.Less(j, j-1); j--` of
`insertionSort_func`, by recursion on `j`. -/
def insertionInner (less : Pair → Pair → Bool) (a : Nat) : Nat → List Pair → Option (List Pair)
  | 0, data => some data
  | j + 1, data =>
    if a < j + 1 then
      match dataLess less data (j + 1) j with
      | none => none
      | some false => some data
      | some true =>
        match dataSwap data (j + 1) j with
        | none => none
        | some data' => insertionInner less a j data'
    else some data

/-- The outer loop `for i := a + 1; i < b; i++` of `insertionSort_func`; the first
argument bounds the iterations left. -/
def insertionOuter (less : Pair → Pair → Bool) (a b : Nat) :
    Nat → Nat → List Pair → Option (List Pair)
  | 0, i, data => if i < b then none else some data
  | n + 1, i, data =>
    if i < b then
      match insertionInner less a i data with
      | none => none
      | some data' => insertionOuter less a b n (i + 1) data'
    else some data

/-- The function `insertionSort_func` of the package `sort`: insertion sort of
`data[a:b]`. -/
def insertionSortFunc (less : Pair → Pair → Bool) (data : List Pair) (a b : Nat) :
    Option (List Pair) :=
  insertionOuter less a b (b - (a + 1)) (a + 1) data

/-- The function `order2_func`: the two indices in the order of their elements and
the number of swaps counted so far. -/
def order2Func (less : Pair → Pair → Bool) (data : List Pair) (a b swaps : Nat) :
    Option (Nat × Nat × Nat) :=
  match dataLess less data b a with
  | none => none
  | some true => some (b, a, swaps + 1)
  | some false => some (a, b, swaps)

/-- The function `median_func`: the index of the median of `data[a]`, `data[b]`,
`data[c]` and the number of swaps counted so far. -/
def medianFunc (less : Pair → Pair → Bool) (data : List Pair) (a b c swaps : Nat) :
    Option (Nat × Nat) :=
  match order2Func less data a b swaps with
  | none => none
  | some (a1, b1, swaps1) =>
    match order2Func less data b1 c swaps1 with
    | none => none
    | some (b2, _, swaps2) =>
      match order2Func less data a1 b2 swaps2 with
      | none => none
      | some (_, b3, swaps3) => some (b3, swaps3)

/-- The function `medianAdjacent_func`. -/
def medianAdjacentFunc (less : Pair → Pair → Bool) (data : List Pair) (a swaps : Nat) :
    Option (Nat × Nat) :=
  medianFunc less data (a - 1) a (a + 1) swaps

/-- The part of `choosePivot_func` that runs for slices of 50 elements or more: the
three medians of adjacent elements. -/
def nintherFunc (less : Pair → Pair → Bool) (data : List Pair) (i j k : Nat) :
    Option (Nat × Nat × Nat × Nat) :=
  match medianAdjacentFunc less data i 0 with
  | none => none
  | some (i1, swaps1) =>
    match medianAdjacentFunc less data j swaps1 with
    | none => none
    | some (j1, swaps2) =>
      match medianAdjacentFunc less data k swaps2 with
      | none => none
      | some (k1, swaps3) => some (i1, j1, k1, swaps3)

/-- The function `choosePivot_func`: the pivot index in `data[a:b]` and the hint. -/
def choosePivotFunc (less : Pair → Pair → Bool) (data : List Pair) (a b : Nat) :
    Option (Nat × SortedHint) :=
  let l := b - a
  let i := a + l / 4 * 1
  let j := a + l / 4 * 2
  let k := a + l / 4 * 3
  let chosen : Option (Nat × Nat) :=
    if 8 ≤ l then
      match (if 50 ≤ l then nintherFunc less data i j k else some (i, j, k, 0)) with
      | none => none
      | some (i1, j1, k1, swaps) => medianFunc less data i1 j1 k1 swaps
    else some (j, 0)
  match chosen with
  | none => none
  | some (pivot, swaps) =>
    if swaps = 0 then some (pivot, .increasingHint)
    else if swaps = 12 then some (pivot, .decreasingHint)
    else some (pivot, .unknownHint)

/-- The loop `for i < j` of `reverseRange_func`; the first argument bounds the
iterations left. -/
def reverseRangeLoop : Nat → Nat → Nat → List Pair → Option (List Pair)
  | 0, i, j, data => if i < j then none else some data
  | n + 1, i, j, data =>
    if i < j then
      match dataSwap data i j with
      | none => none
      | some data' => reverseRangeLoop n (i + 1) (j - 1) data'
    else some data

/-- The function `reverseRange_func`. -/
def reverseRangeFunc (data : List Pair) (a b : Nat) : Option (List Pair) :=
  reverseRangeLoop (b - a) a (b - 1) data

/-- The loop `for i < b && !data.Less(i, i-1) { i++ }` of `partialInsertionSort_func`:
the value of `i` after it. -/
def scanSorted (less : Pair → Pair → Bool) (b : Nat) : Nat → Nat → List Pair → Option Nat
  | 0, i, _ => if i < b then none else some i
  | n + 1, i, data =>
    if i < b then
      match dataLess less data i (i - 1) with
      | none => none
      | some true => some i
      | some false => scanSorted less b n (i + 1) data
    else some i

/-- The loop `for j := i - 1; j >= 1; j--` of `partialInsertionSort_func`, by
recursion on `j`. -/
def shiftLeft (less : Pair → Pair → Bool) : Nat → List Pair → Option (List Pair)
  | 0, data => some data
  | j + 1, data =>
    match dataLess less data (j + 1) j with
    | none => none
    | some false => some data
    | some true =>
      match dataSwap data (j + 1) j with
      | none => none
      | some data' => shiftLeft less j data'

/-- The loop `for j := i + 1; j < b; j++` of `partialInsertionSort_func`; the first
argument bounds the iterations left. -/
def shiftRight (less : Pair → Pair → Bool) (b : Nat) :
    Nat → Nat → List Pair → Option (List Pair)
  | 0, j, data => if j < b then none else some data
  | n + 1, j, data =>
    if j < b then
      match dataLess less data j (j - 1) with
      | none => none
      | some false => some data
      | some true =>
        match dataSwap data j (j - 1) with
        | none => none
        | some data' => shiftRight less b n (j + 1) data'
    else some data

/-- The loop `for j := 0; j < maxSteps; j++` of `partialInsertionSort_func`, by
recursion on the steps left: the slice and whether it is sorted. -/
def partialInsertionSteps (less : Pair → Pair → Bool) (a b : Nat) :
    Nat → Nat → List Pair → Option (List Pair × Bool)
  | 0, _, data => some (data, false)
  | steps + 1, i, data =>
    match scanSorted less b (b - i) i data with
    | none => none
    | some i1 =>
      if i1 = b then some (data, true)
      else if b - a < 50 then some (data, false)
      else
        match dataSwap data i1 (i1 - 1) with
        | none => none
        | some data1 =>
          match (if 2 ≤ i1 - a then shiftLeft less (i1 - 1) data1 else some data1) with
          | none => none
          | some data2 =>
            match (if 2 ≤ b - i1 then shiftRight less b (b - (i1 + 1)) (i1 + 1) data2
              else some data2) with
            | none => none
            | some data3 => partialInsertionSteps less a b steps i1 data3

/-- The function `partialInsertionSort_func`. -/
def partialInsertionSortFunc (less : Pair → Pair → Bool) (data : List Pair) (a b : Nat) :
    Option (List Pair × Bool) :=
  partialInsertionSteps less a b 5 (a + 1) data

/-- The loop `for i <= j && data.Less(i, a) { i++ }` of `partition_func`: the value
of `i` after it. -/
def scanLess (less : Pair → Pair → Bool) (a : Nat) : Nat → Nat → Nat → List Pair → Option Nat
  | 0, i, j, _ => if i ≤ j then none else some i
  | n + 1, i, j, data =>
    if i ≤ j then
      match dataLess less data i a with
      | none => none
      | some true => scanLess less a n (i + 1) j data
      | some false => some i
    else some i

/-- The loop `for i <= j && !data.Less(j, a) { j-- }` of `partition_func`: the value
of `j` after it. -/
def scanNotLess (less : Pair → Pair → Bool) (a : Nat) :
    Nat → Nat → Nat → List Pair → Option Nat
  | 0, i, j, _ => if i ≤ j then none else some j
  | n + 1, i, j, data =>
    if i ≤ j then
      match dataLess less data j a with
      | none => none
      | some false => scanNotLess less a n i (j - 1) data
      | some true => some j
    else some j

/-- The loop `for { ... }` of `partition_func`: the value of `j` at the `break` and
the slice; the first argument bounds the iterations left. -/
def partitionLoop (less : Pair → Pair → Bool) (a : Nat) :
    Nat → Nat → Nat → List Pair → Option (Nat × List Pair)
  | 0, _, _, _ => none
  | n + 1, i, j, data =>
    match scanLess less a (j + 1 - i) i j data with
    | none => none
    | some i1 =>
      match scanNotLess less a (j + 1 - i1) i1 j data with
      | none => none
      | some j1 =>
        if j1 < i1 then some (j1, data)
        else
          match dataSwap data i1 j1 with
          | none => none
          | some data' => partitionLoop less a n (i1 + 1) (j1 - 1) data'

/-- The function `partition_func`: the slice, the new pivot index and whether the
slice was partitioned already. -/
def partitionFunc (less : Pair → Pair → Bool) (data : List Pair) (a b pivot : Nat) :
    Option (List Pair × Nat × Bool) :=
  match dataSwap data a pivot with
  | none => none
  | some data1 =>
    match scanLess less a (b - 1 + 1 - (a + 1)) (a + 1) (b - 1) data1 with
    | none => none
    | some i =>
      match scanNotLess less a (b - 1 + 1 - i) i (b - 1) data1 with
      | none => none
      | some j =>
        if j < i then
          match dataSwap data1 j a with
          | none => none
          | some data2 => some (data2, j, true)
        else
          match dataSwap data1 i j with
          | none => none
          | some data2 =>
            match partitionLoop less a (b - a) (i + 1) (j - 1) data2 with
            | none => none
            | some (j1, data3) =>
              match dataSwap data3 j1 a with
              | none => none
              | some data4 => some (data4, j1, false)

/-- The loop `for i <= j && !data.Less(a, i) { i++ }` of `partitionEqual_func`. -/
def scanNotGreater (less : Pair → Pair → Bool) (a : Nat) :
    Nat → Nat → Nat → List Pair → Option Nat
  | 0, i, j, _ => if i ≤ j then none else some i
  | n + 1, i, j, data =>
    if i ≤ j then
      match dataLess less data a i with
      | none => none
      | some false => scanNotGreater less a n (i + 1) j data
      | some true => some i
    else some i

/-- The loop `for i <= j && data.Less(a, j) { j-- }` of `partitionEqual_func`. -/
def scanGreater (less : Pair → Pair → Bool) (a : Nat) :
    Nat → Nat → Nat → List Pair → Option Nat
  | 0, i, j, _ => if i ≤ j then none else some j
  | n + 1, i, j, data =>
    if i ≤ j then
      match dataLess less data a j with
      | none => none
      | some true => scanGreater less a n i (j - 1) data
      | some false => some j
    else some j

/-- The loop `for { ... }` of `partitionEqual_func`: the value of `i` at the `break`
and the slice. -/
def partitionEqualLoop (less : Pair → Pair → Bool) (a : Nat) :
    Nat → Nat → Nat → List Pair → Option (Nat × List Pair)
  | 0, _, _, _ => none
  | n + 1, i, j, data =>
    match scanNotGreater less a (j + 1 - i) i j data with
    | none => none
    | some i1 =>
      match scanGreater less a (j + 1 - i1) i1 j data with
      | none => none
      | some j1 =>
        if j1 < i1 then some (i1, data)
        else
          match dataSwap data i1 j1 with
          | none => none
          | some data' => partitionEqualLoop less a n (i1 + 1) (j1 - 1) data'

/-- The function `partitionEqual_func`: the slice and the new pivot index. -/
def partitionEqualFunc (less : Pair → Pair → Bool) (data : List Pair) (a b pivot : Nat) :
    Option (List Pair × Nat) :=
  match dataSwap data a pivot with
  | none => none
  | some data1 =>
    match partitionEqualLoop less a (b - a + 1) (a + 1) (b - 1) data1 with
    | none => none
    | some (i, data2) => some (data2, i)

/-- The function `pdqsort_func` of the package `sort` (Go 1.19 and later): the loop
and the recursion on the shorter side, `wasBalanced` and `wasPartitioned` being the
two variables of the loop; the first argument bounds the depth of iterations and
calls.  The run is followed as long as it keeps to insertion sort, pivot choice and
partitioning: `none` is the answer where the source goes on to `breakPatterns_func`
(whose pseudo-random numbers are not modelled) or to `heapSort_func` (which runs
only after `breakPatterns_func` has lowered `limit` to 0). -/
def pdqsortFunc (less : Pair → Pair → Bool) :
    Nat → List Pair → Nat → Nat → Nat → Bool → Bool → Option (List Pair)
  | 0, _, _, _, _, _, _ => none
  | fuel + 1, data, a, b, limit, wasBalanced, wasPartitioned =>
    if b - a ≤ 12 then insertionSortFunc less data a b
    else if limit = 0 then none
    else if wasBalanced = false then none
    else
      match choosePivotFunc less data a b with
      | none => none
      | some (pivot0, hint0) =>
        match (if hint0 = .decreasingHint then
            (reverseRangeFunc data a b).map fun d =>
              (d, (b - 1) - (pivot0 - a), SortedHint.increasingHint)
          else some (data, pivot0, hint0)) with
        | none => none
        | some (data1, pivot, hint) =>
          match (if wasBalanced && wasPartitioned && decide (hint = .increasingHint) then
              partialInsertionSortFunc less data1 a b
            else some (data1, false)) with
          | none => none
          | some (data2, true) => some data2
          | some (data2, false) =>
            match (if 0 < a then (dataLess less data2 (a - 1) pivot).map fun r => !r
              else some false) with
            | none => none
            | some true =>
              match partitionEqualFunc less data2 a b pivot with
              | none => none
              | some (data3, mid) =>
                pdqsortFunc less fuel data3 mid b limit wasBalanced wasPartitioned
            | some false =>
              match partitionFunc less data2 a b pivot with
              | none => none
              | some (data3, mid, alreadyPartitioned) =>
                if mid - a < b - mid then
                  match pdqsortFunc less fuel data3 a mid limit true true with
                  | none => none
                  | some data4 =>
                    pdqsortFunc less fuel data4 (mid + 1) b limit
                      (decide ((b - a) / 8 ≤ mid - a)) alreadyPartitioned
                else
                  match pdqsortFunc less fuel data3 (mid + 1) b limit true true with
                  | none => none
                  | some data4 =>
                    pdqsortFunc less fuel data4 a mid limit
                      (decide ((b - a) / 8 ≤ b - mid)) alreadyPartitioned

/-- The loop behind Go's `bits.Len`: the number of binary digits of `n`. -/
def bitsLenLoop : Nat → Nat → Nat
  | 0, _ => 0
  | fuel + 1, n => if n = 0 then 0 else bitsLenLoop fuel (n / 2) + 1

/-- Go's `bits.Len`. -/
def bitsLen (n : Nat) : Nat :=
  bitsLenLoop n n

/-- The run of Go's `sort.Slice` (Go 1.19 and later) on a slice of pairs:
`pdqsort_func(data, 0, length, bits.Len(length))`; `none` where `pdqsortFunc` does
not follow the run. -/
def sortSliceRun (data : List Pair) (less : Pair → Pair → Bool) : Option (List Pair) :=
  pdqsortFunc less (data.length + 1) data 0 data.length (bitsLen data.length) true true

/-- Go's `sort.Slice` (Go 1.19 and later) as an instance of `SortSlice`: the result
of `sortSliceRun`, the slice as it was where the run is not followed. -/
def pdqsortSlice : SortSlice := fun xs less =>
  (sortSliceRun xs less).getD xs

/-! ## Parser

Go strings are lists of characters here; `strings.Split`, `strings.TrimSpace` and
`strconv.Atoi` belong to the Go standard library and are modelled after their
documentation and source. -/

/-- The loop of Go's `strings.Split` for a non-empty separator `sep`: `skip` is the
number of characters of a separator just found that are still to be passed over,
`cur` is the piece read so far, in reverse. -/
def splitLoop (sep : List Char) : List Char → Nat → List Char → List (List Char)
  | [], _, cur => [cur.reverse]
  | _ :: cs, skip + 1, cur => splitLoop sep cs skip cur
  | c :: cs, 0, cur =>
    if sep.isPrefixOf (c :: cs) then cur.reverse :: splitLoop sep cs (sep.length - 1) []
    else splitLoop sep cs 0 (c :: cur)

/-- Go's `strings.Split(s, sep)` for a non-empty separator: the pieces of `s` between
the occurrences of `sep`, found from left to right. -/
def split (s sep : List Char) : List (List Char) :=
  splitLoop sep s 0 []

/-- Go's `unicode.IsSpace`, by code point. -/
def isSpaceCode (n : Nat) : Bool :=
  (9 ≤ n && n ≤ 13) || n == 32 || n == 0x85 || n == 0xA0 || n == 0x1680 ||
    (0x2000 ≤ n && n ≤ 0x200A) || n == 0x2028 || n == 0x2029 || n == 0x202F ||
    n == 0x205F || n == 0x3000

/-- Go's `unicode.IsSpace`. -/
def isSpace (c : Char) : Bool :=
  isSpaceCode c.toNat

/-- Go's `strings.TrimSpace`. -/
def trimSpace (s : List Char) : List Char :=
  ((s.dropWhile isSpace).reverse.dropWhile isSpace).reverse

/-- The outcome of Go's `strconv.ParseUint` in base 10 at 64 bits. -/
inductive ParseResult where
  | value (n : Nat)
  | syntaxError
  | rangeError
  deriving DecidableEq

/-- The digit loop of `strconv.ParseUint` in base 10 at 64 bits: a character that
is no digit is a syntax error, an overflow of `uint64` a range error, whichever
comes first. -/
def parseUintLoop : List Char → Nat → ParseResult
  | [], n => .value n
  | c :: cs, n =>
    if 48 ≤ c.toNat ∧ c.toNat ≤ 57 then
      if 1844674407370955162 ≤ n then .rangeError
      else if 18446744073709551615 < n * 10 + (c.toNat - 48) then .rangeError
      else parseUintLoop cs (n * 10 + (c.toNat - 48))
    else .syntaxError

/-- Go's `strconv.ParseUint(s, 10, 64)`. -/
def parseUint (s : List Char) : ParseResult :=
  match s with
  | [] => .syntaxError
  | c :: cs => parseUintLoop (c :: cs) 0

/-- The value of `strconv.ParseInt` in base 10 at 64 bits after the sign has been
read, the error being dropped: `0` for a syntax error, the nearest `int` for a
range error. -/
def atoiSigned (neg : Bool) (digits : List Char) : Int :=
  match parseUint digits with
  | .syntaxError => 0
  | .rangeError => if neg then -(2 ^ 63) else 2 ^ 63 - 1
  | .value un =>
    if neg then (if 2 ^ 63 < un then -(2 ^ 63) else -(un : Int))
    else (if 2 ^ 63 ≤ un then 2 ^ 63 - 1 else (un : Int))

/-- The value `strconv.Atoi` returns, its error dropped as at every call of the
program. -/
def atoi (s : List Char) : Int :=
  match s with
  | [] => 0
  | c :: cs =>
    if c = '+' then atoiSigned false cs
    else if c = '-' then atoiSigned true cs
    else atoiSigned false (c :: cs)

/-- The function `divideString`. -/
def divideString (s sep : List Char) : Except Panic (List Char × List Char) :=
  match split s sep with
  | [first, second] => .ok (trimSpace first, trimSpace second)
  | _ => .error .tooManySplits

/-- The loop of `parseField` over the interval specifications. -/
def parseFieldLoop : List (List Char) → List Interval → Except Panic (List Interval)
  | [], intervals => .ok intervals
  | intervalSpec :: rest, intervals => do
    let bounds ← divideString intervalSpec "-".toList
    parseFieldLoop rest (intervals ++ [⟨atoi bounds.1, atoi bounds.2⟩])

/-- The function `parseField`. -/
def parseField (fieldLine : String) : Except Panic (String × Field) := do
  let parts ← divideString fieldLine.toList ":".toList
  let intervals ← parseFieldLoop (split parts.2 "or".toList) []
  pure (String.mk parts.1, ⟨intervals⟩)

/-- The loop of `parseTicket` over the comma-separated tokens. -/
def parseTicketLoop : List (List Char) → List Int → List Int
  | [], values => values
  | strVal :: rest, values => parseTicketLoop rest (values ++ [atoi strVal])

/-- The function `parseTicket`. -/
def parseTicket (ticketSpec : String) : Ticket :=
  parseTicketLoop (split ticketSpec.toList ",".toList) []

end Day16

/-!
# Bag rules (`src/day7/day7.go`)

The ruleset with its two mutators, the container index and the two counters.  The
map `bagColorIndices` is never enumerated: it is a list of `(colour, index)` pairs
read with `List.lookup`, a new colour being added at the end.  The map `bagContent`
handed to `DefineRule` is a list in enumeration order.  A search stack is a list
with its top first.  The two `for len(searchStack) > 0` loops take a number of
iterations they may use; `none` is the answer of a loop that has used them up.
-/

namespace Day7

open Day16 (Panic index assign wrapInt)

/-- The Go struct `BagCount`. -/
structure BagCount where
  bagIdx : Nat
  count : Int
  deriving DecidableEq

/-- The Go type `BagContent`. -/
abbrev BagContent := List BagCount

/-- The Go struct `Ruleset`. -/
structure Ruleset where
  bagColorIndices : List (String × Nat)
  rules : List BagContent
  deriving DecidableEq

/-- The ruleset `Ruleset{bagColorIndices: make(map[string]int)}` that `readRules`
starts from. -/
def emptyRuleset : Ruleset :=
  ⟨[], []⟩

/-- The method `Ruleset.GetBagColorIndex`: the index returned and the ruleset after
the call. -/
def Ruleset.GetBagColorIndex (ruleset : Ruleset) (bagColor : String) : Nat × Ruleset :=
  match ruleset.bagColorIndices.lookup bagColor with
  | some idx => (idx, ruleset)
  | none =>
    (ruleset.rules.length,
      ⟨ruleset.bagColorIndices ++ [(bagColor, ruleset.rules.length)], ruleset.rules ++ [[]]⟩)

/-- The loop of `DefineRule` over the map `bagContent`. -/
def defineRuleLoop : List (String × Int) → Ruleset → BagContent → Ruleset × BagContent
  | [], ruleset, rule => (ruleset, rule)
  | (bag, count) :: rest, ruleset, rule =>
    defineRuleLoop rest (ruleset.GetBagColorIndex bag).2
      (rule ++ [⟨(ruleset.GetBagColorIndex bag).1, count⟩])

/-- The method `Ruleset.DefineRule`: the ruleset after the call. -/
def Ruleset.DefineRule (ruleset : Ruleset) (bagColor : String)
    (bagContent : List (String × Int)) : Except Panic Ruleset := do
  let afterLoop := defineRuleLoop bagContent ruleset []
  let afterIndex := afterLoop.1.GetBagColorIndex bagColor
  let rules ← assign afterIndex.2.rules afterIndex.1 afterLoop.2
  pure ⟨afterIndex.2.bagColorIndices, rules⟩

/-- The inner loop of `computeContainers` over the entries of rule `idx`. -/
def containersRule (idx : Nat) : BagContent → List (List Nat) → Except Panic (List (List Nat))
  | [], containers => .ok containers
  | bagCount :: rest, containers => do
    let old ← index containers bagCount.bagIdx
    let containers' ← assign containers bagCount.bagIdx (old ++ [idx])
    containersRule idx rest containers'

/-- The outer loop of `computeContainers` over the rules. -/
def containersLoop : Nat → List BagContent → List (List Nat) → Except Panic (List (List Nat))
  | _, [], containers => .ok containers
  | idx, rule :: rest, containers => do
    let containers' ← containersRule idx rule containers
    containersLoop (idx + 1) rest containers'

/-- The function `computeContainers`. -/
def computeContainers (ruleset : Ruleset) : Except Panic (List (List Nat)) :=
  containersLoop 0 ruleset.rules (List.replicate ruleset.rules.length [])

/-- The inner loop of `countIndirectContainers` over the containers of the bag just
popped. -/
def visitLoop : List Nat → List Nat → List Bool → Except Panic (List Nat × List Bool)
  | [], searchStack, visited => .ok (searchStack, visited)
  | containerIdx :: rest, searchStack, visited => do
    let seen ← index visited containerIdx
    if !seen then do
      let visited' ← assign visited containerIdx true
      visitLoop rest (containerIdx :: searchStack) visited'
    else visitLoop rest searchStack visited

/-- The loop `for len(searchStack) > 0` of `countIndirectContainers`, for at most
`fuel` iterations: the final `visited`, or `none` when the iterations are used up. -/
def visitSearch (containers : List (List Nat)) :
    Nat → List Nat → List Bool → Except Panic (Option (List Bool))
  | _, [], visited => .ok (some visited)
  | 0, _ :: _, _ => .ok none
  | fuel + 1, idx :: searchStack, visited => do
    let containersOfIdx ← index containers idx
    let next ← visitLoop containersOfIdx searchStack visited
    visitSearch containers fuel next.1 next.2

/-- The counting loop of `countIndirectContainers` over `visited`. -/
def countVisited : List Bool → Nat → Nat
  | [], count => count
  | isVisited :: rest, count => if isVisited then countVisited rest (count + 1)
    else countVisited rest count

/-- The function `countIndirectContainers`, its search loop limited to `fuel`
iterations. -/
def countIndirectContainers (fuel : Nat) (ruleset : Ruleset) (bagColor : String) :
    Except Panic (Option Nat) := do
  let containers ← computeContainers ruleset
  let visited ← visitSearch containers fuel [(ruleset.GetBagColorIndex bagColor).1]
    (List.replicate ruleset.rules.length false)
  pure (visited.map fun v => countVisited v 0)

/-- The loop of `countBagsInside` that puts the bags with an empty rule on the
stack. -/
def emptyRulesLoop : Nat → List BagContent → List Nat → List Nat
  | _, [], searchStack => searchStack
  | idx, rule :: rest, searchStack =>
    if rule.length = 0 then emptyRulesLoop (idx + 1) rest (idx :: searchStack)
    else emptyRulesLoop (idx + 1) rest searchStack

/-- The loop of `countBagsInside` that adds up the content of one bag. -/
def contentSizeLoop (bagSizes : List Int) : BagContent → Int → Except Panic Int
  | [], contentSize => .ok contentSize
  | innerBag :: rest, contentSize => do
    let size ← index bagSizes innerBag.bagIdx
    contentSizeLoop bagSizes rest
      (wrapInt (contentSize + wrapInt (innerBag.count + wrapInt (innerBag.count * size))))

/-- The loop of `countBagsInside` over the containers of the bag just sized. -/
def doneLoop (rules : List BagContent) :
    List Nat → List Nat → List Nat → Except Panic (List Nat × List Nat)
  | [], searchStack, insideBagsDone => .ok (searchStack, insideBagsDone)
  | containerIdx :: rest, searchStack, insideBagsDone => do
    let done ← index insideBagsDone containerIdx
    let insideBagsDone' ← assign insideBagsDone containerIdx (done + 1)
    let rule ← index rules containerIdx
    if done + 1 = rule.length then
      doneLoop rules rest (containerIdx :: searchStack) insideBagsDone'
    else doneLoop rules rest searchStack insideBagsDone'

/-- The loop `for len(searchStack) > 0` of `countBagsInside`, for at most `fuel`
iterations: the final `bagSizes`, or `none` when the iterations are used up. -/
def sizeSearch (rules : List BagContent) (containers : List (List Nat)) :
    Nat → List Nat → List Int → List Nat → Except Panic (Option (List Int))
  | _, [], bagSizes, _ => .ok (some bagSizes)
  | 0, _ :: _, _, _ => .ok none
  | fuel + 1, idx :: searchStack, bagSizes, insideBagsDone => do
    let rule ← index rules idx
    let contentSize ← contentSizeLoop bagSizes rule 0
    let bagSizes' ← assign bagSizes idx contentSize
    let containersOfIdx ← index containers idx
    let next ← doneLoop rules containersOfIdx searchStack insideBagsDone
    sizeSearch rules containers fuel next.1 bagSizes' next.2

/-- The function `countBagsInside`, its search loop limited to `fuel` iterations. -/
def countBagsInside (fuel : Nat) (ruleset : Ruleset) (bagColor : String) :
    Except Panic (Option Int) := do
  let containers ← computeContainers ruleset
  let bagSizes ← sizeSearch ruleset.rules containers fuel
    (emptyRulesLoop 0 ruleset.rules []) (List.replicate ruleset.rules.length 0)
    (List.replicate ruleset.rules.length 0)
  match bagSizes with
  | none => pure none
  | some sizes => do
    let size ← index sizes (ruleset.GetBagColorIndex bagColor).1
    pure (some size)

end Day7

/-! ## Specification-side and proof-side definitions -/

namespace Day16

/-- Spec: a value lies in at least one range of at least one field. -/
def InSomeRange (fields : List (String × Field)) (v : Int) : Prop :=
  ∃ nf ∈ fields, ∃ iv ∈ nf.2.rules, iv.start ≤ v ∧ v ≤ iv.end

instance (fields : List (String × Field)) (v : Int) : Decidable (InSomeRange fields v) := by
  unfold InSomeRange; infer_instance

/-- Spec: the sum of the nearby values that lie in no range of any field. -/
def rejectedSum (fields : List (String × Field)) (nearby : List Ticket) : Int :=
  (nearby.map fun t => (t.filter fun v => decide (¬ InSomeRange fields v)).sum).sum

/-- Spec: the product of the own-ticket values of the columns whose assigned
field name begins with the marker. -/
def markedProduct (marker : String) (orderedFields : List String) (ticket : Ticket) : Int :=
  (((orderedFields.zip ticket).filter fun nt => hasPrefix nt.1 marker).map fun nt => nt.2).prod

/-- One row of the matrix after and-ing in the verdicts of `fields` on `val`. -/
def narrowRow (val : Int) (fields : List Field) (row : List Bool) : List Bool :=
  List.zipWith (fun b (field : Field) => b && field.canBeValidValue val) row fields

/-- The matrix after one ticket, row by row. -/
def narrowByTicket (fields : List Field) (m : List (List Bool)) (ticket : Ticket) :
    List (List Bool) :=
  List.zipWith (fun row val => narrowRow val fields row) m ticket

/-- Closed form of the candidate matrix: entry `(c, f)` tells whether field `f`
accepts the value at position `c` of every scanned ticket. -/
def acceptMatrix (fields : List Field) (ncols : Nat) (tickets : List Ticket) : List (List Bool) :=
  (List.range ncols).map fun c =>
    fields.map fun field => tickets.all fun t => field.canBeValidValue (t.getD c 0)

/-- Entry `(c, f)` of a matrix, `false` outside of it. -/
def entry (m : List (List Bool)) (c f : Nat) : Bool :=
  (m.getD c []).getD f false

/-- The loop of `genPerm` without its mutable state: the first field from `fieldIdx`
on that is a candidate, unused, and for which the remaining columns can be filled. -/
def tryFields (recur : List Bool → Option (List Nat)) :
    Nat → List Bool → List Bool → Option (List Nat)
  | _, [], _ => none
  | fieldIdx, isCandidate :: rest, used =>
    if isCandidate && !(used.getD fieldIdx true) then
      match recur (used.set fieldIdx true) with
      | some asg => some (fieldIdx :: asg)
      | none => tryFields recur (fieldIdx + 1) rest used
    else tryFields recur (fieldIdx + 1) rest used

/-- The depth-first search of `genPerm` as a function: the fields given to the
columns `cols`, in that order, by the first complete assignment found. -/
def firstAssign (m : List (List Bool)) : List Nat → List Bool → Option (List Nat)
  | [], _ => some []
  | c :: cs, used => tryFields (firstAssign m cs) 0 (m.getD c []) used

/-- The fields `asg` fill the columns `cols` consistently: each is a candidate of its
column and unused so far, and no field is taken twice. -/
def Fills (m : List (List Bool)) (used : List Bool) (cols asg : List Nat) : Prop :=
  List.Forall₂ (fun c f => entry m c f = true ∧ used.getD f true = false) cols asg ∧ asg.Nodup

/-- What a call of `genPerm` over the columns `cols` does to the search state, when
the search over those columns has the outcome `outcome`. -/
def SearchPost (cols : List Nat) (outcome : Option (List Nat)) (s s' : SearchState) : Prop :=
  s'.inPermutation = s.inPermutation ∧
  s'.permutation.length = s.permutation.length ∧
  (∀ c, c ∉ cols → s'.permutation[c]? = s.permutation[c]?) ∧
  (outcome = none → s'.stopComputation = false) ∧
  (∀ asg, outcome = some asg →
    s'.stopComputation = true ∧ cols.map (fun c => s'.permutation[c]?) = asg.map some)

/-- The list `σ` sends each of the `n` columns to a field, one to one and onto, and
every pair `(c, σ c)` is `true` in the matrix. -/
def Assignment (m : List (List Bool)) (n : Nat) (σ : List Nat) : Prop :=
  σ.Perm (List.range n) ∧ ∀ c f, σ[c]? = some f → entry m c f = true

/-- The example puzzle of the specification. -/
def examplePuzzle : Puzzle :=
  ⟨[("class", ⟨[⟨0, 1⟩, ⟨4, 19⟩]⟩), ("row", ⟨[⟨0, 5⟩, ⟨8, 19⟩]⟩), ("seat", ⟨[⟨0, 13⟩, ⟨16, 19⟩]⟩)],
    [11, 12, 13], [[3, 9, 18], [15, 1, 5], [5, 14, 9]]⟩

/-- Spec: a bijection from the columns to the fields all of whose pairs are `true`
in the candidate matrix. -/
def ConsistentBijection (puzzle : Puzzle) (m : List (List Bool)) : Prop :=
  ∃ σ : Fin puzzle.ticket.length → Fin puzzle.fields.length,
    Function.Bijective σ ∧ ∀ c : Fin puzzle.ticket.length, entry m c.val (σ c).val = true

/-- The published example of part one of the puzzle. -/
def publishedPuzzle : Puzzle :=
  ⟨[("class", ⟨[⟨1, 3⟩, ⟨5, 7⟩]⟩), ("row", ⟨[⟨6, 11⟩, ⟨33, 44⟩]⟩), ("seat", ⟨[⟨13, 40⟩, ⟨45, 50⟩]⟩)],
    [7, 1, 14], [[7, 3, 47], [40, 4, 50], [55, 2, 20], [38, 6, 12]]⟩

/-- A puzzle with two fields of identical ranges and a single ticket column. -/
def twoFieldsOneColumn : Puzzle :=
  ⟨[("a", ⟨[⟨0, 10⟩]⟩), ("b", ⟨[⟨0, 10⟩]⟩)], [5], []⟩

/-- The columns in the order in which `genPerm` fills them. -/
def searchColumns (sortSlice : SortSlice) (m : List (List Bool)) : List Nat :=
  (sortSlice (searchOrderLoop 0 m []) lessCount).map Pair.idx

/-- Insertion of `x` into an ascending list in front of the first element that is
not less than `x`. -/
def insertBefore (less : Pair → Pair → Bool) (x : Pair) : List Pair → List Pair
  | [] => [x]
  | y :: ys => if less y x then y :: insertBefore less x ys else x :: y :: ys

/-- A sort that is not stable, for runs with another order among equal elements: an
insertion sort that puts each element in front of the elements equal to it. -/
def unstableSortSlice : SortSlice := fun xs less =>
  xs.foldl (fun sorted x => insertBefore less x sorted) []

/-- The search order `searchOrder` of `detectOrder` after the call of `sort.Slice`. -/
def searchOrder (sortSlice : SortSlice) (m : List (List Bool)) : List Pair :=
  sortSlice (searchOrderLoop 0 m []) lessCount

/-- The position in the enumeration `fields'` of the field at position `f` of the
enumeration `fields`. -/
def reindex (fields fields' : List (String × Field)) (f : Nat) : Nat :=
  @List.indexOf (String × Field) instBEqOfDecidableEq (fields.getD f ("", ⟨[]⟩)) fields'

/-- Spec: the character is one of the decimal digits `0` to `9`. -/
def isDecimalDigit (c : Char) : Bool :=
  decide (48 ≤ c.toNat ∧ c.toNat ≤ 57)

/-- Spec: the token is a decimal integer: an optional sign, then one digit or more. -/
def isDecimalInteger (tok : List Char) : Bool :=
  match tok with
  | [] => false
  | c :: cs =>
    if c = '+' ∨ c = '-' then !cs.isEmpty && cs.all isDecimalDigit
    else (c :: cs).all isDecimalDigit

/-- Spec: the number a list of decimal digits denotes after the digits read so far
have given `n`. -/
def digitsValue (n : Nat) (cs : List Char) : Nat :=
  cs.foldl (fun a c => a * 10 + (c.toNat - 48)) n

/-- Spec: the decimal rendering `a-b` of a range. -/
def renderRange (r : Nat × Nat) : List Char :=
  Nat.toDigits 10 r.1 ++ '-' :: Nat.toDigits 10 r.2

/-- Spec: the renderings of the ranges, joined by ` or `. -/
def renderRanges : List (Nat × Nat) → List Char
  | [] => []
  | [r] => renderRange r
  | r :: r' :: rest => renderRange r ++ (" or ".toList ++ renderRanges (r' :: rest))

/-- Spec: the field line `<name>: a_1-b_1 or a_2-b_2 or ...`. -/
def renderField (name : String) (ranges : List (Nat × Nat)) : String :=
  String.mk (name.toList ++ (": ".toList ++ renderRanges ranges))

/-- A puzzle of thirteen fields and thirteen columns: field `f1` accepts the values
`0` to `19`, every other field `fi` the values `10 i` to `10 i + 9`; the value of
column `c` of the own ticket is `10 c + 5`; there are no nearby tickets. -/
def thirteenColumns : Puzzle :=
  ⟨[("f0", ⟨[⟨0, 9⟩]⟩), ("f1", ⟨[⟨0, 19⟩]⟩), ("f2", ⟨[⟨20, 29⟩]⟩), ("f3", ⟨[⟨30, 39⟩]⟩),
    ("f4", ⟨[⟨40, 49⟩]⟩), ("f5", ⟨[⟨50, 59⟩]⟩), ("f6", ⟨[⟨60, 69⟩]⟩), ("f7", ⟨[⟨70, 79⟩]⟩),
    ("f8", ⟨[⟨80, 89⟩]⟩), ("f9", ⟨[⟨90, 99⟩]⟩), ("f10", ⟨[⟨100, 109⟩]⟩),
    ("f11", ⟨[⟨110, 119⟩]⟩), ("f12", ⟨[⟨120, 129⟩]⟩)],
    [5, 15, 25, 35, 45, 55, 65, 75, 85, 95, 105, 115, 125], []⟩

/-- The slice `searchOrder` of `detectOrder` on `thirteenColumns` before the call of
`sort.Slice`: column `0` has two candidate fields, every other column one. -/
def thirteenUnsorted : List Pair :=
  [⟨0, 2⟩, ⟨1, 1⟩, ⟨2, 1⟩, ⟨3, 1⟩, ⟨4, 1⟩, ⟨5, 1⟩, ⟨6, 1⟩, ⟨7, 1⟩, ⟨8, 1⟩, ⟨9, 1⟩, ⟨10, 1⟩,
    ⟨11, 1⟩, ⟨12, 1⟩]

/-- The slice `searchOrder` of `detectOrder` on `thirteenColumns` after the call of
`sort.Slice`. -/
def thirteenSorted : List Pair :=
  [⟨6, 1⟩, ⟨1, 1⟩, ⟨2, 1⟩, ⟨3, 1⟩, ⟨4, 1⟩, ⟨5, 1⟩, ⟨7, 1⟩, ⟨8, 1⟩, ⟨9, 1⟩, ⟨10, 1⟩, ⟨11, 1⟩,
    ⟨12, 1⟩, ⟨0, 2⟩]

/-- The candidate matrix of `thirteenColumns`: column `c` admits field `c`, and column
`0` admits field `1` as well. -/
def thirteenMatrix : List (List Bool) :=
  (List.range 13).map fun c => (List.range 13).map fun f => decide (f = c ∨ (c = 0 ∧ f = 1))

end Day16

namespace Day7

open Day16 (Panic index assign wrapInt)

/-- The rulesets that the calls of `GetBagColorIndex` and `DefineRule` lead to from
the empty ruleset; the map handed to `DefineRule` has distinct keys. -/
inductive Reachable : Ruleset → Prop where
  | empty : Reachable emptyRuleset
  | getIndex (ruleset : Ruleset) (bagColor : String) :
      Reachable ruleset → Reachable (ruleset.GetBagColorIndex bagColor).2
  | defineRule (ruleset ruleset' : Ruleset) (bagColor : String)
      (bagContent : List (String × Int)) :
      Reachable ruleset → (bagContent.map Prod.fst).Nodup →
      ruleset.DefineRule bagColor bagContent = .ok ruleset' → Reachable ruleset'

/-- The invariant of the reachable rulesets: the colours are numbered `0, 1, …` in
the order of their registration, no colour twice, and every rule refers to
registered bags, to none of them twice. -/
structure WellFormed (ruleset : Ruleset) : Prop where
  indices : ruleset.bagColorIndices.map Prod.snd = List.range ruleset.rules.length
  colours : (ruleset.bagColorIndices.map Prod.fst).Nodup
  inRange : ∀ rule ∈ ruleset.rules, ∀ bc ∈ rule, bc.bagIdx < ruleset.rules.length
  distinct : ∀ rule ∈ ruleset.rules, (rule.map BagCount.bagIdx).Nodup

/-- The ruleset that the `DefineRule` calls of `readRules` build for the published
example. -/
def publishedRuleset : Ruleset :=
  ⟨[("bright white", 0), ("muted yellow", 1), ("light red", 2), ("dark orange", 3),
    ("shiny gold", 4), ("faded blue", 5), ("dark olive", 6), ("vibrant plum", 7),
    ("dotted black", 8)],
   [[⟨4, 1⟩], [⟨4, 2⟩, ⟨5, 9⟩], [⟨0, 1⟩, ⟨1, 2⟩], [⟨0, 3⟩, ⟨1, 4⟩], [⟨6, 1⟩, ⟨7, 2⟩], [],
    [⟨5, 3⟩, ⟨8, 4⟩], [⟨5, 5⟩, ⟨8, 6⟩], []]⟩

/-- The containers of bag `i` among the rules `rules`, which start at index `k`:
index `idx` once for every entry of rule `idx` that names bag `i`. -/
def containersOf : List BagContent → Nat → Nat → List Nat
  | [], _, _ => []
  | rule :: rest, k, i =>
    List.replicate (rule.countP fun bc => bc.bagIdx = i) k ++ containersOf rest (k + 1) i

/-- Rule `j` has an entry for bag `i`: bag `j` directly contains bag `i`. -/
def Contains (rules : List BagContent) (j i : Nat) : Prop :=
  ∃ rule, rules[j]? = some rule ∧ ∃ bc ∈ rule, bc.bagIdx = i

/-- Spec: the rule of colour `X` has an entry for colour `Y`, a direct edge
"`X` contains `Y`". -/
def ColourContains (ruleset : Ruleset) (X Y : String) : Prop :=
  ∃ j i, ruleset.bagColorIndices.lookup X = some j ∧
    ruleset.bagColorIndices.lookup Y = some i ∧ Contains ruleset.rules j i

/-- The number of bags inside each bag of the published example, by index. -/
def publishedTotal (b : Nat) : Int :=
  [33, 75, 186, 406, 32, 0, 7, 11, 0].getD b 0

/-- The depth of each bag of the published example, by index. -/
def publishedRank (b : Nat) : Nat :=
  [3, 3, 4, 4, 2, 0, 1, 1, 0].getD b 0

/-- A ruleset in which the product `count * (1 + total)` leaves the range of `int`. -/
def overflowRuleset : Ruleset :=
  ⟨[("dark red", 0), ("shiny gold", 1), ("faded blue", 2)],
   [[⟨2, 1⟩], [⟨0, 9223372036854775807⟩], []]⟩

/-- The number of bags inside each bag of `overflowRuleset`, by index. -/
def overflowTotal (b : Nat) : Int :=
  [1, 18446744073709551614, 0].getD b 0

end Day7

/-! # Theorems -/

namespace Day16

theorem canBeValidValueLoop_iff (val : Int) (rules : List Interval) :
    canBeValidValueLoop val rules = true ↔ ∃ iv ∈ rules, iv.start ≤ val ∧ val ≤ iv.end := by
  induction rules with
  | nil => simp [canBeValidValueLoop]
  | cons iv rest ih =>
    by_cases h : iv.start ≤ val ∧ val ≤ iv.end
    · simp [canBeValidValueLoop, h]
    · simp only [canBeValidValueLoop, h, if_false, ih, List.mem_cons, exists_eq_or_imp, false_or]

theorem validForAnyField_iff_inSomeRange (val : Int) (fields : List (String × Field)) :
    validForAnyField val fields = true ↔ InSomeRange fields val := by
  unfold InSomeRange
  induction fields with
  | nil => simp [validForAnyField]
  | cons nf rest ih =>
    obtain ⟨name, field⟩ := nf
    by_cases h : field.canBeValidValue val = true
    · have h2 := (canBeValidValueLoop_iff val field.rules).1 h
      simp only [validForAnyField, h, if_true, List.mem_cons, exists_eq_or_imp, true_iff]
      exact Or.inl h2
    · have h2 : ¬ ∃ iv ∈ field.rules, iv.start ≤ val ∧ val ≤ iv.end :=
        fun hc => h ((canBeValidValueLoop_iff val field.rules).2 hc)
      simp only [validForAnyField, h, if_false, List.mem_cons, exists_eq_or_imp, h2, false_or]
      exact ih

theorem validForAnyField_perm (val : Int) {f1 f2 : List (String × Field)} (h : f1.Perm f2) :
    validForAnyField val f1 = validForAnyField val f2 := by
  rw [Bool.eq_iff_iff, validForAnyField_iff_inSomeRange, validForAnyField_iff_inSomeRange]
  unfold InSomeRange
  constructor
  · rintro ⟨nf, hnf, r⟩; exact ⟨nf, h.mem_iff.1 hnf, r⟩
  · rintro ⟨nf, hnf, r⟩; exact ⟨nf, h.mem_iff.2 hnf, r⟩

/-- Claim C6: `validForAnyField v F` holds exactly when some field of `F` has an
interval with `start ≤ v ≤ end`, both bounds inclusive.  For a field map holding the
single interval `s ..= e`, the values `s - 1` and `e + 1` are rejected, and `s` and
`e` are accepted; the acceptance is that of an interval in the sense of the data
model, `s ≤ e`. -/
theorem validForAnyField_spec (v : Int) (F : List (String × Field)) :
    (validForAnyField v F = true ↔
      ∃ nf ∈ F, ∃ iv ∈ nf.2.rules, iv.start ≤ v ∧ v ≤ iv.end) ∧
    ∀ (name : String) (s e : Int),
      validForAnyField (s - 1) [(name, ⟨[⟨s, e⟩]⟩)] = false ∧
      validForAnyField (e + 1) [(name, ⟨[⟨s, e⟩]⟩)] = false ∧
      (s ≤ e → validForAnyField s [(name, ⟨[⟨s, e⟩]⟩)] = true ∧
        validForAnyField e [(name, ⟨[⟨s, e⟩]⟩)] = true) := by
  refine ⟨validForAnyField_iff_inSomeRange v F, ?_⟩
  intro name s e
  refine ⟨?_, ?_, ?_⟩
  · simp [validForAnyField, Field.canBeValidValue, canBeValidValueLoop]
  · simp [validForAnyField, Field.canBeValidValue, canBeValidValueLoop]
  · intro h
    simp [validForAnyField, Field.canBeValidValue, canBeValidValueLoop, h]

theorem wrapInt_modEq (x : Int) : wrapInt x ≡ x [ZMOD 2 ^ intBits] := by
  unfold wrapInt
  have h : (x + 2 ^ (intBits - 1)) % 2 ^ intBits ≡ x + 2 ^ (intBits - 1) [ZMOD 2 ^ intBits] :=
    Int.mod_modEq _ _
  simpa using h.sub_right (2 ^ (intBits - 1))

theorem wrapInt_congr {a b : Int} (h : a ≡ b [ZMOD 2 ^ intBits]) : wrapInt a = wrapInt b := by
  unfold wrapInt
  have h2 : (a + 2 ^ (intBits - 1)) % 2 ^ intBits = (b + 2 ^ (intBits - 1)) % 2 ^ intBits :=
    h.add_right _
  rw [h2]

theorem wrapInt_of_range {x : Int} (h1 : -(2 ^ 63) ≤ x) (h2 : x < 2 ^ 63) : wrapInt x = x := by
  unfold wrapInt intBits
  have : (x + 2 ^ (64 - 1)) % 2 ^ 64 = x + 2 ^ (64 - 1) := by
    apply Int.emod_eq_of_lt <;> norm_num <;> omega
  rw [this]; ring

theorem wrapInt_idem (x : Int) : wrapInt (wrapInt x) = wrapInt x :=
  wrapInt_congr (wrapInt_modEq x)

theorem errorRateTicket_eq (fields : List (String × Field)) (t : List Int) (acc : Int) :
    wrapInt (errorRateTicket fields acc t) =
      wrapInt (acc + (t.filter fun v => decide (¬ InSomeRange fields v)).sum) := by
  induction t generalizing acc with
  | nil => simp [errorRateTicket]
  | cons v rest ih =>
    by_cases h : validForAnyField v fields = true
    · have h2 : InSomeRange fields v := (validForAnyField_iff_inSomeRange v fields).1 h
      simp [errorRateTicket, h, ih, h2]
    · have h2 : ¬ InSomeRange fields v := fun hc => h ((validForAnyField_iff_inSomeRange v fields).2 hc)
      simp only [errorRateTicket, h, ih, Bool.not_false, if_true]
      rw [List.filter_cons_of_pos (by simpa using h2), List.sum_cons]
      apply wrapInt_congr
      have := (wrapInt_modEq (acc + v)).add_right
        (List.filter (fun v => decide (¬ InSomeRange fields v)) rest).sum
      simpa [add_assoc] using this

theorem errorRateLoop_eq (fields : List (String × Field)) (ts : List Ticket) (acc : Int) :
    wrapInt (errorRateLoop fields acc ts) = wrapInt (acc + rejectedSum fields ts) := by
  induction ts generalizing acc with
  | nil => simp [errorRateLoop, rejectedSum]
  | cons t rest ih =>
    simp only [errorRateLoop, ih]
    apply wrapInt_congr
    have h1 := wrapInt_modEq (errorRateTicket fields acc t)
    rw [errorRateTicket_eq] at h1
    have h2 := (wrapInt_modEq (acc + (t.filter fun v => decide (¬ InSomeRange fields v)).sum))
    have h3 := (h1.symm.trans h2).add_right (rejectedSum fields rest)
    simpa [rejectedSum, add_assoc] using h3

theorem errorRateTicket_wrapped (fields : List (String × Field)) (t : List Int) (acc : Int)
    (h : wrapInt acc = acc) : wrapInt (errorRateTicket fields acc t) = errorRateTicket fields acc t := by
  induction t generalizing acc with
  | nil => simpa [errorRateTicket] using h
  | cons v rest ih =>
    simp only [errorRateTicket]
    split
    · exact ih _ (wrapInt_idem _)
    · exact ih _ h

theorem errorRateLoop_wrapped (fields : List (String × Field)) (ts : List Ticket) (acc : Int)
    (h : wrapInt acc = acc) : wrapInt (errorRateLoop fields acc ts) = errorRateLoop fields acc ts := by
  induction ts generalizing acc with
  | nil => simpa [errorRateLoop] using h
  | cons t rest ih =>
    simp only [errorRateLoop]
    exact ih _ (errorRateTicket_wrapped fields t acc h)

theorem wrapInt_zero : wrapInt 0 = 0 := by decide

theorem rejectedSum_eq_zero (fields : List (String × Field)) (ts : List Ticket)
    (h : ∀ t ∈ ts, ∀ v ∈ t, InSomeRange fields v) : rejectedSum fields ts = 0 := by
  unfold rejectedSum
  apply List.sum_eq_zero
  intro x hx
  obtain ⟨t, ht, rfl⟩ := List.mem_map.1 hx
  have : t.filter (fun v => decide (¬ InSomeRange fields v)) = [] := by
    rw [List.filter_eq_nil_iff]
    intro v hv
    simpa using h t ht v hv
  rw [this]; rfl

/-- Claim C4, as amended: `getTicketScanningErrorRate` returns the sum of the nearby
values that lie in no range of any field, wrapped into the 64-bit range of Go's
`int`; it is exactly that sum whenever the sum lies in that range.  The result does
not depend on the own ticket, and it is `0` when every nearby value is accepted by
some field. -/
theorem getTicketScanningErrorRate_spec (puzzle : Puzzle) :
    getTicketScanningErrorRate puzzle = wrapInt (rejectedSum puzzle.fields puzzle.nearbyTickets) ∧
    (-(2 ^ 63) ≤ rejectedSum puzzle.fields puzzle.nearbyTickets →
      rejectedSum puzzle.fields puzzle.nearbyTickets < 2 ^ 63 →
      getTicketScanningErrorRate puzzle = rejectedSum puzzle.fields puzzle.nearbyTickets) ∧
    (∀ own : Ticket, getTicketScanningErrorRate ⟨puzzle.fields, own, puzzle.nearbyTickets⟩ =
      getTicketScanningErrorRate puzzle) ∧
    ((∀ t ∈ puzzle.nearbyTickets, ∀ v ∈ t, InSomeRange puzzle.fields v) →
      getTicketScanningErrorRate puzzle = 0) := by
  have key : getTicketScanningErrorRate puzzle =
      wrapInt (rejectedSum puzzle.fields puzzle.nearbyTickets) := by
    unfold getTicketScanningErrorRate
    rw [← errorRateLoop_wrapped _ _ _ wrapInt_zero, errorRateLoop_eq, zero_add]
  refine ⟨key, ?_, ?_, ?_⟩
  · intro h1 h2
    rw [key, wrapInt_of_range h1 h2]
  · intro own; rfl
  · intro h
    rw [key, rejectedSum_eq_zero _ _ h, wrapInt_zero]

/-- Claim C4 fails as stated: with the single field `a: 0-10`, own ticket `5` and the
nearby ticket `9223372036854775807,9223372036854775807`, the rejected values sum to
`2^64 - 2` while the function returns `-2`. -/
theorem getTicketScanningErrorRate_overflow :
    getTicketScanningErrorRate
      ⟨[("a", ⟨[⟨0, 10⟩]⟩)], [5], [[9223372036854775807, 9223372036854775807]]⟩ = -2 ∧
    rejectedSum [("a", ⟨[⟨0, 10⟩]⟩)] [[9223372036854775807, 9223372036854775807]]
      = 18446744073709551614 := by
  constructor <;> decide

theorem isValidTicket_eq (fields : List (String × Field)) (t : List Int) :
    isValidTicket fields t = t.all fun v => decide (InSomeRange fields v) := by
  induction t with
  | nil => rfl
  | cons v rest ih =>
    by_cases h : validForAnyField v fields = true
    · have h2 : InSomeRange fields v := (validForAnyField_iff_inSomeRange v fields).1 h
      simp [isValidTicket, h, ih, h2]
    · have h2 : ¬ InSomeRange fields v := fun hc => h ((validForAnyField_iff_inSomeRange v fields).2 hc)
      simp [isValidTicket, h, h2]

theorem validTicketsLoop_eq (fields : List (String × Field)) (ts acc : List Ticket) :
    validTicketsLoop fields acc ts = acc ++ ts.filter (isValidTicket fields) := by
  induction ts generalizing acc with
  | nil => simp [validTicketsLoop]
  | cons t rest ih =>
    by_cases h : isValidTicket fields t = true
    · simp [validTicketsLoop, h, ih]
    · simp [validTicketsLoop, h, ih]

theorem getValidTickets_eq (puzzle : Puzzle) :
    getValidTickets puzzle =
      puzzle.nearbyTickets.filter (isValidTicket puzzle.fields) ++ [puzzle.ticket] := by
  simp [getValidTickets, validTicketsLoop_eq]

/-- Claim C5: `getValidTickets` returns, in their original order, exactly the nearby
tickets all of whose values lie in some range of some field, followed by the own
ticket as last element, whatever the values of the own ticket. -/
theorem getValidTickets_spec (puzzle : Puzzle) :
    getValidTickets puzzle =
      puzzle.nearbyTickets.filter
        (fun t => t.all fun v => decide (InSomeRange puzzle.fields v)) ++ [puzzle.ticket] := by
  rw [getValidTickets_eq]
  congr 2
  funext t
  exact isValidTicket_eq _ t

/-- Claim C9 fails as stated: with the single field `a: 0-10`, own ticket `5` and no
nearby ticket, filtering the already filtered list returns the own ticket twice. -/
theorem getValidTickets_not_idempotent :
    getValidTickets ⟨[("a", ⟨[⟨0, 10⟩]⟩)], [5], getValidTickets ⟨[("a", ⟨[⟨0, 10⟩]⟩)], [5], []⟩⟩
      ≠ getValidTickets ⟨[("a", ⟨[⟨0, 10⟩]⟩)], [5], []⟩ := by
  decide

/-- Claim C9, as amended: with `V = getValidTickets P`, filtering again the nearby
part of `V` (that is `V` without its last element, the own ticket) yields `V`;
filtering `V` itself yields `V` when the own ticket holds a value that no field
accepts, and `V` followed by one more copy of the own ticket otherwise. -/
theorem getValidTickets_refilter (puzzle : Puzzle) :
    getValidTickets ⟨puzzle.fields, puzzle.ticket, (getValidTickets puzzle).dropLast⟩ =
      getValidTickets puzzle ∧
    getValidTickets ⟨puzzle.fields, puzzle.ticket, getValidTickets puzzle⟩ =
      (if puzzle.ticket.all (fun v => decide (InSomeRange puzzle.fields v))
        then getValidTickets puzzle ++ [puzzle.ticket] else getValidTickets puzzle) := by
  constructor
  · simp [getValidTickets_eq]
  · rw [← isValidTicket_eq]
    by_cases h : isValidTicket puzzle.fields puzzle.ticket = true
    · simp [getValidTickets_eq, List.filter_append, h]
    · simp [getValidTickets_eq, List.filter_append, h]

theorem wrapInt_one : wrapInt 1 = 1 := by decide

theorem markedProduct_cons (marker field : String) (rest : List String) (v : Int) (vs : List Int) :
    markedProduct marker (field :: rest) (v :: vs) =
      if hasPrefix field marker then v * markedProduct marker rest vs
      else markedProduct marker rest vs := by
  by_cases h : hasPrefix field marker = true <;> simp [markedProduct, h]

theorem projectionLoop_eq (marker : String) (ticket : Ticket) (rest : List String) (idx : Nat)
    (solution : Int) (hidx : idx + rest.length ≤ ticket.length) (hsol : wrapInt solution = solution) :
    projectionLoop marker ticket idx rest solution =
      .ok (wrapInt (solution * markedProduct marker rest (ticket.drop idx))) := by
  induction rest generalizing idx solution with
  | nil => simp [projectionLoop, markedProduct, hsol]
  | cons field rest ih =>
    have hlt : idx < ticket.length := by simp at hidx; omega
    have hle : idx + 1 + rest.length ≤ ticket.length := by simp at hidx; omega
    have hdrop : ticket.drop idx = ticket[idx] :: ticket.drop (idx + 1) := by
      exact List.drop_eq_getElem_cons hlt
    by_cases h : hasPrefix field marker = true
    · simp only [projectionLoop, h, if_true, index, List.getElem?_eq_getElem hlt]
      show projectionLoop marker ticket (idx + 1) rest (wrapInt (solution * ticket[idx])) = _
      rw [ih (idx + 1) _ hle (wrapInt_idem _)]
      congr 1
      apply wrapInt_congr
      have := (wrapInt_modEq (solution * ticket[idx])).mul_right
        (markedProduct marker rest (ticket.drop (idx + 1)))
      rw [hdrop, markedProduct_cons, if_pos h, ← mul_assoc]
      exact this
    · simp only [projectionLoop, h]
      rw [ih (idx + 1) _ hle hsol]
      rw [hdrop, markedProduct_cons, if_neg h]
      simp

theorem markedProduct_eq_one (marker : String) (orderedFields : List String) (ticket : Ticket)
    (h : ∀ name ∈ orderedFields, hasPrefix name marker = false) :
    markedProduct marker orderedFields ticket = 1 := by
  unfold markedProduct
  have : (orderedFields.zip ticket).filter (fun nt => hasPrefix nt.1 marker) = [] := by
    rw [List.filter_eq_nil_iff]
    rintro ⟨n, v⟩ hnv
    simp [h n (List.of_mem_zip hnv).1]
  rw [this]; rfl

/-- Claim C10, as amended: for assigned field names and an own ticket of the same
length, the projection loop of `main` returns the product of the own-ticket values
of exactly the columns whose name begins with the marker, wrapped into the 64-bit
range of Go's `int` (so the product itself whenever it lies in that range), and `1`
when no name begins with the marker.  `main` runs the loop with the marker
`"departure "`.  With the names seat, class, row, the marker `class` and the own
ticket `11,12,13` the result is `12`. -/
theorem projectionLoop_spec (marker : String) (orderedFields : List String) (ticket : Ticket)
    (hlen : orderedFields.length = ticket.length) :
    projectionLoop marker ticket 0 orderedFields 1 =
      .ok (wrapInt (markedProduct marker orderedFields ticket)) ∧
    (-(2 ^ 63) ≤ markedProduct marker orderedFields ticket →
      markedProduct marker orderedFields ticket < 2 ^ 63 →
      projectionLoop marker ticket 0 orderedFields 1 =
        .ok (markedProduct marker orderedFields ticket)) ∧
    ((∀ name ∈ orderedFields, hasPrefix name marker = false) →
      projectionLoop marker ticket 0 orderedFields 1 = .ok 1) ∧
    mainSolution orderedFields ticket =
      .ok (wrapInt (markedProduct departureMarker orderedFields ticket)) ∧
    projectionLoop "class" [11, 12, 13] 0 ["seat", "class", "row"] 1 = .ok 12 := by
  have key : ∀ m, projectionLoop m ticket 0 orderedFields 1 =
      .ok (wrapInt (markedProduct m orderedFields ticket)) := by
    intro m
    rw [projectionLoop_eq m ticket orderedFields 0 1 (by omega) wrapInt_one]
    simp
  refine ⟨key marker, ?_, ?_, key _, rfl⟩
  · intro h1 h2
    rw [key, wrapInt_of_range h1 h2]
  · intro h
    rw [key, markedProduct_eq_one _ _ _ h, wrapInt_one]

theorem projectionLoop_spec_witness :
    projectionLoop "class" [11, 12, 13] 0 ["seat", "class", "row"] 1 =
      .ok (wrapInt (markedProduct "class" ["seat", "class", "row"] [11, 12, 13])) :=
  (projectionLoop_spec "class" ["seat", "class", "row"] [11, 12, 13] (by decide)).1

/-- Claim C10 fails as stated: with the names `departure a`, `departure b` and the own
ticket `4294967296,4294967296` the product of the marked columns is `2^64`, while
the loop of `main` yields `0`. -/
theorem mainSolution_overflow :
    mainSolution ["departure a", "departure b"] [4294967296, 4294967296] = .ok 0 ∧
    markedProduct departureMarker ["departure a", "departure b"] [4294967296, 4294967296]
      = 18446744073709551616 := by
  exact ⟨rfl, by decide⟩

theorem ok_bind {α β : Type} (x : α) (f : α → Except Panic β) :
    (Except.ok x >>= f) = f x := rfl

theorem error_bind {α β : Type} (e : Panic) (f : α → Except Panic β) :
    ((Except.error e : Except Panic α) >>= f) = Except.error e := rfl

theorem index_append_cons {α : Type} (pre : List α) (x : α) (post : List α) (i : Nat)
    (h : pre.length = i) : index (pre ++ x :: post) i = .ok x := by
  subst h
  unfold index
  rw [List.getElem?_append_right (le_refl _)]
  simp

theorem assign_append_cons {α : Type} (pre : List α) (x y : α) (post : List α) (i : Nat)
    (h : pre.length = i) : assign (pre ++ x :: post) i y = .ok (pre ++ y :: post) := by
  subst h
  simp [assign]

theorem narrowFields_ok (val : Int) (pos : Nat) (rest : List Field) :
    ∀ (k : Nat) (pre post : List Bool) (mpre mpost : List (List Bool)),
      mpre.length = pos → pre.length = k → post.length = rest.length →
      narrowFields val pos k rest (mpre ++ (pre ++ post) :: mpost) =
        .ok (mpre ++ (pre ++ narrowRow val rest post) :: mpost) := by
  induction rest with
  | nil =>
    intro k pre post mpre mpost _ _ hpost
    have : post = [] := List.length_eq_zero.1 hpost
    subst this
    simp [narrowFields, narrowRow]
  | cons field rest ih =>
    intro k pre post mpre mpost hpos hk hpost
    match post, hpost with
    | b :: post', hpost =>
      have hpost' : post'.length = rest.length := by simpa using hpost
      have h := ih (k + 1) (pre ++ [b && field.canBeValidValue val]) post' mpre mpost hpos
        (by simp [hk]) hpost'
      simp only [List.append_assoc, List.singleton_append] at h
      simp only [narrowFields, index_append_cons _ _ _ _ hpos, index_append_cons _ _ _ _ hk,
        assign_append_cons _ _ _ _ _ hk, assign_append_cons _ _ _ _ _ hpos, ok_bind]
      exact h

theorem narrowRow_length (val : Int) (fields : List Field) (row : List Bool)
    (h : row.length = fields.length) : (narrowRow val fields row).length = fields.length := by
  simp [narrowRow, h]

theorem narrowTicket_ok (fields : List Field) (vals : List Int) :
    ∀ (pos : Nat) (mpre mpost : List (List Bool)),
      mpre.length = pos → mpost.length = vals.length →
      (∀ row ∈ mpost, row.length = fields.length) →
      narrowTicket fields pos vals (mpre ++ mpost) =
        .ok (mpre ++ narrowByTicket fields mpost vals) := by
  induction vals with
  | nil =>
    intro pos mpre mpost _ hlen _
    have : mpost = [] := List.length_eq_zero.1 hlen
    subst this
    simp [narrowTicket, narrowByTicket]
  | cons val vals ih =>
    intro pos mpre mpost hpos hlen hrows
    match mpost, hlen, hrows with
    | row :: mpost', hlen, hrows =>
      have hrow : row.length = fields.length := hrows row (List.mem_cons_self _ _)
      have h1 := narrowFields_ok val pos fields 0 [] row mpre mpost' hpos rfl hrow
      simp only [List.nil_append] at h1
      have h2 := ih (pos + 1) (mpre ++ [narrowRow val fields row]) mpost' (by simp [hpos])
        (by simpa using hlen) (fun r hr => hrows r (List.mem_cons_of_mem _ hr))
      simp only [List.append_assoc, List.singleton_append] at h2
      simp only [narrowTicket, h1, ok_bind]
      exact h2

theorem narrowByTicket_length (fields : List Field) (m : List (List Bool)) (t : Ticket)
    (h : t.length = m.length) : (narrowByTicket fields m t).length = m.length := by
  simp [narrowByTicket, h]

theorem narrowByTicket_rows (fields : List Field) (m : List (List Bool)) (t : Ticket)
    (hrows : ∀ row ∈ m, row.length = fields.length) :
    ∀ row ∈ narrowByTicket fields m t, row.length = fields.length := by
  induction m generalizing t with
  | nil => intro row hrow; simp [narrowByTicket] at hrow
  | cons r m ih =>
    cases t with
    | nil => intro row hrow; simp [narrowByTicket] at hrow
    | cons v t =>
      intro row hrow
      simp only [narrowByTicket, List.zipWith_cons_cons, List.mem_cons] at hrow
      rcases hrow with h | h
      · rw [h]; exact narrowRow_length v fields r (hrows r (List.mem_cons_self _ _))
      · exact ih t (fun r' hr' => hrows r' (List.mem_cons_of_mem _ hr')) row h

theorem narrowTickets_ok (fields : List Field) (ts : List Ticket) :
    ∀ m : List (List Bool), (∀ t ∈ ts, t.length = m.length) →
      (∀ row ∈ m, row.length = fields.length) →
      narrowTickets fields ts m = .ok (ts.foldl (narrowByTicket fields) m) := by
  induction ts with
  | nil => intro m _ _; rfl
  | cons t ts ih =>
    intro m hlen hrows
    have ht : t.length = m.length := hlen t (List.mem_cons_self _ _)
    have h1 := narrowTicket_ok fields t 0 [] m rfl ht.symm hrows
    simp only [List.nil_append] at h1
    simp only [narrowTickets, h1, List.foldl_cons, ok_bind]
    apply ih
    · intro t' ht'
      rw [narrowByTicket_length fields m t ht]
      exact hlen t' (List.mem_cons_of_mem _ ht')
    · exact narrowByTicket_rows fields m t hrows

theorem initMatrix_eq (fields : List Field) (ncols : Nat) :
    initMatrix ncols fields.length = acceptMatrix fields ncols [] := by
  unfold initMatrix acceptMatrix
  apply List.ext_getElem
  · simp
  · intro c h1 h2
    simp only [List.getElem_replicate, List.getElem_map, List.all_nil]
    apply List.ext_getElem
    · simp
    · intro f h3 h4
      simp

theorem narrowByTicket_acceptMatrix (fields : List Field) (ncols : Nat) (done : List Ticket)
    (t : Ticket) (ht : t.length = ncols) :
    narrowByTicket fields (acceptMatrix fields ncols done) t =
      acceptMatrix fields ncols (done ++ [t]) := by
  unfold narrowByTicket acceptMatrix
  apply List.ext_getElem
  · simp [ht]
  · intro c h1 h2
    have hc : c < t.length := by simp at h2; omega
    simp only [List.getElem_zipWith, List.getElem_map, List.getElem_range, narrowRow,
      List.zipWith_map_left, List.zipWith_same, List.all_append, List.all_cons, List.all_nil,
      Bool.and_true]
    apply List.map_congr_left
    intro field _
    rw [List.getD_eq_getElem _ _ hc]

theorem foldl_narrowByTicket (fields : List Field) (ncols : Nat) (ts : List Ticket) :
    ∀ done : List Ticket, (∀ t ∈ ts, t.length = ncols) →
      ts.foldl (narrowByTicket fields) (acceptMatrix fields ncols done) =
        acceptMatrix fields ncols (done ++ ts) := by
  induction ts with
  | nil => intro done _; simp
  | cons t ts ih =>
    intro done h
    rw [List.foldl_cons, narrowByTicket_acceptMatrix fields ncols done t
      (h t (List.mem_cons_self _ _)), ih _ (fun t' ht' => h t' (List.mem_cons_of_mem _ ht'))]
    simp

theorem acceptMatrix_length (fields : List Field) (ncols : Nat) (ts : List Ticket) :
    (acceptMatrix fields ncols ts).length = ncols := by
  simp [acceptMatrix]

theorem acceptMatrix_rows (fields : List Field) (ncols : Nat) (ts : List Ticket) :
    ∀ row ∈ acceptMatrix fields ncols ts, row.length = fields.length := by
  intro row hrow
  simp only [acceptMatrix, List.mem_map] at hrow
  obtain ⟨c, _, rfl⟩ := hrow
  simp

theorem buildMatrix_eq (fields : List Field) (ncols : Nat) (ts : List Ticket)
    (h : ∀ t ∈ ts, t.length = ncols) :
    buildMatrix fields ncols ts = .ok (acceptMatrix fields ncols ts) := by
  unfold buildMatrix
  rw [initMatrix_eq, narrowTickets_ok fields ts _
    (by intro t ht; rw [acceptMatrix_length]; exact h t ht) (acceptMatrix_rows fields ncols []),
    foldl_narrowByTicket fields ncols ts [] h]
  simp

theorem entry_acceptMatrix (fields : List Field) (ncols : Nat) (ts : List Ticket) (c f : Nat)
    (hc : c < ncols) (field : Field) (hf : fields[f]? = some field) :
    entry (acceptMatrix fields ncols ts) c f =
      ts.all fun t => field.canBeValidValue (t.getD c 0) := by
  unfold entry acceptMatrix
  simp [List.getD_eq_getElem?_getD, List.getElem?_map, List.getElem?_range hc, hf]

theorem acceptMatrix_perm (fields : List Field) (ncols : Nat) {ts1 ts2 : List Ticket}
    (h : ts1.Perm ts2) : acceptMatrix fields ncols ts1 = acceptMatrix fields ncols ts2 := by
  unfold acceptMatrix
  apply List.map_congr_left
  intro c _
  apply List.map_congr_left
  intro field _
  rw [Bool.eq_iff_iff, List.all_eq_true, List.all_eq_true]
  exact ⟨fun hh t ht => hh t (h.mem_iff.2 ht), fun hh t ht => hh t (h.mem_iff.1 ht)⟩

/-- Claim C7: when every retained ticket has the length of the own ticket, the
candidate matrix of `detectOrder` is built without a panic, has one row per column
of the own ticket and one entry per field, and its entry for column `c` and the
field at position `f` is `true` exactly when that field accepts the value at
position `c` of every ticket of `getValidTickets`. -/
theorem candidateMatrix_spec (puzzle : Puzzle)
    (hlen : ∀ t ∈ getValidTickets puzzle, t.length = puzzle.ticket.length) :
    ∃ m, candidateMatrix puzzle = .ok m ∧ m.length = puzzle.ticket.length ∧
      (∀ row ∈ m, row.length = puzzle.fields.length) ∧
      ∀ (c f : Nat) (name : String) (field : Field), c < puzzle.ticket.length →
        puzzle.fields[f]? = some (name, field) →
        (entry m c f = true ↔
          ∀ t ∈ getValidTickets puzzle, ∀ v, t[c]? = some v → field.canBeValidValue v = true) := by
  refine ⟨acceptMatrix (puzzle.fields.map Prod.snd) puzzle.ticket.length (getValidTickets puzzle),
    buildMatrix_eq _ _ _ hlen, acceptMatrix_length _ _ _, ?_, ?_⟩
  · intro row hrow
    simpa using acceptMatrix_rows _ _ _ row hrow
  · intro c f name field hc hf
    have hf' : (puzzle.fields.map Prod.snd)[f]? = some field := by simp [hf]
    rw [entry_acceptMatrix _ _ _ c f hc field hf', List.all_eq_true]
    constructor
    · intro h t ht v hv
      have := h t ht
      obtain ⟨hlt, hget⟩ := List.getElem?_eq_some.1 hv
      rwa [List.getD_eq_getElem _ _ hlt, hget] at this
    · intro h t ht
      have hlt : c < t.length := by rw [hlen t ht]; exact hc
      rw [List.getD_eq_getElem _ _ hlt]
      exact h t ht _ (List.getElem?_eq_getElem hlt)

/-- Claim C8: for every field list, the matrix-building loop of `detectOrder`
produces the same matrix for two lists of tickets of the column arity that are
permutations of one another. -/
theorem buildMatrix_perm (fields : List Field) (ncols : Nat) (ts1 ts2 : List Ticket)
    (hperm : ts1.Perm ts2) (hlen : ∀ t ∈ ts1, t.length = ncols) :
    ∃ m, buildMatrix fields ncols ts1 = .ok m ∧ buildMatrix fields ncols ts2 = .ok m := by
  refine ⟨acceptMatrix fields ncols ts1, buildMatrix_eq _ _ _ hlen, ?_⟩
  rw [acceptMatrix_perm fields ncols hperm]
  exact buildMatrix_eq _ _ _ (fun t ht => hlen t (hperm.mem_iff.2 ht))

theorem tryFields_some (recur : List Bool → Option (List Nat)) (rest : List Bool) :
    ∀ (k : Nat) (used : List Bool) (asg : List Nat),
      tryFields recur k rest used = some asg →
      ∃ f asg', asg = f :: asg' ∧ k ≤ f ∧ rest.getD (f - k) false = true ∧
        used.getD f true = false ∧ recur (used.set f true) = some asg' := by
  induction rest with
  | nil => intro k used asg h; simp [tryFields] at h
  | cons b rest ih =>
    intro k used asg h
    have step : tryFields recur (k + 1) rest used = some asg →
        ∃ f asg', asg = f :: asg' ∧ k ≤ f ∧ (b :: rest).getD (f - k) false = true ∧
          used.getD f true = false ∧ recur (used.set f true) = some asg' := by
      intro h'
      obtain ⟨f, asg', h1, h2, h3, h4, h5⟩ := ih (k + 1) used asg h'
      refine ⟨f, asg', h1, by omega, ?_, h4, h5⟩
      have : f - k = (f - (k + 1)) + 1 := by omega
      rw [this]
      simpa using h3
    unfold tryFields at h
    split at h
    · rename_i hc
      simp only [Bool.and_eq_true, Bool.not_eq_eq_eq_not, Bool.not_true] at hc
      split at h
      · rename_i asg' hr
        refine ⟨k, asg', (Option.some.inj h).symm, le_refl _, by simp [hc.1], hc.2, hr⟩
      · exact step h
    · exact step h

theorem getD_set_ne (used : List Bool) (f g : Nat) (b d : Bool) (h : f ≠ g) :
    (used.set f b).getD g d = used.getD g d := by
  simp [List.getD_eq_getElem?_getD, List.getElem?_set_ne h]

theorem getD_set_self_true (used : List Bool) (f : Nat) :
    (used.set f true).getD f true = true := by
  by_cases h : f < used.length
  · simp [List.getD_eq_getElem?_getD, List.getElem?_set_self h]
  · have hnone : (used.set f true)[f]? = none := List.getElem?_eq_none (by simp; omega)
    simp [List.getD_eq_getElem?_getD, hnone]

theorem forall₂_mem_right {α β : Type} {R : α → β → Prop} {l1 : List α} {l2 : List β}
    (h : List.Forall₂ R l1 l2) {b : β} (hb : b ∈ l2) : ∃ a, a ∈ l1 ∧ R a b := by
  induction h with
  | nil => simp at hb
  | cons hab _ ih =>
    rcases List.mem_cons.1 hb with rfl | hb'
    · exact ⟨_, List.mem_cons_self _ _, hab⟩
    · obtain ⟨a, ha, hr⟩ := ih hb'
      exact ⟨a, List.mem_cons_of_mem _ ha, hr⟩

theorem forall₂_mem_left {α β : Type} {R : α → β → Prop} {l1 : List α} {l2 : List β}
    (h : List.Forall₂ R l1 l2) {a : α} (ha : a ∈ l1) : ∃ b, b ∈ l2 ∧ R a b := by
  induction h with
  | nil => simp at ha
  | cons hab _ ih =>
    rcases List.mem_cons.1 ha with rfl | ha'
    · exact ⟨_, List.mem_cons_self _ _, hab⟩
    · obtain ⟨b, hb, hr⟩ := ih ha'
      exact ⟨b, List.mem_cons_of_mem _ hb, hr⟩

theorem firstAssign_sound (m : List (List Bool)) (cols : List Nat) :
    ∀ (used : List Bool) (asg : List Nat),
      firstAssign m cols used = some asg → Fills m used cols asg := by
  induction cols with
  | nil =>
    intro used asg h
    simp only [firstAssign, Option.some.injEq] at h
    subst h
    exact ⟨List.Forall₂.nil, List.nodup_nil⟩
  | cons c cs ih =>
    intro used asg h
    obtain ⟨f, asg', rfl, _, h3, h4, h5⟩ := tryFields_some _ _ 0 used asg h
    obtain ⟨hall, hnd⟩ := ih _ _ h5
    have hmono : List.Forall₂ (fun c f' => (entry m c f' = true ∧ used.getD f' true = false) ∧
        f' ≠ f) cs asg' := by
      refine hall.imp ?_
      intro c' f' hcf
      have hne : f' ≠ f := by
        rintro rfl
        rw [getD_set_self_true] at hcf
        exact Bool.noConfusion hcf.2
      exact ⟨⟨hcf.1, by rw [← getD_set_ne used f f' true true (Ne.symm hne)]; exact hcf.2⟩, hne⟩
    refine ⟨List.Forall₂.cons ⟨by simpa [entry] using h3, h4⟩ (hmono.imp fun _ _ h => h.1), ?_⟩
    refine List.nodup_cons.2 ⟨?_, hnd⟩
    intro hmem
    obtain ⟨c', _, hc'⟩ := forall₂_mem_right hmono hmem
    exact hc'.2 rfl

theorem tryFields_complete (recur : List Bool → Option (List Nat)) (rest : List Bool) :
    ∀ (k f : Nat) (used : List Bool), k ≤ f → rest.getD (f - k) false = true →
      used.getD f true = false → recur (used.set f true) ≠ none →
      tryFields recur k rest used ≠ none := by
  induction rest with
  | nil => intro k f used _ h; simp at h
  | cons b rest ih =>
    intro k f used hk hrow hfree hrec
    have step : k < f → tryFields recur (k + 1) rest used ≠ none := by
      intro hlt
      apply ih (k + 1) f used hlt _ hfree hrec
      have : f - k = (f - (k + 1)) + 1 := by omega
      rw [this] at hrow
      simpa using hrow
    unfold tryFields
    rcases Nat.eq_or_lt_of_le hk with heq | hlt
    · subst heq
      have hb : b = true := by simpa using hrow
      simp only [hb, hfree, Bool.not_false, Bool.and_self, if_true]
      cases hr : recur (used.set k true) with
      | none => exact absurd hr hrec
      | some asg => simp
    · split
      · split
        · simp
        · exact step hlt
      · exact step hlt

theorem firstAssign_complete (m : List (List Bool)) (cols : List Nat) :
    ∀ (used : List Bool) (asg : List Nat), Fills m used cols asg →
      firstAssign m cols used ≠ none := by
  induction cols with
  | nil => intro used asg _; simp [firstAssign]
  | cons c cs ih =>
    intro used asg h
    obtain ⟨hall, hnd⟩ := h
    cases hall with
    | cons hcf hrest =>
      rename_i f asg'
      have hnd' := List.nodup_cons.1 hnd
      unfold firstAssign
      apply tryFields_complete _ _ 0 f used (Nat.zero_le _) (by simpa [entry] using hcf.1) hcf.2
      apply ih (used.set f true) asg'
      refine ⟨?_, hnd'.2⟩
      have hmem : List.Forall₂ (fun c' f' => (entry m c' f' = true ∧ used.getD f' true = false) ∧
          f' ∈ asg') cs asg' := by
        clear ih hnd hnd' hcf
        induction hrest with
        | nil => exact List.Forall₂.nil
        | cons h _ ih' =>
          exact List.Forall₂.cons ⟨h, List.mem_cons_self _ _⟩
            (ih'.imp fun _ _ hh => ⟨hh.1, List.mem_cons_of_mem _ hh.2⟩)
      refine hmem.imp ?_
      intro c' f' hh
      have hne : f ≠ f' := fun e => hnd'.1 (e ▸ hh.2)
      exact ⟨hh.1.1, by rw [getD_set_ne used f f' true true hne]; exact hh.1.2⟩

theorem index_ok {α : Type} (xs : List α) (i : Nat) (h : i < xs.length) :
    index xs i = .ok xs[i] := by
  simp [index, List.getElem?_eq_getElem h]

theorem assign_ok {α : Type} (xs : List α) (i : Nat) (x : α) (h : i < xs.length) :
    assign xs i x = .ok (xs.set i x) := by
  simp [assign, h]

theorem set_eq_self {α : Type} (xs : List α) (i : Nat) (x : α) (h : i < xs.length)
    (hx : xs[i] = x) : xs.set i x = xs := by
  apply List.ext_getElem (by simp)
  intro j h1 h2
  rw [List.getElem_set]
  split
  · rename_i hij; subst hij; exact hx.symm
  · rfl

theorem tryFields_skip (recur : List Bool → Option (List Nat)) (k : Nat) (b : Bool)
    (rest used : List Bool) (h : b = false ∨ used.getD k true = true) :
    tryFields recur k (b :: rest) used = tryFields recur (k + 1) rest used := by
  rw [tryFields]
  rcases h with h | h
  · simp [h]
  · rw [if_neg]
    simp only [List.getD_eq_getElem?_getD] at h
    simp [h]

theorem tryFields_take (recur : List Bool → Option (List Nat)) (k : Nat)
    (rest used : List Bool) (h : used.getD k true = false) :
    tryFields recur k (true :: rest) used =
      match recur (used.set k true) with
      | some asg => some (k :: asg)
      | none => tryFields recur (k + 1) rest used := by
  rw [tryFields, if_pos (by rw [h]; rfl)]
  try rfl

theorem genPermLoop_skip (recur : SearchState → Except Panic SearchState) (c k : Nat) (b : Bool)
    (rest : List Bool) (s : SearchState)
    (h : b = false ∨ s.stopComputation = true ∨ index s.inPermutation k = .ok true) :
    genPermLoop recur c k (b :: rest) s = genPermLoop recur c (k + 1) rest s := by
  conv => lhs; unfold genPermLoop
  rcases h with h | h | h
  · simp [h]
  · simp [h]
  · by_cases hc : (b && !s.stopComputation) = true
    · simp only [hc, if_true, h, ok_bind]
      simp
    · simp [hc]

theorem genPermLoop_take (recur : SearchState → Except Panic SearchState) (c k : Nat)
    (rest : List Bool) (s s2 : SearchState) (hs : s.stopComputation = false)
    (hk : k < s.inPermutation.length) (hfree : s.inPermutation[k] = false)
    (hc : c < s.permutation.length)
    (hrec : recur ⟨false, s.permutation.set c k, s.inPermutation.set k true⟩ = .ok s2)
    (hin : s2.inPermutation = s.inPermutation.set k true) :
    genPermLoop recur c k (true :: rest) s =
      genPermLoop recur c (k + 1) rest ⟨s2.stopComputation, s2.permutation, s.inPermutation⟩ := by
  conv => lhs; unfold genPermLoop
  have h1 : index s.inPermutation k = .ok false := by rw [index_ok _ _ hk, hfree]
  have h2 : assign s2.inPermutation k false = .ok s.inPermutation := by
    rw [assign_ok _ _ _ (by rw [hin]; simpa using hk), hin, List.set_set,
      set_eq_self _ _ _ hk hfree]
  simp only [hs, Bool.not_false, Bool.and_self, if_true, h1, ok_bind, assign_ok _ _ _ hk,
    assign_ok _ _ _ hc, hrec, h2]

theorem genPermLoop_stopped (recur : SearchState → Except Panic SearchState) (c : Nat)
    (rest : List Bool) : ∀ (k : Nat) (s : SearchState), s.stopComputation = true →
      genPermLoop recur c k rest s = .ok s := by
  induction rest with
  | nil => intro k s _; rfl
  | cons b rest ih =>
    intro k s hs
    rw [genPermLoop_skip _ _ _ _ _ _ (Or.inr (Or.inl hs))]
    exact ih (k + 1) s hs

theorem genPermLoop_spec (m : List (List Bool)) (n : Nat)
    (recur : SearchState → Except Panic SearchState) (c : Nat) (cs : List Nat)
    (hc : c ∉ cs) (hcn : c < n)
    (hrec : ∀ s : SearchState, s.stopComputation = false → s.permutation.length = n →
      s.inPermutation.length = n →
      ∃ s', recur s = .ok s' ∧ SearchPost cs (firstAssign m cs s.inPermutation) s s')
    (rest : List Bool) :
    ∀ (k : Nat) (s : SearchState), s.stopComputation = false → s.permutation.length = n →
      s.inPermutation.length = n → k + rest.length = n →
      ∃ s', genPermLoop recur c k rest s = .ok s' ∧
        SearchPost (c :: cs) (tryFields (firstAssign m cs) k rest s.inPermutation) s s' := by
  induction rest with
  | nil =>
    intro k s hs _ _ _
    exact ⟨s, rfl, rfl, rfl, fun _ _ => rfl, fun _ => hs, fun asg h => by simp [tryFields] at h⟩
  | cons b rest ih =>
    intro k s hs hp hi hk
    have hk' : k + 1 + rest.length = n := by simp at hk; omega
    have hkl : k < s.inPermutation.length := by simp at hk; omega
    have hgetD : s.inPermutation.getD k true = s.inPermutation[k] :=
      List.getD_eq_getElem _ _ hkl
    cases b with
    | false =>
      rw [genPermLoop_skip _ _ _ _ _ _ (Or.inl rfl), tryFields_skip _ _ _ _ _ (Or.inl rfl)]
      exact ih (k + 1) s hs hp hi hk'
    | true =>
      cases hu : s.inPermutation[k] with
      | true =>
        rw [genPermLoop_skip _ _ _ _ _ _ (Or.inr (Or.inr (by rw [index_ok _ _ hkl, hu]))),
          tryFields_skip _ _ _ _ _ (Or.inr (by rw [hgetD, hu]))]
        exact ih (k + 1) s hs hp hi hk'
      | false =>
        have hcl : c < s.permutation.length := by rw [hp]; exact hcn
        obtain ⟨s2, hr, h2in, h2len, h2out, h2none, h2some⟩ :=
          hrec ⟨false, s.permutation.set c k, s.inPermutation.set k true⟩ rfl
            (by simp [hp]) (by simp [hi])
        simp only at h2in h2len h2out h2none h2some
        rw [genPermLoop_take recur c k rest s s2 hs hkl hu hcl hr h2in,
          tryFields_take _ _ _ _ (by rw [hgetD, hu])]
        have h2len' : s2.permutation.length = n := by rw [h2len]; simp [hp]
        have hck : s2.permutation[c]? = some k := by
          rw [h2out c hc, List.getElem?_set_self hcl]
        cases ho : firstAssign m cs (s.inPermutation.set k true) with
        | some asg =>
          obtain ⟨hstop, hmap⟩ := h2some asg ho
          rw [genPermLoop_stopped recur c rest (k + 1)
            ⟨s2.stopComputation, s2.permutation, s.inPermutation⟩ hstop]
          refine ⟨_, rfl, rfl, ?_, ?_, ?_, ?_⟩
          · simp [h2len]
          · intro c' hc'
            have hne : c ≠ c' := fun e => hc' (e ▸ List.mem_cons_self _ _)
            have : c' ∉ cs := fun e => hc' (List.mem_cons_of_mem _ e)
            show s2.permutation[c']? = _
            rw [h2out c' this, List.getElem?_set_ne hne]
          · intro h; simp at h
          · intro asg' h
            simp only [Option.some.injEq] at h
            subst h
            refine ⟨hstop, ?_⟩
            show (c :: cs).map (fun c => s2.permutation[c]?) = _
            simp only [List.map_cons, hck, hmap]
        | none =>
          have hstop := h2none ho
          obtain ⟨s', hrun, h3in, h3len, h3out, h3none, h3some⟩ :=
            ih (k + 1) ⟨s2.stopComputation, s2.permutation, s.inPermutation⟩ hstop h2len' hi hk'
          simp only at h3in h3len h3out h3none h3some
          refine ⟨s', hrun, h3in, ?_, ?_, h3none, h3some⟩
          · rw [h3len, h2len]; simp
          · intro c' hc'
            have hne : c ≠ c' := fun e => hc' (e ▸ List.mem_cons_self _ _)
            have : c' ∉ cs := fun e => hc' (List.mem_cons_of_mem _ e)
            rw [h3out c' hc', h2out c' this, List.getElem?_set_ne hne]

theorem genPermFrom_spec (n : Nat) (m : List (List Bool)) (so : List Pair)
    (hm : m.length = n) (hrows : ∀ row ∈ m, row.length = n) (hso : so.length = n)
    (hidx : ∀ pr ∈ so, pr.idx < n) (hnd : (so.map Pair.idx).Nodup) :
    ∀ r, r ≤ n → ∀ s : SearchState, s.stopComputation = false → s.permutation.length = n →
      s.inPermutation.length = n →
      ∃ s', genPermFrom n m so r s = .ok s' ∧
        SearchPost ((so.drop (n - r)).map Pair.idx)
          (firstAssign m ((so.drop (n - r)).map Pair.idx) s.inPermutation) s s' := by
  intro r
  induction r with
  | zero =>
    intro _ s hs _ _
    have hdrop : so.drop (n - 0) = [] := by simp [hso]
    rw [hdrop]
    refine ⟨⟨true, s.permutation, s.inPermutation⟩, by simp [genPermFrom, hs], rfl, rfl,
      fun _ _ => rfl, ?_, ?_⟩
    · intro h; simp [firstAssign] at h
    · intro asg h
      simp only [firstAssign, Option.some.injEq] at h
      subst h
      simp
  | succ r ih =>
    intro hr s hs hp hi
    have hlt : n - (r + 1) < so.length := by omega
    have hdrop : so.drop (n - (r + 1)) = so[n - (r + 1)] :: so.drop (n - r) := by
      rw [List.drop_eq_getElem_cons hlt]
      congr 2
      omega
    have hmem : so[n - (r + 1)] ∈ so := List.getElem_mem _
    have hcn : so[n - (r + 1)].idx < n := hidx _ hmem
    have hcm : so[n - (r + 1)].idx < m.length := by rw [hm]; exact hcn
    have hnd' : (so[n - (r + 1)].idx :: (so.drop (n - r)).map Pair.idx).Nodup := by
      have := (List.drop_sublist (n - (r + 1)) so).map Pair.idx
      rw [hdrop] at this
      exact this.nodup hnd
    have hrow : m[so[n - (r + 1)].idx].length = n := hrows _ (List.getElem_mem _)
    obtain ⟨s', hrun, hpost⟩ := genPermLoop_spec m n (genPermFrom n m so r) so[n - (r + 1)].idx
      ((so.drop (n - r)).map Pair.idx) (List.nodup_cons.1 hnd').1 hcn
      (fun s1 h1 h2 h3 => ih (by omega) s1 h1 h2 h3) m[so[n - (r + 1)].idx] 0 s hs hp hi
      (by simp [hrow])
    refine ⟨s', ?_, ?_⟩
    · rw [genPermFrom]
      simp only [hs, index_ok _ _ hlt, index_ok _ _ hcm, ok_bind]
      simpa using hrun
    · rw [hdrop]
      simp only [List.map_cons, firstAssign]
      rw [List.getD_eq_getElem _ _ hcm]
      exact hpost

theorem searchOrderLoop_idx (m : List (List Bool)) :
    ∀ (k : Nat) (acc : List Pair),
      (searchOrderLoop k m acc).map Pair.idx = acc.map Pair.idx ++ List.range' k m.length := by
  induction m with
  | nil => intro k acc; simp [searchOrderLoop]
  | cons row m ih =>
    intro k acc
    rw [searchOrderLoop, ih]
    simp [List.range'_succ]

theorem searchOrder_cols (sortSlice : SortSlice)
    (hsort : ∀ xs less, (sortSlice xs less).Perm xs) (m : List (List Bool)) :
    ((sortSlice (searchOrderLoop 0 m []) lessCount).map Pair.idx).Perm (List.range m.length) := by
  have h := (hsort (searchOrderLoop 0 m []) lessCount).map Pair.idx
  rw [searchOrderLoop_idx] at h
  simpa [List.range_eq_range'] using h

theorem perm_range_of_nodup {l : List Nat} {n : Nat} (hnd : l.Nodup) (hlt : ∀ x ∈ l, x < n)
    (hlen : l.length = n) : l.Perm (List.range n) := by
  apply (List.subperm_of_subset hnd ?_).perm_of_length_le
  · simp [hlen]
  · intro x hx
    exact List.mem_range.2 (hlt x hx)

theorem map_getD_range (l : List Nat) : (List.range l.length).map (fun c => l.getD c 0) = l := by
  apply List.ext_getElem (by simp)
  intro i h1 h2
  simp [List.getD_eq_getElem?_getD, List.getElem?_eq_getElem h2]

theorem entry_lt (m : List (List Bool)) (n c f : Nat) (hrows : ∀ row ∈ m, row.length = n)
    (h : entry m c f = true) : f < n := by
  unfold entry at h
  by_contra hge
  by_cases hc : c < m.length
  · have hrow : (m.getD c []).length = n := by
      rw [List.getD_eq_getElem _ _ hc]; exact hrows _ (List.getElem_mem _)
    rw [List.getD_eq_getElem?_getD (m.getD c []), List.getElem?_eq_none (by omega)] at h
    simp at h
  · rw [List.getD_eq_getElem?_getD m, List.getElem?_eq_none (by omega)] at h
    simp at h

theorem asg_eq_map (cols asg perm : List Nat)
    (h : cols.map (fun c => perm[c]?) = asg.map some) :
    asg = cols.map (fun c => perm.getD c 0) := by
  have h2 := congrArg (List.map fun o : Option Nat => o.getD 0) h
  simp only [List.map_map] at h2
  have h3 : (fun o : Option Nat => o.getD 0) ∘ some = id := by funext x; rfl
  rw [h3, List.map_id] at h2
  rw [← h2]
  apply List.map_congr_left
  intro c _
  simp [List.getD_eq_getElem?_getD]

theorem assignment_of_fills (m : List (List Bool)) (n : Nat) (used : List Bool)
    (cols asg perm : List Nat) (hrows : ∀ row ∈ m, row.length = n)
    (hcols : cols.Perm (List.range n)) (hlen : perm.length = n)
    (hfill : Fills m used cols asg) (hmap : cols.map (fun c => perm[c]?) = asg.map some) :
    Assignment m n perm := by
  have hasg := asg_eq_map cols asg perm hmap
  subst hasg
  obtain ⟨hall, hnd⟩ := hfill
  rw [List.forall₂_map_right_iff, List.forall₂_same] at hall
  have hentry : ∀ c, c < n → entry m c (perm.getD c 0) = true := by
    intro c hc
    exact (hall c (hcols.mem_iff.2 (List.mem_range.2 hc))).1
  have hperm : ((List.range n).map fun c => perm.getD c 0).Perm perm := by
    rw [← hlen, map_getD_range]
  have hnd' : perm.Nodup := hperm.nodup_iff.1 ((hcols.map _).nodup_iff.1 hnd)
  refine ⟨perm_range_of_nodup hnd' ?_ hlen, ?_⟩
  · intro x hx
    obtain ⟨c, hc, hget⟩ := List.getElem_of_mem hx
    have := hentry c (by omega)
    rw [List.getD_eq_getElem _ _ hc, hget] at this
    exact entry_lt m n c x hrows this
  · intro c f hcf
    obtain ⟨hc, hget⟩ := List.getElem?_eq_some.1 hcf
    have := hentry c (by omega)
    rwa [List.getD_eq_getElem _ _ hc, hget] at this

theorem fills_of_assignment (m : List (List Bool)) (n : Nat) (cols σ : List Nat)
    (hcols : cols.Perm (List.range n)) (hσ : Assignment m n σ) :
    Fills m (List.replicate n false) cols (cols.map fun c => σ.getD c 0) := by
  obtain ⟨hperm, hentry⟩ := hσ
  have hlen : σ.length = n := by simpa using hperm.length_eq
  constructor
  · rw [List.forall₂_map_right_iff, List.forall₂_same]
    intro c hc
    have hcn : c < n := List.mem_range.1 (hcols.mem_iff.1 hc)
    have hcl : c < σ.length := by omega
    have hfn : σ[c] < n := List.mem_range.1 (hperm.mem_iff.1 (List.getElem_mem _))
    rw [List.getD_eq_getElem _ _ hcl]
    refine ⟨hentry c _ (List.getElem?_eq_getElem hcl), ?_⟩
    rw [List.getD_eq_getElem _ _ (by simpa using hfn)]
    simp
  · have h1 : ((List.range n).map fun c => σ.getD c 0).Nodup := by
      rw [← hlen, map_getD_range]
      exact hperm.nodup_iff.2 (List.nodup_range n)
    exact (hcols.map _).nodup_iff.2 h1

theorem solveMatrix_spec (sortSlice : SortSlice)
    (hsort : ∀ xs less, (sortSlice xs less).Perm xs) (n : Nat) (m : List (List Bool))
    (hm : m.length = n) (hrows : ∀ row ∈ m, row.length = n) :
    (∃ perm, solveMatrix sortSlice n m = .ok perm ∧ Assignment m n perm) ∨
    (solveMatrix sortSlice n m = .error .noValidPermutation ∧ ¬ ∃ σ, Assignment m n σ) := by
  have hcols := searchOrder_cols sortSlice hsort m
  rw [hm] at hcols
  have hso : (sortSlice (searchOrderLoop 0 m []) lessCount).length = n := by
    have := hcols.length_eq
    simpa using this
  have hidx : ∀ pr ∈ sortSlice (searchOrderLoop 0 m []) lessCount, pr.idx < n := by
    intro pr hpr
    exact List.mem_range.1 (hcols.mem_iff.1 (List.mem_map_of_mem _ hpr))
  have hnd := hcols.nodup_iff.2 (List.nodup_range n)
  obtain ⟨s', hrun, _, hlen, _, hnone, hsome⟩ :=
    genPermFrom_spec n m _ hm hrows hso hidx hnd n (le_refl n)
      ⟨false, List.replicate n 0, List.replicate n false⟩ rfl (by simp) (by simp)
  simp only [Nat.sub_self, List.drop_zero, List.length_replicate] at hlen hnone hsome
  have hrun' : genPerm n m (sortSlice (searchOrderLoop 0 m []) lessCount) 0
      ⟨false, List.replicate n 0, List.replicate n false⟩ = .ok s' := by
    simpa [genPerm] using hrun
  cases ho : firstAssign m ((sortSlice (searchOrderLoop 0 m []) lessCount).map Pair.idx)
      (List.replicate n false) with
  | none =>
    right
    refine ⟨?_, ?_⟩
    · simp only [solveMatrix, hrun', ok_bind, hnone ho]
      rfl
    · rintro ⟨σ, hσ⟩
      exact firstAssign_complete m _ _ _ (fills_of_assignment m n _ σ hcols hσ) ho
  | some asg =>
    left
    obtain ⟨hstop, hmap⟩ := hsome asg ho
    refine ⟨s'.permutation, ?_, ?_⟩
    · simp only [solveMatrix, hrun', ok_bind, hstop]
      rfl
    · exact assignment_of_fills m n _ _ asg _ hrows hcols hlen
        (firstAssign_sound m _ _ _ ho) hmap

theorem orderedFieldsLoop_ok (names : List String) (rest : List Nat) :
    ∀ (k : Nat) (pre post : List String), pre.length = k → post.length = rest.length →
      (∀ f ∈ rest, f < names.length) →
      orderedFieldsLoop names k rest (pre ++ post) =
        .ok (pre ++ rest.map fun f => names.getD f "") := by
  induction rest with
  | nil =>
    intro k pre post _ hpost _
    have : post = [] := List.length_eq_zero.1 hpost
    subst this
    simp [orderedFieldsLoop]
  | cons f rest ih =>
    intro k pre post hk hpost hlt
    match post, hpost with
    | x :: post', hpost =>
      have hf : f < names.length := hlt f (List.mem_cons_self _ _)
      have h := ih (k + 1) (pre ++ [names[f]]) post' (by simp [hk]) (by simpa using hpost)
        (fun g hg => hlt g (List.mem_cons_of_mem _ hg))
      simp only [List.append_assoc, List.singleton_append] at h
      simp only [orderedFieldsLoop, index_ok _ _ hf, ok_bind, assign_append_cons _ _ _ _ _ hk]
      rw [h, List.map_cons, List.getD_eq_getElem _ _ hf]

theorem validTickets_length (puzzle : Puzzle)
    (hnear : ∀ t ∈ puzzle.nearbyTickets, t.length = puzzle.ticket.length) :
    ∀ t ∈ getValidTickets puzzle, t.length = puzzle.ticket.length := by
  intro t ht
  rw [getValidTickets_eq, List.mem_append] at ht
  rcases ht with ht | ht
  · exact hnear t (List.mem_filter.1 ht).1
  · rw [List.mem_singleton.1 ht]

theorem detectOrder_cases (sortSlice : SortSlice)
    (hsort : ∀ xs less, (sortSlice xs less).Perm xs) (puzzle : Puzzle)
    (hlen : puzzle.fields.length = puzzle.ticket.length)
    (hnear : ∀ t ∈ puzzle.nearbyTickets, t.length = puzzle.ticket.length) :
    candidateMatrix puzzle = .ok (acceptMatrix (puzzle.fields.map Prod.snd) puzzle.ticket.length
      (getValidTickets puzzle)) ∧
    ((∃ perm, detectOrder sortSlice puzzle =
        .ok (perm.map fun f => (puzzle.fields.map Prod.fst).getD f "") ∧
        Assignment (acceptMatrix (puzzle.fields.map Prod.snd) puzzle.ticket.length
          (getValidTickets puzzle)) puzzle.fields.length perm) ∨
     (detectOrder sortSlice puzzle = .error .noValidPermutation ∧
        ¬ ∃ σ, Assignment (acceptMatrix (puzzle.fields.map Prod.snd) puzzle.ticket.length
          (getValidTickets puzzle)) puzzle.fields.length σ)) := by
  have hbuild := buildMatrix_eq (puzzle.fields.map Prod.snd) puzzle.ticket.length
    (getValidTickets puzzle) (validTickets_length puzzle hnear)
  refine ⟨hbuild, ?_⟩
  have hm : (acceptMatrix (puzzle.fields.map Prod.snd) puzzle.ticket.length
      (getValidTickets puzzle)).length = puzzle.fields.length := by
    rw [acceptMatrix_length, hlen]
  have hrows : ∀ row ∈ acceptMatrix (puzzle.fields.map Prod.snd) puzzle.ticket.length
      (getValidTickets puzzle), row.length = puzzle.fields.length := by
    intro row hrow
    simpa using acceptMatrix_rows _ _ _ row hrow
  rcases solveMatrix_spec sortSlice hsort puzzle.fields.length _ hm hrows with
    ⟨perm, hsolve, hassign⟩ | ⟨hsolve, hnone⟩
  · left
    refine ⟨perm, ?_, hassign⟩
    have hplen : perm.length = puzzle.fields.length := by simpa using hassign.1.length_eq
    have hlt : ∀ f ∈ perm, f < (puzzle.fields.map Prod.fst).length := by
      intro f hf
      simpa using List.mem_range.1 (hassign.1.mem_iff.1 hf)
    have hloop := orderedFieldsLoop_ok (puzzle.fields.map Prod.fst) perm 0 []
      (List.replicate puzzle.fields.length "") rfl (by simp [hplen]) hlt
    simp only [List.nil_append] at hloop
    simp only [detectOrder, hbuild, ok_bind, List.length_map, hsolve, hloop]
  · right
    refine ⟨?_, hnone⟩
    simp only [detectOrder, hbuild, ok_bind, List.length_map, hsolve, error_bind]

theorem insertLeft_perm (less : Pair → Pair → Bool) (x : Pair) (l : List Pair) :
    (insertLeft less x l).Perm (x :: l) := by
  induction l with
  | nil => simp [insertLeft]
  | cons y ys ih =>
    unfold insertLeft
    split
    · exact (List.Perm.cons y ih).trans (List.Perm.swap x y ys)
    · exact List.Perm.refl _

theorem insertionSortSlice_perm (xs : List Pair) (less : Pair → Pair → Bool) :
    (insertionSortSlice xs less).Perm xs := by
  have key : ∀ (l acc : List Pair),
      (l.foldl (fun sortedRev x => insertLeft less x sortedRev) acc).Perm (l ++ acc) := by
    intro l
    induction l with
    | nil => intro acc; simp
    | cons x l ih =>
      intro acc
      rw [List.foldl_cons]
      refine (ih _).trans ?_
      refine (List.Perm.append_left l (insertLeft_perm less x acc)).trans ?_
      exact List.perm_middle
  unfold insertionSortSlice
  exact (List.reverse_perm _).trans (by simpa using key xs [])

theorem field_unique (fields : List (String × Field)) (hkeys : (fields.map Prod.fst).Nodup)
    (name : String) (f1 f2 : Field) (h1 : (name, f1) ∈ fields) (h2 : (name, f2) ∈ fields) :
    f1 = f2 := by
  induction fields with
  | nil => simp at h1
  | cons nf rest ih =>
    simp only [List.map_cons, List.nodup_cons, List.mem_map, not_exists, not_and] at hkeys
    rcases List.mem_cons.1 h1 with e1 | m1 <;> rcases List.mem_cons.1 h2 with e2 | m2
    · rw [← e1] at e2
      exact (Prod.mk.inj e2).2.symm
    · exact absurd (show (name, f2).1 = nf.1 by rw [← e1]) (hkeys.1 _ m2)
    · exact absurd (show (name, f1).1 = nf.1 by rw [← e2]) (hkeys.1 _ m1)
    · exact ih hkeys.2 m1 m2

theorem names_perm (names : List String) (perm : List Nat)
    (h : perm.Perm (List.range names.length)) :
    (perm.map fun f => names.getD f "").Perm names := by
  have h1 := h.map fun f => names.getD f ""
  have h2 : (List.range names.length).map (fun f => names.getD f "") = names := by
    apply List.ext_getElem (by simp)
    intro i h1 h2
    simp [List.getD_eq_getElem?_getD, List.getElem?_eq_getElem h2]
  rwa [h2] at h1

theorem bijection_of_assignment (m : List (List Bool)) (nc nf : Nat) (hn : nf = nc)
    (σ : List Nat) (h : Assignment m nf σ) :
    ∃ τ : Fin nc → Fin nf, Function.Bijective τ ∧
      ∀ c : Fin nc, entry m c.val (τ c).val = true := by
  obtain ⟨hperm, hentry⟩ := h
  have hlen : σ.length = nf := by simpa using hperm.length_eq
  have hlt : ∀ c : Fin nc, σ.getD c 0 < nf := by
    intro c
    have hc : c.val < σ.length := by rw [hlen, hn]; exact c.isLt
    rw [List.getD_eq_getElem _ _ hc]
    exact List.mem_range.1 (hperm.mem_iff.1 (List.getElem_mem _))
  refine ⟨fun c => ⟨σ.getD c 0, hlt c⟩, ?_, ?_⟩
  · rw [Fintype.bijective_iff_injective_and_card]
    refine ⟨?_, by simp [hn]⟩
    intro a b hab
    have ha : a.val < σ.length := by rw [hlen, hn]; exact a.isLt
    have hb : b.val < σ.length := by rw [hlen, hn]; exact b.isLt
    have hab' : σ.getD a 0 = σ.getD b 0 := congrArg Fin.val hab
    rw [List.getD_eq_getElem _ _ ha, List.getD_eq_getElem _ _ hb] at hab'
    have hnd : σ.Nodup := hperm.nodup_iff.2 (List.nodup_range nf)
    exact Fin.ext ((hnd.getElem_inj_iff).1 hab')
  · intro c
    have hc : c.val < σ.length := by rw [hlen, hn]; exact c.isLt
    apply hentry c.val
    show σ[c.val]? = some (σ.getD c.val 0)
    rw [List.getD_eq_getElem _ _ hc]
    exact List.getElem?_eq_getElem hc

theorem assignment_of_bijection (m : List (List Bool)) (nc nf : Nat) (hn : nf = nc)
    (τ : Fin nc → Fin nf) (hbij : Function.Bijective τ)
    (hentry : ∀ c : Fin nc, entry m c.val (τ c).val = true) :
    Assignment m nf (List.ofFn fun c => (τ c).val) := by
  constructor
  · apply perm_range_of_nodup
    · rw [List.nodup_ofFn]
      intro a b hab
      exact hbij.1 (Fin.ext hab)
    · intro x hx
      rw [List.mem_ofFn] at hx
      obtain ⟨c, rfl⟩ := hx
      exact (τ c).isLt
    · simp [hn]
  · intro c f hcf
    obtain ⟨hc, hget⟩ := List.getElem?_eq_some.1 hcf
    have hc' : c < nc := by simpa using hc
    rw [List.getElem_ofFn] at hget
    rw [← hget]
    exact hentry ⟨c, hc'⟩

/-- Claim C1: for a puzzle with as many fields as the own ticket has values, all of
whose nearby tickets have that length too, a list returned by `detectOrder` has one
field name per ticket column, is a rearrangement of the field names of the puzzle,
and holds every field name exactly once.  The keys of the field map are pairwise
distinct, and `sortSlice` returns a rearrangement of its argument. -/
theorem detectOrder_bijection (sortSlice : SortSlice)
    (hsort : ∀ xs less, (sortSlice xs less).Perm xs) (puzzle : Puzzle)
    (hkeys : (puzzle.fields.map Prod.fst).Nodup)
    (hlen : puzzle.fields.length = puzzle.ticket.length)
    (hnear : ∀ t ∈ puzzle.nearbyTickets, t.length = puzzle.ticket.length)
    (r : List String) (hret : detectOrder sortSlice puzzle = .ok r) :
    r.length = puzzle.ticket.length ∧ r.Perm (puzzle.fields.map Prod.fst) ∧ r.Nodup ∧
      ∀ name ∈ puzzle.fields.map Prod.fst, r.count name = 1 := by
  rcases (detectOrder_cases sortSlice hsort puzzle hlen hnear).2 with ⟨perm, hrun, hassign⟩ | ⟨hrun, _⟩
  · rw [hrun] at hret
    have hr : r = perm.map fun f => (puzzle.fields.map Prod.fst).getD f "" :=
      (Except.ok.inj hret).symm
    have hperm : r.Perm (puzzle.fields.map Prod.fst) := by
      rw [hr]
      exact names_perm _ perm (by simpa using hassign.1)
    have hnd : r.Nodup := hperm.nodup_iff.2 hkeys
    refine ⟨by rw [hperm.length_eq]; simp [hlen], hperm, hnd, ?_⟩
    intro name hname
    exact List.count_eq_one_of_mem hnd (hperm.mem_iff.2 hname)
  · rw [hrun] at hret
    exact Except.noConfusion hret

theorem detectOrder_bijection_witness :
    detectOrder insertionSortSlice examplePuzzle = .ok ["row", "class", "seat"] ∧
    ["row", "class", "seat"].length = examplePuzzle.ticket.length ∧
    ["row", "class", "seat"].Perm (examplePuzzle.fields.map Prod.fst) ∧
    ["row", "class", "seat"].Nodup ∧
    ∀ name ∈ examplePuzzle.fields.map Prod.fst, ["row", "class", "seat"].count name = 1 :=
  ⟨rfl, detectOrder_bijection insertionSortSlice insertionSortSlice_perm examplePuzzle
    (by decide) (by decide) (by decide) ["row", "class", "seat"] rfl⟩

/-- Claim C2: for a puzzle with as many fields as the own ticket has values, all of
whose nearby tickets have that length too, if `detectOrder` returns `r` then every
column `c` carries the name of a field of the puzzle, the field named `r[c]` accepts
the value at position `c` of every ticket of `getValidTickets`, and the entry of the
candidate matrix for column `c` and the field assigned to it is `true`. -/
theorem detectOrder_accepts (sortSlice : SortSlice)
    (hsort : ∀ xs less, (sortSlice xs less).Perm xs) (puzzle : Puzzle)
    (hkeys : (puzzle.fields.map Prod.fst).Nodup)
    (hlen : puzzle.fields.length = puzzle.ticket.length)
    (hnear : ∀ t ∈ puzzle.nearbyTickets, t.length = puzzle.ticket.length)
    (r : List String) (hret : detectOrder sortSlice puzzle = .ok r) :
    (∀ c : Nat, c < puzzle.ticket.length → ∃ name field, r[c]? = some name ∧
      (name, field) ∈ puzzle.fields) ∧
    (∀ (c : Nat) (name : String) (field : Field), r[c]? = some name →
      (name, field) ∈ puzzle.fields →
      ∀ t ∈ getValidTickets puzzle, ∃ v, t[c]? = some v ∧ field.canBeValidValue v = true) ∧
    ∃ (m : List (List Bool)) (σ : List Nat),
      candidateMatrix puzzle = .ok m ∧ σ.length = puzzle.ticket.length ∧
      ∀ (c f : Nat), σ[c]? = some f → entry m c f = true ∧
        ∃ name field, puzzle.fields[f]? = some (name, field) ∧ r[c]? = some name := by
  obtain ⟨hmat, hcases⟩ := detectOrder_cases sortSlice hsort puzzle hlen hnear
  rcases hcases with ⟨perm, hrun, hassign⟩ | ⟨hrun, _⟩
  · rw [hrun] at hret
    have hr : r = perm.map fun f => (puzzle.fields.map Prod.fst).getD f "" :=
      (Except.ok.inj hret).symm
    have hplen : perm.length = puzzle.ticket.length := by
      rw [← hlen]; simpa using hassign.1.length_eq
    -- the data attached to one column
    have hcol : ∀ c f, perm[c]? = some f →
        entry (acceptMatrix (puzzle.fields.map Prod.snd) puzzle.ticket.length
          (getValidTickets puzzle)) c f = true ∧
        ∃ name field, puzzle.fields[f]? = some (name, field) ∧ r[c]? = some name := by
      intro c f hcf
      refine ⟨hassign.2 c f hcf, ?_⟩
      obtain ⟨hc, hget⟩ := List.getElem?_eq_some.1 hcf
      have hf : f < puzzle.fields.length := by
        rw [← hget]
        exact List.mem_range.1 (hassign.1.mem_iff.1 (List.getElem_mem _))
      refine ⟨puzzle.fields[f].1, puzzle.fields[f].2, List.getElem?_eq_getElem hf, ?_⟩
      rw [hr, List.getElem?_map, hcf]
      simp [List.getD_eq_getElem?_getD, List.getElem?_eq_getElem hf]
    have hacc : ∀ (c : Nat) (name : String) (field : Field), r[c]? = some name →
        (name, field) ∈ puzzle.fields →
        ∀ t ∈ getValidTickets puzzle, ∃ v, t[c]? = some v ∧ field.canBeValidValue v = true := by
      intro c name field hrc hmem t ht
      have hc : c < perm.length := by
        have := (List.getElem?_eq_some.1 hrc).1
        rw [hr] at this
        simpa using this
      obtain ⟨hentry, name', field', hfld, hrc'⟩ := hcol c perm[c] (List.getElem?_eq_getElem hc)
      have hname : name' = name := by
        rw [hrc] at hrc'
        exact (Option.some.inj hrc').symm
      subst hname
      have hfield : field' = field :=
        field_unique puzzle.fields hkeys name' field' field (List.getElem?_mem hfld) hmem
      subst hfield
      have hsnd : (puzzle.fields.map Prod.snd)[perm[c]]? = some field' := by simp [hfld]
      rw [entry_acceptMatrix _ _ _ c perm[c] (by omega) field' hsnd, List.all_eq_true] at hentry
      have htl : c < t.length := by
        rw [validTickets_length puzzle hnear t ht]; omega
      refine ⟨t[c], List.getElem?_eq_getElem htl, ?_⟩
      have := hentry t ht
      rwa [List.getD_eq_getElem _ _ htl] at this
    refine ⟨?_, hacc, _, perm, hmat, hplen, hcol⟩
    intro c hc
    have hc' : c < perm.length := by omega
    obtain ⟨_, name, field, hfld, hrc⟩ := hcol c perm[c] (List.getElem?_eq_getElem hc')
    exact ⟨name, field, hrc, List.getElem?_mem hfld⟩
  · rw [hrun] at hret
    exact Except.noConfusion hret

theorem detectOrder_accepts_witness :
    detectOrder insertionSortSlice examplePuzzle = .ok ["row", "class", "seat"] ∧
    ∀ (c : Nat) (name : String) (field : Field), ["row", "class", "seat"][c]? = some name →
      (name, field) ∈ examplePuzzle.fields →
      ∀ t ∈ getValidTickets examplePuzzle, ∃ v, t[c]? = some v ∧
        field.canBeValidValue v = true :=
  ⟨rfl, (detectOrder_accepts insertionSortSlice insertionSortSlice_perm examplePuzzle
    (by decide) (by decide) (by decide) ["row", "class", "seat"] rfl).2.1⟩

/-- Claim C3: for a puzzle with as many fields as the own ticket has values, all of
whose nearby tickets have that length too, `detectOrder` fails with the panic
`No valid permutation of fields` exactly when no bijection from columns to fields
has all its pairs `true` in the candidate matrix, and it returns normally whenever
there is such a bijection. -/
theorem detectOrder_panic_iff (sortSlice : SortSlice)
    (hsort : ∀ xs less, (sortSlice xs less).Perm xs) (puzzle : Puzzle)
    (hlen : puzzle.fields.length = puzzle.ticket.length)
    (hnear : ∀ t ∈ puzzle.nearbyTickets, t.length = puzzle.ticket.length) :
    ∃ m, candidateMatrix puzzle = .ok m ∧
      (detectOrder sortSlice puzzle = .error .noValidPermutation ↔
        ¬ ConsistentBijection puzzle m) ∧
      (ConsistentBijection puzzle m → ∃ r, detectOrder sortSlice puzzle = .ok r) := by
  obtain ⟨hmat, hcases⟩ := detectOrder_cases sortSlice hsort puzzle hlen hnear
  refine ⟨_, hmat, ?_⟩
  rcases hcases with ⟨perm, hrun, hassign⟩ | ⟨hrun, hnone⟩
  · have hbij : ConsistentBijection puzzle _ :=
      bijection_of_assignment _ puzzle.ticket.length puzzle.fields.length hlen perm hassign
    refine ⟨⟨?_, fun h => absurd hbij h⟩, fun _ => ⟨_, hrun⟩⟩
    intro h
    rw [hrun] at h
    exact Except.noConfusion h
  · have hno : ¬ ConsistentBijection puzzle (acceptMatrix (puzzle.fields.map Prod.snd)
        puzzle.ticket.length (getValidTickets puzzle)) := by
      rintro ⟨τ, hbij, hentry⟩
      exact hnone ⟨_, assignment_of_bijection _ _ _ hlen τ hbij hentry⟩
    exact ⟨⟨fun _ => hno, fun _ => hrun⟩, fun h => absurd h hno⟩

theorem detectOrder_panic_iff_witness :
    ∃ m, candidateMatrix examplePuzzle = .ok m ∧
      (detectOrder insertionSortSlice examplePuzzle = .error .noValidPermutation ↔
        ¬ ConsistentBijection examplePuzzle m) ∧
      (ConsistentBijection examplePuzzle m →
        ∃ r, detectOrder insertionSortSlice examplePuzzle = .ok r) :=
  detectOrder_panic_iff insertionSortSlice insertionSortSlice_perm examplePuzzle
    (by decide) (by decide)

theorem candidateMatrix_spec_witness :
    (∀ t ∈ getValidTickets examplePuzzle, t.length = examplePuzzle.ticket.length) ∧
    ∃ m, candidateMatrix examplePuzzle = .ok m ∧ m.length = examplePuzzle.ticket.length ∧
      (∀ row ∈ m, row.length = examplePuzzle.fields.length) ∧
      ∀ (c f : Nat) (name : String) (field : Field), c < examplePuzzle.ticket.length →
        examplePuzzle.fields[f]? = some (name, field) →
        (entry m c f = true ↔
          ∀ t ∈ getValidTickets examplePuzzle, ∀ v, t[c]? = some v →
            field.canBeValidValue v = true) :=
  ⟨by decide, candidateMatrix_spec examplePuzzle (by decide)⟩

theorem buildMatrix_perm_witness :
    ∃ m, buildMatrix (examplePuzzle.fields.map Prod.snd) 3 [[3, 9, 18], [15, 1, 5]] = .ok m ∧
      buildMatrix (examplePuzzle.fields.map Prod.snd) 3 [[15, 1, 5], [3, 9, 18]] = .ok m :=
  buildMatrix_perm (examplePuzzle.fields.map Prod.snd) 3 [[3, 9, 18], [15, 1, 5]]
    [[15, 1, 5], [3, 9, 18]] (List.Perm.swap _ _ _) (by decide)

/-- Claim C11 fails as stated: for the literal puzzle of the claim the function does
not return `71`. -/
theorem errorRate_example_ne_71 : getTicketScanningErrorRate examplePuzzle ≠ 71 := by
  decide

/-- Claim C11, as amended: for the puzzle with fields `class: 0-1 or 4-19`,
`row: 0-5 or 8-19`, `seat: 0-13 or 16-19`, own ticket `11,12,13` and nearby tickets
`3,9,18`, `15,1,5`, `5,14,9`, `getTicketScanningErrorRate` returns `0`: every nearby
value is accepted by some field. -/
theorem errorRate_example : getTicketScanningErrorRate examplePuzzle = 0 := by
  decide

theorem errorRate_published : getTicketScanningErrorRate publishedPuzzle = 71 := by
  decide

/-- Claim C12, at its own instance: with the fields `a: 0-10` and `b: 0-10`, the
one-value own ticket `5` and no nearby tickets, `detectOrder` does not end in the
panic `No valid permutation of fields`: the call `genPerm(1)` reads `searchOrder[1]`
of a one-element slice, an index out of range, whatever `sort.Slice` does. -/
theorem detectOrder_twoFieldsOneColumn (sortSlice : SortSlice)
    (hsort : ∀ xs less, (sortSlice xs less).Perm xs) :
    detectOrder sortSlice twoFieldsOneColumn = .error .indexOutOfRange := by
  have hso : sortSlice [⟨0, 2⟩] lessCount = [⟨0, 2⟩] :=
    List.perm_singleton.1 (hsort [⟨0, 2⟩] lessCount)
  have hm : buildMatrix (twoFieldsOneColumn.fields.map Prod.snd) twoFieldsOneColumn.ticket.length
      (getValidTickets twoFieldsOneColumn) = .ok [[true, true]] := rfl
  have hloop : searchOrderLoop 0 [[true, true]] [] = [⟨0, 2⟩] := rfl
  simp only [detectOrder, hm, ok_bind, solveMatrix, hloop, hso]
  rfl

theorem detectOrder_twoFieldsOneColumn_witness :
    detectOrder insertionSortSlice twoFieldsOneColumn = .error .indexOutOfRange :=
  detectOrder_twoFieldsOneColumn insertionSortSlice insertionSortSlice_perm

theorem tryFields_first (recur : List Bool → Option (List Nat)) (rest : List Bool) :
    ∀ (k : Nat) (used : List Bool) (asg : List Nat),
      tryFields recur k rest used = some asg →
      ∃ f asg', asg = f :: asg' ∧ k ≤ f ∧ recur (used.set f true) = some asg' ∧
        ∀ g, k ≤ g → g < f → rest.getD (g - k) false = true → used.getD g true = false →
          recur (used.set g true) = none := by
  induction rest with
  | nil => intro k used asg h; simp [tryFields] at h
  | cons b rest ih =>
    intro k used asg h
    have step : (b = false ∨ used.getD k true = true ∨ recur (used.set k true) = none) →
        tryFields recur (k + 1) rest used = some asg →
        ∃ f asg', asg = f :: asg' ∧ k ≤ f ∧ recur (used.set f true) = some asg' ∧
          ∀ g, k ≤ g → g < f → (b :: rest).getD (g - k) false = true →
            used.getD g true = false → recur (used.set g true) = none := by
      intro hk h'
      obtain ⟨f, asg', h1, h2, h3, h4⟩ := ih (k + 1) used asg h'
      refine ⟨f, asg', h1, by omega, h3, ?_⟩
      intro g hkg hgf hrow hfree
      rcases Nat.eq_or_lt_of_le hkg with heq | hlt
      · subst heq
        rcases hk with hb | hu | hr
        · simp [hb] at hrow
        · rw [hu] at hfree; exact Bool.noConfusion hfree
        · exact hr
      · apply h4 g hlt hgf _ hfree
        have : g - k = (g - (k + 1)) + 1 := by omega
        rw [this] at hrow
        simpa using hrow
    cases b with
    | false =>
      rw [tryFields_skip _ _ _ _ _ (Or.inl rfl)] at h
      exact step (Or.inl rfl) h
    | true =>
      cases hu : used.getD k true with
      | true =>
        rw [tryFields_skip _ _ _ _ _ (Or.inr hu)] at h
        exact step (Or.inr (Or.inl hu)) h
      | false =>
        rw [tryFields_take _ _ _ _ hu] at h
        cases hr : recur (used.set k true) with
        | none =>
          rw [hr] at h
          exact step (Or.inr (Or.inr hr)) h
        | some asg' =>
          rw [hr] at h
          refine ⟨k, asg', (Option.some.inj h).symm, le_refl _, hr, ?_⟩
          intro g hkg hgk
          omega

theorem fills_cons (m : List (List Bool)) (used : List Bool) (c f : Nat) (cs g : List Nat)
    (h : Fills m used (c :: cs) (f :: g)) :
    entry m c f = true ∧ used.getD f true = false ∧ Fills m (used.set f true) cs g := by
  obtain ⟨hall, hnd⟩ := h
  cases hall with
  | cons hcf hrest =>
    have hnd' := List.nodup_cons.1 hnd
    refine ⟨hcf.1, hcf.2, ?_, hnd'.2⟩
    have hmem : List.Forall₂ (fun c' f' => (entry m c' f' = true ∧ used.getD f' true = false) ∧
        f' ∈ g) cs g := by
      clear hnd hnd' hcf
      induction hrest with
      | nil => exact List.Forall₂.nil
      | cons h _ ih' =>
        exact List.Forall₂.cons ⟨h, List.mem_cons_self _ _⟩
          (ih'.imp fun _ _ hh => ⟨hh.1, List.mem_cons_of_mem _ hh.2⟩)
    refine hmem.imp ?_
    intro c' f' hh
    have hne : f ≠ f' := fun e => hnd'.1 (e ▸ hh.2)
    exact ⟨hh.1.1, by rw [getD_set_ne used f f' true true hne]; exact hh.1.2⟩

theorem firstAssign_least (m : List (List Bool)) (cols : List Nat) :
    ∀ (used : List Bool) (asg g : List Nat), firstAssign m cols used = some asg →
      Fills m used cols g → ¬ List.Lex (fun a b : Nat => a < b) g asg := by
  induction cols with
  | nil =>
    intro used asg g h hg hlex
    simp only [firstAssign, Option.some.injEq] at h
    subst h
    cases hlex
  | cons c cs ih =>
    intro used asg g h hg hlex
    obtain ⟨f, asg', rfl, _, hrec, hmin⟩ := tryFields_first _ _ 0 used asg h
    obtain ⟨hall, hnd⟩ := hg
    cases hall with
    | cons hcf hrest =>
      rename_i f0 g'
      obtain ⟨hentry, hfree, hfill⟩ := fills_cons m used c f0 cs g' ⟨List.Forall₂.cons hcf hrest, hnd⟩
      have hsome : firstAssign m cs (used.set f0 true) ≠ none :=
        firstAssign_complete m cs _ g' hfill
      cases hlex with
      | cons hl =>
        exact ih _ _ _ hrec hfill hl
      | rel hlt =>
        exact hsome (hmin f0 (Nat.zero_le _) hlt (by simpa [entry] using hentry) hfree)

theorem solveMatrix_first (sortSlice : SortSlice)
    (hsort : ∀ xs less, (sortSlice xs less).Perm xs) (n : Nat) (m : List (List Bool))
    (hm : m.length = n) (hrows : ∀ row ∈ m, row.length = n) (perm : List Nat)
    (hsolve : solveMatrix sortSlice n m = .ok perm) :
    Assignment m n perm ∧
    firstAssign m (searchColumns sortSlice m) (List.replicate n false) =
      some ((searchColumns sortSlice m).map fun c => perm.getD c 0) := by
  unfold searchColumns
  have hcols := searchOrder_cols sortSlice hsort m
  rw [hm] at hcols
  have hso : (sortSlice (searchOrderLoop 0 m []) lessCount).length = n := by
    have := hcols.length_eq
    simpa using this
  have hidx : ∀ pr ∈ sortSlice (searchOrderLoop 0 m []) lessCount, pr.idx < n := by
    intro pr hpr
    exact List.mem_range.1 (hcols.mem_iff.1 (List.mem_map_of_mem _ hpr))
  have hnd := hcols.nodup_iff.2 (List.nodup_range n)
  obtain ⟨s', hrun, _, hlen, _, hnone, hsome⟩ :=
    genPermFrom_spec n m _ hm hrows hso hidx hnd n (le_refl n)
      ⟨false, List.replicate n 0, List.replicate n false⟩ rfl (by simp) (by simp)
  simp only [Nat.sub_self, List.drop_zero, List.length_replicate] at hlen hnone hsome
  have hrun' : genPerm n m (sortSlice (searchOrderLoop 0 m []) lessCount) 0
      ⟨false, List.replicate n 0, List.replicate n false⟩ = .ok s' := by
    simpa [genPerm] using hrun
  cases ho : firstAssign m ((sortSlice (searchOrderLoop 0 m []) lessCount).map Pair.idx)
      (List.replicate n false) with
  | none =>
    have : solveMatrix sortSlice n m = .error .noValidPermutation := by
      simp only [solveMatrix, hrun', ok_bind, hnone ho]
      rfl
    rw [this] at hsolve
    exact Except.noConfusion hsolve
  | some asg =>
    obtain ⟨hstop, hmap⟩ := hsome asg ho
    have : solveMatrix sortSlice n m = .ok s'.permutation := by
      simp only [solveMatrix, hrun', ok_bind, hstop]
      rfl
    rw [this] at hsolve
    have hperm : s'.permutation = perm := Except.ok.inj hsolve
    subst hperm
    refine ⟨assignment_of_fills m n _ _ asg _ hrows hcols hlen (firstAssign_sound m _ _ _ ho) hmap,
      ?_⟩
    rw [asg_eq_map _ asg _ hmap]

theorem detectOrder_solve (sortSlice : SortSlice)
    (hsort : ∀ xs less, (sortSlice xs less).Perm xs) (puzzle : Puzzle)
    (hlen : puzzle.fields.length = puzzle.ticket.length)
    (hnear : ∀ t ∈ puzzle.nearbyTickets, t.length = puzzle.ticket.length)
    (r : List String) (hret : detectOrder sortSlice puzzle = .ok r) :
    ∃ perm, solveMatrix sortSlice puzzle.fields.length
        (acceptMatrix (puzzle.fields.map Prod.snd) puzzle.ticket.length
          (getValidTickets puzzle)) = .ok perm ∧
      r = perm.map fun f => (puzzle.fields.map Prod.fst).getD f "" := by
  have hbuild := buildMatrix_eq (puzzle.fields.map Prod.snd) puzzle.ticket.length
    (getValidTickets puzzle) (validTickets_length puzzle hnear)
  have hm : (acceptMatrix (puzzle.fields.map Prod.snd) puzzle.ticket.length
      (getValidTickets puzzle)).length = puzzle.fields.length := by
    rw [acceptMatrix_length, hlen]
  have hrows : ∀ row ∈ acceptMatrix (puzzle.fields.map Prod.snd) puzzle.ticket.length
      (getValidTickets puzzle), row.length = puzzle.fields.length := by
    intro row hrow
    simpa using acceptMatrix_rows _ _ _ row hrow
  rcases solveMatrix_spec sortSlice hsort puzzle.fields.length _ hm hrows with
    ⟨perm, hsolve, hassign⟩ | ⟨hsolve, _⟩
  · refine ⟨perm, hsolve, ?_⟩
    have hplen : perm.length = puzzle.fields.length := by simpa using hassign.1.length_eq
    have hlt : ∀ f ∈ perm, f < (puzzle.fields.map Prod.fst).length := by
      intro f hf
      simpa using List.mem_range.1 (hassign.1.mem_iff.1 hf)
    have hloop := orderedFieldsLoop_ok (puzzle.fields.map Prod.fst) perm 0 []
      (List.replicate puzzle.fields.length "") rfl (by simp [hplen]) hlt
    simp only [List.nil_append] at hloop
    simp only [detectOrder, hbuild, ok_bind, List.length_map, hsolve, hloop] at hret
    exact (Except.ok.inj hret).symm
  · simp only [detectOrder, hbuild, ok_bind, List.length_map, hsolve, error_bind] at hret
    exact Except.noConfusion hret

/-- Claim C19: for a fixed enumeration of the fields and a fixed search order,
whenever `detectOrder` returns, the assignment `permutation` behind the returned
names is the first complete consistent assignment of the depth-first search: read
along the search order it is the result of the search stopped at its first success
(the unwinding after success leaves it as recorded), and no consistent bijection,
read along the search order, is lexicographically smaller. -/
theorem detectOrder_first_success (sortSlice : SortSlice)
    (hsort : ∀ xs less, (sortSlice xs less).Perm xs) (puzzle : Puzzle)
    (hlen : puzzle.fields.length = puzzle.ticket.length)
    (hnear : ∀ t ∈ puzzle.nearbyTickets, t.length = puzzle.ticket.length)
    (r : List String) (hret : detectOrder sortSlice puzzle = .ok r) :
    ∃ (m : List (List Bool)) (perm : List Nat),
      candidateMatrix puzzle = .ok m ∧
      solveMatrix sortSlice puzzle.fields.length m = .ok perm ∧
      r = perm.map (fun f => (puzzle.fields.map Prod.fst).getD f "") ∧
      Assignment m puzzle.fields.length perm ∧
      firstAssign m (searchColumns sortSlice m) (List.replicate puzzle.fields.length false) =
        some ((searchColumns sortSlice m).map fun c => perm.getD c 0) ∧
      ∀ σ, Assignment m puzzle.fields.length σ →
        ¬ List.Lex (fun a b : Nat => a < b)
          ((searchColumns sortSlice m).map fun c => σ.getD c 0)
          ((searchColumns sortSlice m).map fun c => perm.getD c 0) := by
  obtain ⟨perm, hsolve, hr⟩ := detectOrder_solve sortSlice hsort puzzle hlen hnear r hret
  have hm : (acceptMatrix (puzzle.fields.map Prod.snd) puzzle.ticket.length
      (getValidTickets puzzle)).length = puzzle.fields.length := by
    rw [acceptMatrix_length, hlen]
  have hrows : ∀ row ∈ acceptMatrix (puzzle.fields.map Prod.snd) puzzle.ticket.length
      (getValidTickets puzzle), row.length = puzzle.fields.length := by
    intro row hrow
    simpa using acceptMatrix_rows _ _ _ row hrow
  obtain ⟨hassign, hfirst⟩ := solveMatrix_first sortSlice hsort _ _ hm hrows perm hsolve
  refine ⟨_, perm, (detectOrder_cases sortSlice hsort puzzle hlen hnear).1, hsolve, hr, hassign,
    hfirst, ?_⟩
  intro σ hσ
  have hcols : (searchColumns sortSlice (acceptMatrix (puzzle.fields.map Prod.snd)
      puzzle.ticket.length (getValidTickets puzzle))).Perm (List.range puzzle.fields.length) := by
    have := searchOrder_cols sortSlice hsort (acceptMatrix (puzzle.fields.map Prod.snd)
      puzzle.ticket.length (getValidTickets puzzle))
    rwa [hm] at this
  exact firstAssign_least _ _ _ _ _ hfirst (fills_of_assignment _ _ _ σ hcols hσ)

theorem detectOrder_first_success_witness :
    detectOrder insertionSortSlice examplePuzzle = .ok ["row", "class", "seat"] ∧
    ∃ (m : List (List Bool)) (perm : List Nat),
      candidateMatrix examplePuzzle = .ok m ∧
      solveMatrix insertionSortSlice examplePuzzle.fields.length m = .ok perm ∧
      ["row", "class", "seat"] =
        perm.map (fun f => (examplePuzzle.fields.map Prod.fst).getD f "") ∧
      Assignment m examplePuzzle.fields.length perm ∧
      firstAssign m (searchColumns insertionSortSlice m)
          (List.replicate examplePuzzle.fields.length false) =
        some ((searchColumns insertionSortSlice m).map fun c => perm.getD c 0) ∧
      ∀ σ, Assignment m examplePuzzle.fields.length σ →
        ¬ List.Lex (fun a b : Nat => a < b)
          ((searchColumns insertionSortSlice m).map fun c => σ.getD c 0)
          ((searchColumns insertionSortSlice m).map fun c => perm.getD c 0) :=
  ⟨rfl, detectOrder_first_success insertionSortSlice insertionSortSlice_perm examplePuzzle
    (by decide) (by decide) ["row", "class", "seat"] rfl⟩

theorem countLoop_eq (row : List Bool) : ∀ count, countLoop count row = count + row.count true := by
  induction row with
  | nil => intro count; simp [countLoop]
  | cons b row ih =>
    intro count
    cases b with
    | true => simp only [countLoop, if_true, ih, List.count_cons_self]; omega
    | false => simp [countLoop, ih]

theorem searchOrderLoop_mem (m : List (List Bool)) :
    ∀ (k : Nat) (acc : List Pair) (pr : Pair), pr ∈ searchOrderLoop k m acc →
      pr ∈ acc ∨ ∃ i row, m[i]? = some row ∧ pr = ⟨k + i, row.count true⟩ := by
  induction m with
  | nil => intro k acc pr h; exact Or.inl (by simpa [searchOrderLoop] using h)
  | cons r m ih =>
    intro k acc pr h
    rw [searchOrderLoop] at h
    rcases ih (k + 1) _ pr h with h1 | ⟨i, row, hi, hpr⟩
    · rcases List.mem_append.1 h1 with h2 | h2
      · exact Or.inl h2
      · refine Or.inr ⟨0, r, by simp, ?_⟩
        rw [List.mem_singleton.1 h2, countLoop_eq]
        simp
    · refine Or.inr ⟨i + 1, row, by simpa using hi, ?_⟩
      rw [hpr]
      congr 1
      omega

theorem insertLeft_mem (less : Pair → Pair → Bool) (x z : Pair) (l : List Pair) :
    z ∈ insertLeft less x l ↔ z = x ∨ z ∈ l := by
  rw [(insertLeft_perm less x l).mem_iff, List.mem_cons]

theorem insertLeft_descending (x : Pair) (l : List Pair)
    (h : l.Pairwise fun a b => b.count ≤ a.count) :
    (insertLeft lessCount x l).Pairwise fun a b => b.count ≤ a.count := by
  induction l with
  | nil => simp [insertLeft]
  | cons y ys ih =>
    have hy := List.pairwise_cons.1 h
    unfold insertLeft
    by_cases hless : lessCount x y = true
    · rw [if_pos hless]
      have hlt : x.count < y.count := by simpa [lessCount] using hless
      refine List.pairwise_cons.2 ⟨?_, ih hy.2⟩
      intro z hz
      rcases (insertLeft_mem _ _ _ _).1 hz with rfl | hz'
      · omega
      · exact hy.1 z hz'
    · rw [if_neg hless]
      have hge : y.count ≤ x.count := by simpa [lessCount] using hless
      refine List.pairwise_cons.2 ⟨?_, h⟩
      intro z hz
      rcases List.mem_cons.1 hz with rfl | hz'
      · exact hge
      · exact le_trans (hy.1 z hz') hge

theorem insertionSortSlice_sorted (xs : List Pair) :
    (insertionSortSlice xs lessCount).Pairwise fun a b => ¬ lessCount b a = true := by
  have key : ∀ (l acc : List Pair), (acc.Pairwise fun a b => b.count ≤ a.count) →
      (l.foldl (fun sortedRev x => insertLeft lessCount x sortedRev) acc).Pairwise
        fun a b => b.count ≤ a.count := by
    intro l
    induction l with
    | nil => intro acc h; exact h
    | cons x l ih => intro acc h; exact ih _ (insertLeft_descending x acc h)
  unfold insertionSortSlice
  rw [List.pairwise_reverse]
  refine (key xs [] List.Pairwise.nil).imp ?_
  intro a b hab
  simp only [lessCount, decide_eq_true_eq, not_lt]
  exact hab

theorem insertLeft_stable (x : Pair) (l : List Pair)
    (h : l.Pairwise fun a b => b.count < a.count ∨ (b.count = a.count ∧ b.idx < a.idx))
    (hidx : ∀ y ∈ l, y.idx < x.idx) :
    (insertLeft lessCount x l).Pairwise
      fun a b => b.count < a.count ∨ (b.count = a.count ∧ b.idx < a.idx) := by
  induction l with
  | nil => simp [insertLeft]
  | cons y ys ih =>
    have hy := List.pairwise_cons.1 h
    unfold insertLeft
    by_cases hless : lessCount x y = true
    · rw [if_pos hless]
      have hlt : x.count < y.count := by simpa [lessCount] using hless
      refine List.pairwise_cons.2 ⟨?_, ih hy.2 (fun z hz => hidx z (List.mem_cons_of_mem _ hz))⟩
      intro z hz
      rcases (insertLeft_mem _ _ _ _).1 hz with rfl | hz'
      · exact Or.inl hlt
      · exact hy.1 z hz'
    · rw [if_neg hless]
      have hge : y.count ≤ x.count := by simpa [lessCount] using hless
      refine List.pairwise_cons.2 ⟨?_, h⟩
      intro z hz
      have hzi : z.idx < x.idx := hidx z hz
      have hzc : z.count ≤ x.count := by
        rcases List.mem_cons.1 hz with rfl | hz'
        · exact hge
        · rcases hy.1 z hz' with h1 | h1 <;> omega
      rcases Nat.eq_or_lt_of_le hzc with h1 | h1
      · exact Or.inr ⟨h1, hzi⟩
      · exact Or.inl h1

theorem insertionSortSlice_stable (m : List (List Bool)) :
    (searchOrder insertionSortSlice m).Pairwise
      fun a b => a.count < b.count ∨ (a.count = b.count ∧ a.idx < b.idx) := by
  have key : ∀ (l acc : List Pair),
      (acc.Pairwise fun a b => b.count < a.count ∨ (b.count = a.count ∧ b.idx < a.idx)) →
      (l.Pairwise fun a b => a.idx < b.idx) → (∀ y ∈ acc, ∀ x ∈ l, y.idx < x.idx) →
      (l.foldl (fun sortedRev x => insertLeft lessCount x sortedRev) acc).Pairwise
        fun a b => b.count < a.count ∨ (b.count = a.count ∧ b.idx < a.idx) := by
    intro l
    induction l with
    | nil => intro acc h _ _; exact h
    | cons x l ih =>
      intro acc h hl hacc
      have hx := List.pairwise_cons.1 hl
      refine ih _ (insertLeft_stable x acc h fun y hy => hacc y hy x (List.mem_cons_self _ _))
        hx.2 ?_
      intro y hy z hz
      rcases (insertLeft_mem _ _ _ _).1 hy with rfl | hy'
      · exact hx.1 z hz
      · exact hacc y hy' z (List.mem_cons_of_mem _ hz)
  have hasc : (searchOrderLoop 0 m []).Pairwise fun a b => a.idx < b.idx := by
    have h1 : ((searchOrderLoop 0 m []).map Pair.idx).Pairwise (· < ·) := by
      rw [searchOrderLoop_idx]
      simpa using List.pairwise_lt_range' 0 m.length
    exact (List.pairwise_map.1 h1)
  unfold searchOrder insertionSortSlice
  rw [List.pairwise_reverse]
  exact key _ [] List.Pairwise.nil hasc (by simp)

theorem insertBefore_perm (less : Pair → Pair → Bool) (x : Pair) (l : List Pair) :
    (insertBefore less x l).Perm (x :: l) := by
  induction l with
  | nil => simp [insertBefore]
  | cons y ys ih =>
    unfold insertBefore
    split
    · exact (List.Perm.cons y ih).trans (List.Perm.swap x y ys)
    · exact List.Perm.refl _

theorem unstableSortSlice_perm (xs : List Pair) (less : Pair → Pair → Bool) :
    (unstableSortSlice xs less).Perm xs := by
  have key : ∀ (l acc : List Pair),
      (l.foldl (fun sorted x => insertBefore less x sorted) acc).Perm (l ++ acc) := by
    intro l
    induction l with
    | nil => intro acc; simp
    | cons x l ih =>
      intro acc
      rw [List.foldl_cons]
      refine (ih _).trans ?_
      refine (List.Perm.append_left l (insertBefore_perm less x acc)).trans ?_
      exact List.perm_middle
  unfold unstableSortSlice
  simpa using key xs []

theorem insertBefore_ascending (x : Pair) (l : List Pair)
    (h : l.Pairwise fun a b => a.count ≤ b.count) :
    (insertBefore lessCount x l).Pairwise fun a b => a.count ≤ b.count := by
  induction l with
  | nil => simp [insertBefore]
  | cons y ys ih =>
    have hy := List.pairwise_cons.1 h
    unfold insertBefore
    by_cases hless : lessCount y x = true
    · rw [if_pos hless]
      have hlt : y.count < x.count := by simpa [lessCount] using hless
      refine List.pairwise_cons.2 ⟨?_, ih hy.2⟩
      intro z hz
      rcases List.mem_cons.1 ((insertBefore_perm lessCount x ys).mem_iff.1 hz) with rfl | hz'
      · omega
      · exact hy.1 z hz'
    · rw [if_neg hless]
      have hge : x.count ≤ y.count := by simpa [lessCount] using hless
      refine List.pairwise_cons.2 ⟨?_, h⟩
      intro z hz
      rcases List.mem_cons.1 hz with rfl | hz'
      · exact hge
      · exact le_trans hge (hy.1 z hz')

theorem unstableSortSlice_sorted (xs : List Pair) :
    (unstableSortSlice xs lessCount).Pairwise fun a b => ¬ lessCount b a = true := by
  have key : ∀ (l acc : List Pair), (acc.Pairwise fun a b => a.count ≤ b.count) →
      (l.foldl (fun sorted x => insertBefore lessCount x sorted) acc).Pairwise
        fun a b => a.count ≤ b.count := by
    intro l
    induction l with
    | nil => intro acc h; exact h
    | cons x l ih => intro acc h; exact ih _ (insertBefore_ascending x acc h)
  unfold unstableSortSlice
  refine (key xs [] List.Pairwise.nil).imp ?_
  intro a b hab
  simp only [lessCount, decide_eq_true_eq, not_lt]
  exact hab

theorem reindex_spec (fields fields' : List (String × Field)) (hperm : fields'.Perm fields)
    (f : Nat) (hf : f < fields.length) :
    fields'[reindex fields fields' f]? = some fields[f] := by
  have hmem : fields[f] ∈ fields' := hperm.mem_iff.2 (List.getElem_mem _)
  have hlt : @List.indexOf (String × Field) instBEqOfDecidableEq fields[f] fields' <
      fields'.length := List.indexOf_lt_length.2 hmem
  unfold reindex
  rw [List.getD_eq_getElem _ _ hf, List.getElem?_eq_getElem hlt, List.getElem_indexOf hlt]

theorem reindex_perm (fields fields' : List (String × Field)) (hperm : fields'.Perm fields)
    (hnd : fields.Nodup) :
    ((List.range fields.length).map (reindex fields fields')).Perm (List.range fields.length) := by
  apply perm_range_of_nodup
  · refine (List.nodup_range _).map_on ?_
    intro a ha b hb hab
    have ha' : a < fields.length := List.mem_range.1 ha
    have hb' : b < fields.length := List.mem_range.1 hb
    have h1 := reindex_spec fields fields' hperm a ha'
    have h2 := reindex_spec fields fields' hperm b hb'
    rw [hab, h2] at h1
    exact ((hnd.getElem_inj_iff).1 (Option.some.inj h1)).symm
  · intro x hx
    obtain ⟨f, hf, rfl⟩ := List.mem_map.1 hx
    have h1 := reindex_spec fields fields' hperm f (List.mem_range.1 hf)
    have := (List.getElem?_eq_some.1 h1).1
    rwa [hperm.length_eq] at this
  · simp

theorem assignment_reindex (fields fields' : List (String × Field))
    (hperm : fields'.Perm fields) (hnd : fields.Nodup) (ncols : Nat) (ts : List Ticket)
    (hn : fields.length = ncols) (σ : List Nat)
    (hσ : Assignment (acceptMatrix (fields.map Prod.snd) ncols ts) fields.length σ) :
    Assignment (acceptMatrix (fields'.map Prod.snd) ncols ts) fields'.length
      (σ.map (reindex fields fields')) ∧
    (σ.map (reindex fields fields')).map (fun j => (fields'.map Prod.fst).getD j "") =
      σ.map (fun f => (fields.map Prod.fst).getD f "") := by
  obtain ⟨hp, hentry⟩ := hσ
  have hlenσ : σ.length = fields.length := by simpa using hp.length_eq
  have hlt : ∀ f ∈ σ, f < fields.length := fun f hf => List.mem_range.1 (hp.mem_iff.1 hf)
  refine ⟨⟨?_, ?_⟩, ?_⟩
  · rw [hperm.length_eq]
    exact (hp.map _).trans (reindex_perm fields fields' hperm hnd)
  · intro c j hcj
    rw [List.getElem?_map] at hcj
    cases hc : σ[c]? with
    | none => rw [hc] at hcj; exact Option.noConfusion hcj
    | some f =>
      rw [hc] at hcj
      have hj : reindex fields fields' f = j := Option.some.inj hcj
      have hfl : f < fields.length := hlt f (List.getElem?_mem hc)
      have hcn : c < ncols := by
        have := (List.getElem?_eq_some.1 hc).1
        omega
      have h1 := reindex_spec fields fields' hperm f hfl
      rw [hj] at h1
      have e1 := hentry c f hc
      rw [entry_acceptMatrix _ _ _ c f hcn fields[f].2
        (by simp [List.getElem?_eq_getElem hfl])] at e1
      rw [entry_acceptMatrix _ _ _ c j hcn fields[f].2 (by simp [h1])]
      exact e1
  · rw [List.map_map]
    apply List.map_congr_left
    intro f hf
    have hfl : f < fields.length := hlt f hf
    have h1 := reindex_spec fields fields' hperm f hfl
    simp [List.getD_eq_getElem?_getD, h1, List.getElem?_eq_getElem hfl]

theorem bijection_of_assignment_val (m : List (List Bool)) (nc nf : Nat) (hn : nf = nc)
    (σ : List Nat) (h : Assignment m nf σ) :
    ∃ τ : Fin nc → Fin nf, (Function.Bijective τ ∧
      ∀ c : Fin nc, entry m c.val (τ c).val = true) ∧
      ∀ c : Fin nc, σ[c.val]? = some (τ c).val := by
  obtain ⟨hperm, hentry⟩ := h
  have hlen : σ.length = nf := by simpa using hperm.length_eq
  have hlt : ∀ c : Fin nc, σ.getD c 0 < nf := by
    intro c
    have hc : c.val < σ.length := by rw [hlen, hn]; exact c.isLt
    rw [List.getD_eq_getElem _ _ hc]
    exact List.mem_range.1 (hperm.mem_iff.1 (List.getElem_mem _))
  have hval : ∀ c : Fin nc, σ[c.val]? = some (σ.getD c.val 0) := by
    intro c
    have hc : c.val < σ.length := by rw [hlen, hn]; exact c.isLt
    rw [List.getD_eq_getElem _ _ hc]
    exact List.getElem?_eq_getElem hc
  refine ⟨fun c => ⟨σ.getD c 0, hlt c⟩, ⟨?_, ?_⟩, hval⟩
  · rw [Fintype.bijective_iff_injective_and_card]
    refine ⟨?_, by simp [hn]⟩
    intro a b hab
    have ha : a.val < σ.length := by rw [hlen, hn]; exact a.isLt
    have hb : b.val < σ.length := by rw [hlen, hn]; exact b.isLt
    have hab' : σ.getD a 0 = σ.getD b 0 := congrArg Fin.val hab
    rw [List.getD_eq_getElem _ _ ha, List.getD_eq_getElem _ _ hb] at hab'
    have hnd : σ.Nodup := hperm.nodup_iff.2 (List.nodup_range nf)
    exact Fin.ext ((hnd.getElem_inj_iff).1 hab')
  · intro c
    exact hentry c.val _ (hval c)

theorem assignment_unique (m : List (List Bool)) (nc nf : Nat) (hn : nf = nc)
    (huniq : ∃! σ : Fin nc → Fin nf, Function.Bijective σ ∧
      ∀ c : Fin nc, entry m c.val (σ c).val = true)
    (l1 l2 : List Nat) (h1 : Assignment m nf l1) (h2 : Assignment m nf l2) : l1 = l2 := by
  obtain ⟨τ1, hp1, hv1⟩ := bijection_of_assignment_val m nc nf hn l1 h1
  obtain ⟨τ2, hp2, hv2⟩ := bijection_of_assignment_val m nc nf hn l2 h2
  have heq : τ1 = τ2 := huniq.unique hp1 hp2
  have hl1 : l1.length = nf := by simpa using h1.1.length_eq
  have hl2 : l2.length = nf := by simpa using h2.1.length_eq
  apply List.ext_getElem? 
  intro c
  by_cases hc : c < nc
  · rw [hv1 ⟨c, hc⟩, hv2 ⟨c, hc⟩, heq]
  · rw [List.getElem?_eq_none (by omega), List.getElem?_eq_none (by omega)]

theorem getValidTickets_perm (fields fields' : List (String × Field))
    (hperm : fields'.Perm fields) (ticket : Ticket) (nearby : List Ticket) :
    getValidTickets ⟨fields', ticket, nearby⟩ = getValidTickets ⟨fields, ticket, nearby⟩ := by
  rw [getValidTickets_eq, getValidTickets_eq]
  have : isValidTicket fields' = isValidTicket fields := by
    funext t
    rw [isValidTicket_eq, isValidTicket_eq]
    congr 1
    funext v
    have := validForAnyField_perm v hperm
    rw [Bool.eq_iff_iff, validForAnyField_iff_inSomeRange,
      validForAnyField_iff_inSomeRange] at this
    exact decide_eq_decide.2 this
  simp only [this]

/-- Claim C18: for a puzzle with as many fields as the own ticket has values, all of
whose nearby tickets have that length too, and for which exactly one bijection from
columns to fields is consistent with the candidate matrix, `detectOrder` returns the
field names of that bijection, and it returns the same list for every other
enumeration `fields'` of the field map and every other `sort.Slice`, that is however
the columns of equal count are ordered. -/
theorem detectOrder_unique (sortSlice sortSlice' : SortSlice)
    (hsort : ∀ xs less, (sortSlice xs less).Perm xs)
    (hsort' : ∀ xs less, (sortSlice' xs less).Perm xs)
    (puzzle : Puzzle) (fields' : List (String × Field))
    (hfields : fields'.Perm puzzle.fields)
    (hkeys : (puzzle.fields.map Prod.fst).Nodup)
    (hlen : puzzle.fields.length = puzzle.ticket.length)
    (hnear : ∀ t ∈ puzzle.nearbyTickets, t.length = puzzle.ticket.length)
    (m : List (List Bool)) (hm : candidateMatrix puzzle = .ok m)
    (huniq : ∃! σ : Fin puzzle.ticket.length → Fin puzzle.fields.length,
      Function.Bijective σ ∧ ∀ c : Fin puzzle.ticket.length, entry m c.val (σ c).val = true) :
    ∃ r, detectOrder sortSlice puzzle = .ok r ∧
      detectOrder sortSlice' ⟨fields', puzzle.ticket, puzzle.nearbyTickets⟩ = .ok r ∧
      ∀ σ : Fin puzzle.ticket.length → Fin puzzle.fields.length,
        (Function.Bijective σ ∧
          ∀ c : Fin puzzle.ticket.length, entry m c.val (σ c).val = true) →
        ∀ c : Fin puzzle.ticket.length,
          r[c.val]? = some ((puzzle.fields.map Prod.fst).getD (σ c).val "") := by
  obtain ⟨hmat, hcases⟩ := detectOrder_cases sortSlice hsort puzzle hlen hnear
  have hmeq : m = acceptMatrix (puzzle.fields.map Prod.snd) puzzle.ticket.length
      (getValidTickets puzzle) := by
    rw [hmat] at hm
    exact (Except.ok.inj hm).symm
  subst hmeq
  have hnd : puzzle.fields.Nodup := List.Nodup.of_map _ hkeys
  have hnd' : fields'.Nodup := hfields.nodup_iff.2 hnd
  have hlen' : fields'.length = puzzle.ticket.length := by rw [hfields.length_eq, hlen]
  have hvalid : getValidTickets ⟨fields', puzzle.ticket, puzzle.nearbyTickets⟩ =
      getValidTickets puzzle :=
    getValidTickets_perm puzzle.fields fields' hfields puzzle.ticket puzzle.nearbyTickets
  obtain ⟨σ0, hσ0⟩ := huniq.exists
  have hex : ∃ σ, Assignment (acceptMatrix (puzzle.fields.map Prod.snd) puzzle.ticket.length
      (getValidTickets puzzle)) puzzle.fields.length σ :=
    ⟨_, assignment_of_bijection _ _ _ hlen σ0 hσ0.1 hσ0.2⟩
  rcases hcases with ⟨perm, hrun, hassign⟩ | ⟨_, hnone⟩
  swap
  · exact absurd hex hnone
  have hcases' := (detectOrder_cases sortSlice' hsort'
    ⟨fields', puzzle.ticket, puzzle.nearbyTickets⟩ hlen' hnear).2
  rw [hvalid] at hcases'
  simp only at hcases'
  refine ⟨_, hrun, ?_, ?_⟩
  · rcases hcases' with ⟨perm', hrun', hassign'⟩ | ⟨_, hnone'⟩
    · obtain ⟨hback, hnames⟩ := assignment_reindex fields' puzzle.fields hfields.symm hnd'
        puzzle.ticket.length (getValidTickets puzzle) hlen' perm' hassign'
      have heq : perm'.map (reindex fields' puzzle.fields) = perm :=
        assignment_unique _ _ _ hlen huniq _ _ hback hassign
      rw [hrun', ← hnames, heq]
    · exact absurd ⟨_, (assignment_reindex puzzle.fields fields' hfields hnd
        puzzle.ticket.length (getValidTickets puzzle) hlen perm hassign).1⟩ hnone'
  · intro σ hσ c
    obtain ⟨τ, hτ, hval⟩ := bijection_of_assignment_val _ puzzle.ticket.length
      puzzle.fields.length hlen perm hassign
    have heq : σ = τ := huniq.unique hσ hτ
    rw [List.getElem?_map, hval c, heq]
    rfl

theorem examplePuzzle_unique :
    ∃! σ : Fin examplePuzzle.ticket.length → Fin examplePuzzle.fields.length,
      Function.Bijective σ ∧ ∀ c : Fin examplePuzzle.ticket.length,
        entry [[false, true, false], [true, true, false], [true, true, true]] c.val (σ c).val
          = true := by
  show ∃! σ : Fin 3 → Fin 3, Function.Bijective σ ∧ ∀ c : Fin 3,
    entry [[false, true, false], [true, true, false], [true, true, true]] c.val (σ c).val = true
  have key : ∀ a b c : Fin 3,
      entry [[false, true, false], [true, true, false], [true, true, true]] 0 a.val = true →
      entry [[false, true, false], [true, true, false], [true, true, true]] 1 b.val = true →
      entry [[false, true, false], [true, true, false], [true, true, true]] 2 c.val = true →
      a ≠ b → a ≠ c → b ≠ c → a = 1 ∧ b = 0 ∧ c = 2 := by
    intro a b c
    fin_cases a <;> fin_cases b <;> fin_cases c <;> decide
  refine ⟨![1, 0, 2], ⟨by decide, by decide⟩, ?_⟩
  rintro τ ⟨hb, he⟩
  obtain ⟨e0, e1, e2⟩ := key (τ 0) (τ 1) (τ 2) (he 0) (he 1) (he 2)
    (fun h => absurd (hb.1 h) (by decide)) (fun h => absurd (hb.1 h) (by decide))
    (fun h => absurd (hb.1 h) (by decide))
  funext c
  fin_cases c
  · exact e0
  · exact e1
  · exact e2

theorem detectOrder_unique_witness :
    ∃ r, detectOrder insertionSortSlice examplePuzzle = .ok r ∧
      detectOrder unstableSortSlice
        ⟨examplePuzzle.fields.reverse, examplePuzzle.ticket, examplePuzzle.nearbyTickets⟩ = .ok r ∧
      ∀ σ : Fin examplePuzzle.ticket.length → Fin examplePuzzle.fields.length,
        (Function.Bijective σ ∧ ∀ c : Fin examplePuzzle.ticket.length,
          entry [[false, true, false], [true, true, false], [true, true, true]] c.val (σ c).val
            = true) →
        ∀ c : Fin examplePuzzle.ticket.length,
          r[c.val]? = some ((examplePuzzle.fields.map Prod.fst).getD (σ c).val "") :=
  detectOrder_unique insertionSortSlice unstableSortSlice insertionSortSlice_perm
    unstableSortSlice_perm examplePuzzle examplePuzzle.fields.reverse
    (List.reverse_perm _) (by decide) (by decide) (by decide)
    [[false, true, false], [true, true, false], [true, true, true]] rfl examplePuzzle_unique

theorem splitLoop_skip (sep : List Char) (xs rest cur : List Char) :
    splitLoop sep (xs ++ rest) xs.length cur = splitLoop sep rest 0 cur := by
  induction xs with
  | nil => rfl
  | cons x xs ih => simp [splitLoop, ih]

theorem isPrefixOf_append_self (sep rest : List Char) :
    sep.isPrefixOf (sep ++ rest) = true := by
  induction sep with
  | nil => simp
  | cons x xs ih => simp [List.isPrefixOf]

theorem splitLoop_sep (s0 : Char) (srest rest cur : List Char) :
    splitLoop (s0 :: srest) ((s0 :: srest) ++ rest) 0 cur =
      cur.reverse :: splitLoop (s0 :: srest) rest 0 [] := by
  have h := isPrefixOf_append_self (s0 :: srest) rest
  rw [List.cons_append] at h ⊢
  rw [splitLoop, if_pos h]
  have := splitLoop_skip (s0 :: srest) srest rest []
  simpa using this

theorem splitLoop_piece (s0 : Char) (srest : List Char) (p rest : List Char) :
    ∀ cur : List Char, s0 ∉ p →
      splitLoop (s0 :: srest) (p ++ rest) 0 cur =
        splitLoop (s0 :: srest) rest 0 (p.reverse ++ cur) := by
  induction p with
  | nil => intro cur _; rfl
  | cons c p ih =>
    intro cur hp
    have hc : s0 ≠ c := fun h => hp (h ▸ List.mem_cons_self _ _)
    have hp' : s0 ∉ p := fun h => hp (List.mem_cons_of_mem _ h)
    have hpre : (s0 :: srest).isPrefixOf (c :: (p ++ rest)) = false := by
      simp [List.isPrefixOf, hc]
    rw [List.cons_append, splitLoop, if_neg (by rw [hpre]; simp), ih _ hp']
    simp

theorem splitLoop_last (s0 : Char) (srest p cur : List Char) (hp : s0 ∉ p) :
    splitLoop (s0 :: srest) p 0 cur = [cur.reverse ++ p] := by
  have := splitLoop_piece s0 srest p [] cur hp
  rw [List.append_nil] at this
  rw [this, splitLoop]
  simp

theorem split_two (s0 : Char) (srest p1 p2 : List Char) (h1 : s0 ∉ p1) (h2 : s0 ∉ p2) :
    split (p1 ++ ((s0 :: srest) ++ p2)) (s0 :: srest) = [p1, p2] := by
  rw [split, splitLoop_piece s0 srest p1 _ [] h1, splitLoop_sep, splitLoop_last _ _ _ _ h2]
  simp

theorem dropWhile_spaces (sp core : List Char) (hsp : ∀ c ∈ sp, isSpace c = true)
    (hcore : ∀ c, core.head? = some c → isSpace c = false) :
    (sp ++ core).dropWhile isSpace = core := by
  induction sp with
  | nil =>
    cases core with
    | nil => rfl
    | cons c cs => simp [List.dropWhile, hcore c rfl]
  | cons s sp ih =>
    rw [List.cons_append, List.dropWhile_cons, if_pos (hsp s (List.mem_cons_self _ _))]
    exact ih fun c hc => hsp c (List.mem_cons_of_mem _ hc)

theorem trimSpace_spaces (sp1 core sp2 : List Char) (h1 : ∀ c ∈ sp1, isSpace c = true)
    (h2 : ∀ c ∈ sp2, isSpace c = true)
    (hhead : ∀ c, core.head? = some c → isSpace c = false)
    (hlast : ∀ c, core.getLast? = some c → isSpace c = false) :
    trimSpace (sp1 ++ (core ++ sp2)) = core := by
  unfold trimSpace
  by_cases hnil : core = []
  · subst hnil
    have hall : ∀ c ∈ sp1 ++ sp2, isSpace c = true := by
      intro c hc
      rcases List.mem_append.1 hc with h | h
      · exact h1 c h
      · exact h2 c h
    have := dropWhile_spaces (sp1 ++ sp2) [] hall (by simp)
    rw [List.append_nil] at this
    simp [this]
  · have hhead' : ∀ c, (core ++ sp2).head? = some c → isSpace c = false := by
      intro c hc
      cases core with
      | nil => exact absurd rfl hnil
      | cons x xs => exact hhead c (by simpa using hc)
    rw [dropWhile_spaces sp1 (core ++ sp2) h1 hhead', List.reverse_append,
      dropWhile_spaces sp2.reverse core.reverse (by simpa using h2)
        (by simpa [List.head?_reverse] using hlast)]
    simp

theorem digitsValue_ge (cs : List Char) : ∀ n, n ≤ digitsValue n cs := by
  induction cs with
  | nil => intro n; exact Nat.le_refl n
  | cons c cs ih =>
    intro n
    have := ih (n * 10 + (c.toNat - 48))
    simp only [digitsValue, List.foldl_cons] at this ⊢
    omega

theorem parseUintLoop_digits (cs : List Char) :
    ∀ n, (∀ c ∈ cs, isDecimalDigit c = true) → digitsValue n cs ≤ 18446744073709551615 →
      parseUintLoop cs n = .value (digitsValue n cs) := by
  induction cs with
  | nil => intro n _ _; rfl
  | cons c cs ih =>
    intro n hd hle
    have hc : 48 ≤ c.toNat ∧ c.toNat ≤ 57 := by
      simpa [isDecimalDigit] using hd c (List.mem_cons_self _ _)
    have hge := digitsValue_ge cs (n * 10 + (c.toNat - 48))
    have hle' : digitsValue (n * 10 + (c.toNat - 48)) cs ≤ 18446744073709551615 := hle
    rw [parseUintLoop, if_pos hc, if_neg (by omega), if_neg (by omega)]
    exact ih _ (fun d hd' => hd d (List.mem_cons_of_mem _ hd')) hle'

theorem parseUintLoop_nondigit (cs : List Char) :
    ∀ n, (∃ c ∈ cs, isDecimalDigit c = false) →
      parseUintLoop cs n = .syntaxError ∨ parseUintLoop cs n = .rangeError := by
  induction cs with
  | nil => intro n h; simp at h
  | cons c cs ih =>
    intro n h
    rw [parseUintLoop]
    by_cases hc : 48 ≤ c.toNat ∧ c.toNat ≤ 57
    · have hrest : ∃ d ∈ cs, isDecimalDigit d = false := by
        obtain ⟨d, hd, hdd⟩ := h
        rcases List.mem_cons.1 hd with rfl | hd
        · simp [isDecimalDigit, hc] at hdd
        · exact ⟨d, hd, hdd⟩
      rw [if_pos hc]
      split
      · exact Or.inr rfl
      · split
        · exact Or.inr rfl
        · exact ih _ hrest
    · rw [if_neg hc]
      exact Or.inl rfl

theorem parseUintLoop_nondigit_short (cs : List Char) :
    ∀ n k, n < 10 ^ k → k + cs.length ≤ 20 → (∃ c ∈ cs, isDecimalDigit c = false) →
      parseUintLoop cs n = .syntaxError := by
  induction cs with
  | nil => intro n k _ _ h; simp at h
  | cons c cs ih =>
    intro n k hn hk h
    rw [parseUintLoop]
    by_cases hc : 48 ≤ c.toNat ∧ c.toNat ≤ 57
    · have hrest : ∃ d ∈ cs, isDecimalDigit d = false := by
        obtain ⟨d, hd, hdd⟩ := h
        rcases List.mem_cons.1 hd with rfl | hd
        · simp [isDecimalDigit, hc] at hdd
        · exact ⟨d, hd, hdd⟩
      have hcs : 1 ≤ cs.length := by
        obtain ⟨d, hd, _⟩ := hrest
        exact List.length_pos_of_mem hd
      have hk18 : k ≤ 18 := by
        simp only [List.length_cons] at hk
        omega
      have hpow : 10 ^ k ≤ 10 ^ 18 := Nat.pow_le_pow_right (by decide) hk18
      have h18 : (10 : Nat) ^ 18 = 1000000000000000000 := by norm_num
      have hn18 : n < 1000000000000000000 := by omega
      rw [if_pos hc, if_neg (by omega), if_neg (by omega)]
      refine ih _ (k + 1) ?_ ?_ hrest
      · rw [pow_succ]; omega
      · simp only [List.length_cons] at hk
        omega
    · rw [if_neg hc]

theorem digitChar_digit (k : Nat) (hk : k < 10) :
    isDecimalDigit (Nat.digitChar k) = true ∧ (Nat.digitChar k).toNat - 48 = k := by
  interval_cases k <;> exact ⟨rfl, rfl⟩

theorem toDigitsCore_spec (fuel : Nat) :
    ∀ (n : Nat) (ds : List Char), n < fuel →
      ∃ pre, Nat.toDigitsCore 10 fuel n ds = pre ++ ds ∧ pre ≠ [] ∧
        (∀ c ∈ pre, isDecimalDigit c = true) ∧ digitsValue 0 pre = n := by
  induction fuel with
  | zero => intro n ds h; omega
  | succ fuel ih =>
    intro n ds hn
    have hd := digitChar_digit (n % 10) (Nat.mod_lt _ (by decide))
    rw [Nat.toDigitsCore]
    by_cases h0 : n / 10 = 0
    · simp only [h0, if_true]
      refine ⟨[Nat.digitChar (n % 10)], rfl, by simp, ?_, ?_⟩
      · intro c hc
        rw [List.mem_singleton.1 hc]
        exact hd.1
      · simp only [digitsValue, List.foldl_cons, List.foldl_nil, hd.2]
        omega
    · simp only [h0, if_false]
      obtain ⟨pre, hpre, _, hdig, hval⟩ := ih (n / 10) (Nat.digitChar (n % 10) :: ds)
        (by omega)
      refine ⟨pre ++ [Nat.digitChar (n % 10)], by rw [hpre]; simp, by simp, ?_, ?_⟩
      · intro c hc
        rcases List.mem_append.1 hc with h | h
        · exact hdig c h
        · rw [List.mem_singleton.1 h]
          exact hd.1
      · simp only [digitsValue] at hval
        simp only [digitsValue, List.foldl_append, List.foldl_cons, List.foldl_nil, hval, hd.2]
        omega

theorem toDigits_spec (n : Nat) :
    Nat.toDigits 10 n ≠ [] ∧ (∀ c ∈ Nat.toDigits 10 n, isDecimalDigit c = true) ∧
      digitsValue 0 (Nat.toDigits 10 n) = n := by
  obtain ⟨pre, hpre, hne, hdig, hval⟩ := toDigitsCore_spec (n + 1) n [] (Nat.lt_succ_self n)
  rw [List.append_nil] at hpre
  rw [Nat.toDigits, hpre]
  exact ⟨hne, hdig, hval⟩

theorem isDecimalDigit_facts (c : Char) (h : isDecimalDigit c = true) :
    isSpace c = false ∧ c ≠ '-' ∧ c ≠ '+' ∧ c ≠ ':' ∧ c ≠ 'o' ∧ c ≠ ' ' := by
  have hc : 48 ≤ c.toNat ∧ c.toNat ≤ 57 := by simpa [isDecimalDigit] using h
  refine ⟨?_, ?_, ?_, ?_, ?_, ?_⟩
  · simp only [isSpace, isSpaceCode, Bool.or_eq_false_iff, Bool.and_eq_false_iff,
      decide_eq_false_iff_not, beq_eq_false_iff_ne]
    omega
  all_goals
    rintro rfl
    revert hc
    decide

theorem atoi_digits (cs : List Char) (hne : cs ≠ [])
    (hd : ∀ c ∈ cs, isDecimalDigit c = true) (hv : digitsValue 0 cs < 2 ^ 63) :
    atoi cs = (digitsValue 0 cs : Int) := by
  cases cs with
  | nil => exact absurd rfl hne
  | cons c cs =>
    have hc := isDecimalDigit_facts c (hd c (List.mem_cons_self _ _))
    have hparse := parseUintLoop_digits (c :: cs) 0 hd (by omega)
    rw [atoi, if_neg hc.2.2.1, if_neg hc.2.1, atoiSigned, parseUint, hparse]
    simp only [Bool.false_eq_true, if_false]
    rw [if_neg (by omega)]

theorem atoi_toDigits (n : Nat) (hn : n < 2 ^ 63) : atoi (Nat.toDigits 10 n) = (n : Int) := by
  obtain ⟨hne, hd, hv⟩ := toDigits_spec n
  rw [atoi_digits _ hne hd (by rw [hv]; exact hn), hv]

theorem parseTicketLoop_eq (toks : List (List Char)) :
    ∀ values, parseTicketLoop toks values = values ++ toks.map atoi := by
  induction toks with
  | nil => intro values; simp [parseTicketLoop]
  | cons tok toks ih => intro values; simp [parseTicketLoop, ih]

theorem atoiSigned_nondigit (neg : Bool) (cs : List Char)
    (h : cs = [] ∨ ∃ c ∈ cs, isDecimalDigit c = false) :
    (atoiSigned neg cs = 0 ∨ atoiSigned neg cs = 2 ^ 63 - 1 ∨ atoiSigned neg cs = -(2 ^ 63)) ∧
    (cs.length ≤ 20 → atoiSigned neg cs = 0) := by
  cases cs with
  | nil => exact ⟨Or.inl rfl, fun _ => rfl⟩
  | cons c cs =>
    have hex : ∃ d ∈ c :: cs, isDecimalDigit d = false := by
      rcases h with h | h
      · exact absurd h (List.cons_ne_nil _ _)
      · exact h
    constructor
    · rcases parseUintLoop_nondigit (c :: cs) 0 hex with hp | hp
      · left
        rw [atoiSigned, parseUint, hp]
      · right
        rw [atoiSigned, parseUint, hp]
        cases neg
        · exact Or.inl rfl
        · exact Or.inr rfl
    · intro hlen
      have hp := parseUintLoop_nondigit_short (c :: cs) 0 0 (by decide) (by omega) hex
      rw [atoiSigned, parseUint, hp]

theorem all_false_exists (cs : List Char) (h : cs.all isDecimalDigit = false) :
    ∃ c ∈ cs, isDecimalDigit c = false := by
  rw [List.all_eq_false] at h
  obtain ⟨c, hc, hd⟩ := h
  exact ⟨c, hc, by simpa using hd⟩

theorem atoi_malformed (tok : List Char) (h : isDecimalInteger tok = false) :
    (atoi tok = 0 ∨ atoi tok = 2 ^ 63 - 1 ∨ atoi tok = -(2 ^ 63)) ∧
    (tok.length ≤ 20 → atoi tok = 0) := by
  cases tok with
  | nil => exact ⟨Or.inl rfl, fun _ => rfl⟩
  | cons c cs =>
    rw [isDecimalInteger] at h
    by_cases hplus : c = '+'
    · rw [if_pos (Or.inl hplus)] at h
      have hcs : cs = [] ∨ ∃ d ∈ cs, isDecimalDigit d = false := by
        cases cs with
        | nil => exact Or.inl rfl
        | cons d ds => exact Or.inr (all_false_exists _ (by simpa using h))
      have := atoiSigned_nondigit false cs hcs
      rw [atoi, if_pos hplus]
      exact ⟨this.1, fun hl => this.2 (by simp only [List.length_cons] at hl; omega)⟩
    · by_cases hminus : c = '-'
      · rw [if_pos (Or.inr hminus)] at h
        have hcs : cs = [] ∨ ∃ d ∈ cs, isDecimalDigit d = false := by
          cases cs with
          | nil => exact Or.inl rfl
          | cons d ds => exact Or.inr (all_false_exists _ (by simpa using h))
        have := atoiSigned_nondigit true cs hcs
        rw [atoi, if_neg hplus, if_pos hminus]
        exact ⟨this.1, fun hl => this.2 (by simp only [List.length_cons] at hl; omega)⟩
      · rw [if_neg (by simp [hplus, hminus])] at h
        have := atoiSigned_nondigit false (c :: cs) (Or.inr (all_false_exists _ h))
        rw [atoi, if_neg hplus, if_neg hminus]
        exact this

theorem divideString_error_iff (s sep : List Char) :
    (∀ e, divideString s sep = .error e → e = .tooManySplits) ∧
    (divideString s sep = .error .tooManySplits ↔ (split s sep).length ≠ 2) := by
  unfold divideString
  rcases hsp : split s sep with _ | ⟨a, _ | ⟨b, _ | ⟨c, l⟩⟩⟩
  · exact ⟨fun e h => (Except.error.inj h).symm, by simp⟩
  · exact ⟨fun e h => (Except.error.inj h).symm, by simp⟩
  · refine ⟨fun e h => (by cases h), ?_⟩
    constructor
    · intro h; cases h
    · intro h; simp at h
  · exact ⟨fun e h => (Except.error.inj h).symm, by simp⟩

theorem parseFieldLoop_ok (specs : List (List Char)) :
    ∀ (bounds : List (List Char × List Char)) (acc : List Interval),
      List.Forall₂ (fun spec b => divideString spec "-".toList = .ok b) specs bounds →
      parseFieldLoop specs acc =
        .ok (acc ++ bounds.map fun b => (⟨atoi b.1, atoi b.2⟩ : Interval)) := by
  induction specs with
  | nil =>
    intro bounds acc h
    cases h
    simp [parseFieldLoop]
  | cons spec specs ih =>
    intro bounds acc h
    cases h with
    | cons hb hrest =>
      rw [parseFieldLoop, hb, ok_bind, ih _ _ hrest]
      simp

theorem parseFieldLoop_error (specs : List (List Char)) :
    ∀ (acc : List Interval) (e : Panic), parseFieldLoop specs acc = .error e →
      e = .tooManySplits ∧ ∃ spec ∈ specs, (split spec "-".toList).length ≠ 2 := by
  induction specs with
  | nil => intro acc e h; simp [parseFieldLoop] at h
  | cons spec specs ih =>
    intro acc e h
    rw [parseFieldLoop] at h
    cases hd : divideString spec "-".toList with
    | error e' =>
      rw [hd, error_bind] at h
      have he := (divideString_error_iff spec "-".toList).1 e' hd
      subst he
      exact ⟨(Except.error.inj h).symm, spec, List.mem_cons_self _ _,
        (divideString_error_iff spec "-".toList).2.1 hd⟩
    | ok b =>
      rw [hd, ok_bind] at h
      obtain ⟨he, s, hs, hl⟩ := ih _ e h
      exact ⟨he, s, List.mem_cons_of_mem _ hs, hl⟩

/-- Claim C13, as the code has it: malformed numbers are not rejected. `parseTicket`
never fails and returns one value for each comma-separated token, the value
`strconv.Atoi` gives with its error dropped; a token that is no decimal integer
gives `0`, or the largest or least `int` when more than 20 characters long.
`parseField` fails only when the line has not exactly one colon or an interval
specification has not exactly one `-`; otherwise each bound is the value of `Atoi`
with its error dropped. -/
theorem parse_malformed_numbers :
    (∀ ticketSpec : String,
      parseTicket ticketSpec = (split ticketSpec.toList ",".toList).map atoi) ∧
    (∀ tok : List Char, isDecimalInteger tok = false →
      (atoi tok = 0 ∨ atoi tok = 2 ^ 63 - 1 ∨ atoi tok = -(2 ^ 63)) ∧
      (tok.length ≤ 20 → atoi tok = 0)) ∧
    (∀ (fieldLine : String) (name rest : List Char) (bounds : List (List Char × List Char)),
      divideString fieldLine.toList ":".toList = .ok (name, rest) →
      List.Forall₂ (fun spec b => divideString spec "-".toList = .ok b)
        (split rest "or".toList) bounds →
      parseField fieldLine =
        .ok (String.mk name, ⟨bounds.map fun b => (⟨atoi b.1, atoi b.2⟩ : Interval)⟩)) ∧
    (∀ (fieldLine : String) (e : Panic), parseField fieldLine = .error e →
      e = .tooManySplits ∧
      ((split fieldLine.toList ":".toList).length ≠ 2 ∨
        ∃ name rest, divideString fieldLine.toList ":".toList = .ok (name, rest) ∧
          ∃ spec ∈ split rest "or".toList, (split spec "-".toList).length ≠ 2)) := by
  refine ⟨?_, atoi_malformed, ?_, ?_⟩
  · intro ticketSpec
    rw [parseTicket, parseTicketLoop_eq, List.nil_append]
  · intro fieldLine name rest bounds hdiv hb
    rw [parseField, hdiv, ok_bind, parseFieldLoop_ok _ _ _ hb, ok_bind, List.nil_append]
    rfl
  · intro fieldLine e h
    rw [parseField] at h
    cases hd : divideString fieldLine.toList ":".toList with
    | error e' =>
      rw [hd, error_bind] at h
      have he := (divideString_error_iff _ _).1 e' hd
      subst he
      exact ⟨(Except.error.inj h).symm, Or.inl ((divideString_error_iff _ _).2.1 hd)⟩
    | ok parts =>
      rw [hd, ok_bind] at h
      cases hl : parseFieldLoop (split parts.2 "or".toList) [] with
      | error e'' =>
        rw [hl, error_bind] at h
        obtain ⟨he, spec, hs, hlen⟩ := parseFieldLoop_error _ _ _ hl
        subst he
        exact ⟨(Except.error.inj h).symm, Or.inr ⟨parts.1, parts.2, rfl, spec, hs, hlen⟩⟩
      | ok intervals =>
        rw [hl, ok_bind] at h
        cases h

/-- Claim C13 as stated fails: the token `x` is no decimal integer, yet `parseTicket`
returns the ticket `1, 0, 3` for the line `1,x,3` and `parseField` returns the field
`a` with the range `0-5` for the line `a: x-5`. -/
theorem parse_malformed_defaulted :
    isDecimalInteger "x".toList = false ∧
    split "1,x,3".toList ",".toList = ["1".toList, "x".toList, "3".toList] ∧
    parseTicket "1,x,3" = [1, 0, 3] ∧
    parseField "a: x-5" = .ok ("a", ⟨[⟨0, 5⟩]⟩) :=
  ⟨by decide, by decide, by decide, rfl⟩

theorem toDigits_head (n : Nat) (c : Char) (h : (Nat.toDigits 10 n).head? = some c) :
    isDecimalDigit c = true :=
  (toDigits_spec n).2.1 c (List.mem_of_mem_head? h)

theorem toDigits_last (n : Nat) (c : Char) (h : (Nat.toDigits 10 n).getLast? = some c) :
    isDecimalDigit c = true :=
  (toDigits_spec n).2.1 c (List.mem_of_getLast?_eq_some h)

theorem not_mem_toDigits (n : Nat) (x : Char) (hx : isDecimalDigit x = false) :
    x ∉ Nat.toDigits 10 n := by
  intro h
  rw [(toDigits_spec n).2.1 x h] at hx
  cases hx

theorem not_mem_renderRange (r : Nat × Nat) (x : Char) (hx : isDecimalDigit x = false)
    (hm : x ≠ '-') : x ∉ renderRange r := by
  intro h
  rcases List.mem_append.1 h with h | h
  · exact not_mem_toDigits _ x hx h
  · rcases List.mem_cons.1 h with h | h
    · exact hm h
    · exact not_mem_toDigits _ x hx h

theorem not_mem_renderRanges (x : Char) (hx : isDecimalDigit x = false) (hm : x ≠ '-')
    (hs : x ≠ ' ') (ho : x ≠ 'o') (hr : x ≠ 'r') :
    ∀ (rs : List (Nat × Nat)) (r : Nat × Nat), x ∉ renderRanges (r :: rs) := by
  intro rs
  induction rs with
  | nil => intro r; exact not_mem_renderRange r x hx hm
  | cons r' rs ih =>
    intro r h
    rw [renderRanges] at h
    rcases List.mem_append.1 h with h | h
    · exact not_mem_renderRange r x hx hm h
    · rcases List.mem_append.1 h with h | h
      · have : x = ' ' ∨ x = 'o' ∨ x = 'r' ∨ x = ' ' := by simpa using h
        rcases this with h | h | h | h
        · exact hs h
        · exact ho h
        · exact hr h
        · exact hs h
      · exact ih r' h

theorem renderRanges_head (rs : List (Nat × Nat)) (r : Nat × Nat) (c : Char)
    (h : (renderRanges (r :: rs)).head? = some c) : isSpace c = false := by
  have hne := (toDigits_spec r.1).1
  have key : ∃ tail, renderRanges (r :: rs) = Nat.toDigits 10 r.1 ++ tail := by
    cases rs with
    | nil => exact ⟨_, rfl⟩
    | cons r' rs => exact ⟨_, by rw [renderRanges, renderRange, List.append_assoc]⟩
  obtain ⟨tail, ht⟩ := key
  rw [ht, List.head?_append_of_ne_nil _ hne] at h
  exact (isDecimalDigit_facts c (toDigits_head _ c h)).1

theorem renderRanges_last :
    ∀ (rs : List (Nat × Nat)) (r : Nat × Nat) (c : Char),
      (renderRanges (r :: rs)).getLast? = some c → isSpace c = false := by
  intro rs
  induction rs with
  | nil =>
    intro r c h
    have hne := (toDigits_spec r.2).1
    have : renderRanges [r] = (Nat.toDigits 10 r.1 ++ ['-']) ++ Nat.toDigits 10 r.2 := by
      rw [renderRanges, renderRange]; simp
    rw [this, List.getLast?_append_of_ne_nil _ hne] at h
    exact (isDecimalDigit_facts c (toDigits_last _ c h)).1
  | cons r' rs ih =>
    intro r c h
    have hne : renderRanges (r' :: rs) ≠ [] := by
      have hd := (toDigits_spec r'.1).1
      cases rs with
      | nil => rw [renderRanges, renderRange]; simp [hd]
      | cons r'' rs => rw [renderRanges, renderRange]; simp [hd]
    have : renderRanges (r :: r' :: rs) =
        (renderRange r ++ " or ".toList) ++ renderRanges (r' :: rs) := by
      rw [renderRanges, List.append_assoc]
    rw [this, List.getLast?_append_of_ne_nil _ hne] at h
    exact ih r' c h

theorem divideString_range (sp1 sp2 : List Char) (r : Nat × Nat)
    (h1 : ∀ c ∈ sp1, c = ' ') (h2 : ∀ c ∈ sp2, c = ' ') :
    divideString (sp1 ++ (renderRange r ++ sp2)) "-".toList =
      .ok (Nat.toDigits 10 r.1, Nat.toDigits 10 r.2) := by
  have hform : sp1 ++ (renderRange r ++ sp2) =
      (sp1 ++ (Nat.toDigits 10 r.1 ++ [])) ++
        (('-' :: []) ++ ([] ++ (Nat.toDigits 10 r.2 ++ sp2))) := by
    simp [renderRange]
  have hm1 : '-' ∉ sp1 ++ (Nat.toDigits 10 r.1 ++ []) := by
    intro h
    rcases List.mem_append.1 h with h | h
    · exact absurd (h1 _ h) (by decide)
    · rw [List.append_nil] at h
      exact not_mem_toDigits _ _ (by decide) h
  have hm2 : '-' ∉ [] ++ (Nat.toDigits 10 r.2 ++ sp2) := by
    intro h
    rw [List.nil_append] at h
    rcases List.mem_append.1 h with h | h
    · exact not_mem_toDigits _ _ (by decide) h
    · exact absurd (h2 _ h) (by decide)
  have hsp : ∀ sp : List Char, (∀ c ∈ sp, c = ' ') → ∀ c ∈ sp, isSpace c = true := by
    intro sp h c hc
    rw [h c hc]
    decide
  have hdash : "-".toList = '-' :: [] := rfl
  rw [hform, hdash, divideString, split_two '-' [] _ _ hm1 hm2]
  simp only
  rw [trimSpace_spaces sp1 _ [] (hsp sp1 h1) (by simp)
      (fun c hc => (isDecimalDigit_facts c (toDigits_head _ c hc)).1)
      (fun c hc => (isDecimalDigit_facts c (toDigits_last _ c hc)).1),
    trimSpace_spaces [] _ sp2 (by simp) (hsp sp2 h2)
      (fun c hc => (isDecimalDigit_facts c (toDigits_head _ c hc)).1)
      (fun c hc => (isDecimalDigit_facts c (toDigits_last _ c hc)).1)]

theorem parseFieldLoop_render :
    ∀ (rs : List (Nat × Nat)) (r : Nat × Nat) (cur : List Char) (acc : List Interval),
      (∀ c ∈ cur, c = ' ') → (∀ x ∈ r :: rs, x.1 < 2 ^ 63 ∧ x.2 < 2 ^ 63) →
      parseFieldLoop (splitLoop "or".toList (renderRanges (r :: rs)) 0 cur) acc =
        .ok (acc ++ (r :: rs).map fun x => (⟨(x.1 : Int), (x.2 : Int)⟩ : Interval)) := by
  have hor : "or".toList = 'o' :: ['r'] := rfl
  intro rs
  induction rs with
  | nil =>
    intro r cur acc hcur hb
    have hrb := hb r (List.mem_cons_self _ _)
    have hcur' : ∀ c ∈ cur.reverse, c = ' ' := fun c hc => hcur c (List.mem_reverse.1 hc)
    have hd := divideString_range cur.reverse [] r hcur' (by simp)
    rw [List.append_nil] at hd
    rw [hor, renderRanges,
      splitLoop_last 'o' ['r'] _ cur (not_mem_renderRange r _ (by decide) (by decide)),
      parseFieldLoop, hd, ok_bind, parseFieldLoop]
    simp only [atoi_toDigits _ hrb.1, atoi_toDigits _ hrb.2, List.map_cons, List.map_nil]
  | cons r' rs ih =>
    intro r cur acc hcur hb
    have hrb := hb r (List.mem_cons_self _ _)
    have hcur' : ∀ c ∈ cur.reverse, c = ' ' := fun c hc => hcur c (List.mem_reverse.1 hc)
    have hd := divideString_range cur.reverse [' '] r hcur' (by simp)
    have hform : renderRanges (r :: r' :: rs) =
        (renderRange r ++ [' ']) ++ (('o' :: ['r']) ++ ([' '] ++ renderRanges (r' :: rs))) := by
      rw [renderRanges]
      have : " or ".toList = ' ' :: 'o' :: 'r' :: ' ' :: [] := rfl
      rw [this]
      simp
    have hno : 'o' ∉ renderRange r ++ [' '] := by
      intro h
      rcases List.mem_append.1 h with h | h
      · exact not_mem_renderRange r _ (by decide) (by decide) h
      · exact absurd (List.mem_singleton.1 h) (by decide)
    rw [hor, hform, splitLoop_piece 'o' ['r'] _ _ cur hno, splitLoop_sep,
      splitLoop_piece 'o' ['r'] [' '] _ [] (by decide), parseFieldLoop]
    have hpiece : ((renderRange r ++ [' ']).reverse ++ cur).reverse =
        cur.reverse ++ (renderRange r ++ [' ']) := by simp
    rw [hpiece, hd, ok_bind]
    have := ih r' ([' '].reverse ++ []) (acc ++ [⟨atoi (Nat.toDigits 10 r.1),
      atoi (Nat.toDigits 10 r.2)⟩]) (by simp)
      (fun x hx => hb x (List.mem_cons_of_mem _ hx))
    rw [hor] at this
    rw [this, atoi_toDigits _ hrb.1, atoi_toDigits _ hrb.2]
    simp

theorem parseField_render (name : String) (ranges : List (Nat × Nat))
    (hcolon : ':' ∉ name.toList)
    (hhead : ∀ c, name.toList.head? = some c → isSpace c = false)
    (hlast : ∀ c, name.toList.getLast? = some c → isSpace c = false)
    (hne : ranges ≠ [])
    (hbound : ∀ r ∈ ranges, r.1 < 2 ^ 63 ∧ r.2 < 2 ^ 63) :
    parseField (renderField name ranges) =
      .ok (name, ⟨ranges.map fun r => (⟨(r.1 : Int), (r.2 : Int)⟩ : Interval)⟩) := by
  cases ranges with
  | nil => exact absurd rfl hne
  | cons r rs =>
    have hline : (renderField name (r :: rs)).toList =
        name.toList ++ ((':' :: []) ++ ([' '] ++ (renderRanges (r :: rs) ++ []))) := by
      have : ": ".toList = ':' :: ' ' :: [] := rfl
      rw [renderField, this]
      simp
    have hcolon' : ':' ∉ [' '] ++ (renderRanges (r :: rs) ++ []) := by
      intro h
      rw [List.append_nil] at h
      rcases List.mem_append.1 h with h | h
      · exact absurd (List.mem_singleton.1 h) (by decide)
      · exact not_mem_renderRanges ':' (by decide) (by decide) (by decide) (by decide)
          (by decide) rs r h
    have hsep : ":".toList = ':' :: [] := rfl
    have hdiv : divideString (renderField name (r :: rs)).toList ":".toList =
        .ok (name.toList, renderRanges (r :: rs)) := by
      rw [hline, hsep, divideString, split_two ':' [] _ _ hcolon hcolon']
      simp only
      have h1 := trimSpace_spaces [] name.toList [] (by simp) (by simp) hhead hlast
      rw [List.nil_append, List.append_nil] at h1
      rw [h1, trimSpace_spaces [' '] _ [] (by decide) (by simp) (renderRanges_head rs r)
        (renderRanges_last rs r)]
    have hloop := parseFieldLoop_render rs r [] [] (by simp) hbound
    rw [parseField, hdiv, ok_bind]
    simp only [split]
    rw [hloop, ok_bind, List.nil_append]
    rfl

/-- Claim C14, for bounds that an `int` holds: for a name with no colon and no
white space at either end, and a non-empty list of ranges of natural numbers below
`2^63`, `parseField` applied to the line `<name>: a_1-b_1 or a_2-b_2 or ...` in
decimal rendering returns the name and the intervals `[a_i, b_i]` in the same
order. -/
theorem parseField_inverts (name : String) (ranges : List (Nat × Nat))
    (hcolon : ':' ∉ name.toList)
    (hhead : ∀ c, name.toList.head? = some c → isSpace c = false)
    (hlast : ∀ c, name.toList.getLast? = some c → isSpace c = false)
    (hne : ranges ≠ [])
    (hbound : ∀ r ∈ ranges, r.1 < 2 ^ 63 ∧ r.2 < 2 ^ 63) :
    parseField (renderField name ranges) =
      .ok (name, ⟨ranges.map fun r => (⟨(r.1 : Int), (r.2 : Int)⟩ : Interval)⟩) :=
  parseField_render name ranges hcolon hhead hlast hne hbound

theorem parseField_inverts_witness :
    renderField "departure location" [(31, 201), (227, 951)] =
      "departure location: 31-201 or 227-951" ∧
    parseField (renderField "departure location" [(31, 201), (227, 951)]) =
      .ok ("departure location", ⟨[⟨31, 201⟩, ⟨227, 951⟩]⟩) :=
  ⟨by decide,
    parseField_inverts "departure location" [(31, 201), (227, 951)] (by decide)
      (fun c h => by
        have h' : some 'd' = some c := h
        cases h'
        decide)
      (fun c h => by
        have h' : some 'n' = some c := h
        cases h'
        decide)
      (by decide) (by decide)⟩

/-- Claim C14 as stated fails for a bound that an `int` does not hold: for the line
`a: 0-9223372036854775808` the function `parseField` returns the interval
`[0, 9223372036854775807]`. -/
theorem parseField_clamps :
    renderField "a" [(0, 9223372036854775808)] = "a: 0-9223372036854775808" ∧
    parseField (renderField "a" [(0, 9223372036854775808)]) =
      .ok ("a", ⟨[⟨0, 9223372036854775807⟩]⟩) ∧
    parseField (renderField "a" [(0, 9223372036854775808)]) ≠
      .ok ("a", ⟨[⟨0, 9223372036854775808⟩]⟩) := by
  have h1 : renderField "a" [(0, 9223372036854775808)] = "a: 0-9223372036854775808" := by
    decide
  have h2 : parseField "a: 0-9223372036854775808" =
      .ok ("a", ⟨[⟨0, 9223372036854775807⟩]⟩) := rfl
  refine ⟨h1, by rw [h1, h2], ?_⟩
  rw [h1, h2]
  intro h
  have := congrArg (fun f : Field => (f.rules.map Interval.«end»)) (Prod.mk.inj (Except.ok.inj h)).2
  revert this
  decide

theorem getElem?_adjacent (P S : List Pair) (x y : Pair) :
    (P ++ y :: x :: S)[P.length]? = some y ∧ (P ++ y :: x :: S)[P.length + 1]? = some x := by
  constructor
  · rw [List.getElem?_append_right (Nat.le_refl _)]
    simp
  · rw [List.getElem?_append_right (Nat.le_add_right _ _)]
    simp

theorem dataLess_adjacent (less : Pair → Pair → Bool) (P S : List Pair) (x y : Pair) :
    dataLess less (P ++ y :: x :: S) (P.length + 1) P.length = some (less x y) := by
  unfold dataLess
  rw [(getElem?_adjacent P S x y).1, (getElem?_adjacent P S x y).2]

theorem dataSwap_adjacent (P S : List Pair) (x y : Pair) :
    dataSwap (P ++ y :: x :: S) (P.length + 1) P.length = some (P ++ x :: y :: S) := by
  unfold dataSwap
  rw [(getElem?_adjacent P S x y).1, (getElem?_adjacent P S x y).2]
  simp [List.set_append]

theorem insertionInner_spec (less : Pair → Pair → Bool) (x : Pair) (L : List Pair) :
    ∀ S : List Pair, insertionInner less 0 L.length (L.reverse ++ x :: S) =
      some ((insertLeft less x L).reverse ++ S) := by
  induction L with
  | nil => intro S; simp [insertionInner, insertLeft]
  | cons y ys ih =>
    intro S
    have hform : (y :: ys).reverse ++ x :: S = ys.reverse ++ y :: x :: S := by simp
    have hlen : ys.reverse.length = ys.length := List.length_reverse ys
    have hl := dataLess_adjacent less ys.reverse S x y
    have hs := dataSwap_adjacent ys.reverse S x y
    rw [hlen] at hl hs
    rw [hform, List.length_cons, insertionInner, if_pos (Nat.succ_pos _), hl]
    cases hxy : less x y with
    | false => simp [insertLeft, hxy]
    | true =>
      simp only [hs]
      rw [ih (y :: S)]
      simp [insertLeft, hxy]

theorem insertLeft_length (less : Pair → Pair → Bool) (x : Pair) (L : List Pair) :
    (insertLeft less x L).length = L.length + 1 := by
  simpa using (insertLeft_perm less x L).length_eq

theorem insertionOuter_spec (less : Pair → Pair → Bool) (rest : List Pair) :
    ∀ L : List Pair,
      insertionOuter less 0 (L.length + rest.length) rest.length L.length (L.reverse ++ rest) =
        some ((rest.foldl (fun sortedRev x => insertLeft less x sortedRev) L).reverse) := by
  induction rest with
  | nil => intro L; simp [insertionOuter]
  | cons x S ih =>
    intro L
    have hlt : L.length < L.length + (x :: S).length := by simp
    rw [List.length_cons, insertionOuter, if_pos (by simp), insertionInner_spec]
    have := ih (insertLeft less x L)
    rw [insertLeft_length] at this
    simp only [List.foldl_cons]
    rw [← this]
    congr 1
    omega

theorem insertionSortFunc_spec (less : Pair → Pair → Bool) (data : List Pair) :
    insertionSortFunc less data 0 data.length = some (insertionSortSlice data less) := by
  cases data with
  | nil => simp [insertionSortFunc, insertionOuter, insertionSortSlice]
  | cons x rest =>
    have := insertionOuter_spec less rest [x]
    simp only [List.length_singleton, List.reverse_singleton, List.singleton_append] at this
    simp only [insertionSortFunc, insertionSortSlice, List.length_cons, List.foldl_cons,
      insertLeft]
    rw [← this]
    congr 1
    omega

theorem sortSliceRun_short (xs : List Pair) (less : Pair → Pair → Bool)
    (h : xs.length ≤ 12) : sortSliceRun xs less = some (insertionSortSlice xs less) := by
  rw [sortSliceRun, pdqsortFunc, if_pos (by simpa using h), insertionSortFunc_spec]

theorem pdqsortSlice_short (xs : List Pair) (less : Pair → Pair → Bool)
    (h : xs.length ≤ 12) : pdqsortSlice xs less = insertionSortSlice xs less := by
  rw [pdqsortSlice, sortSliceRun_short xs less h]
  rfl

theorem searchOrderLoop_length (m : List (List Bool)) :
    (searchOrderLoop 0 m []).length = m.length := by
  have := congrArg List.length (searchOrderLoop_idx m 0 [])
  simpa using this

theorem thirteen_matrix : candidateMatrix thirteenColumns = .ok thirteenMatrix := rfl

theorem thirteen_unsorted : searchOrderLoop 0 thirteenMatrix [] = thirteenUnsorted := by
  decide

theorem thirteen_run : sortSliceRun thirteenUnsorted lessCount = some thirteenSorted := by
  decide

theorem thirteen_detect :
    detectOrder pdqsortSlice thirteenColumns =
      .ok ["f0", "f1", "f2", "f3", "f4", "f5", "f6", "f7", "f8", "f9", "f10", "f11", "f12"] :=
  rfl

/-- Claim C17 fails as stated for thirteen columns: on the puzzle `thirteenColumns`
column `0` has two candidate fields and every other column one, and the run of Go's
`sort.Slice` (one pivot step, then insertion sort of the rest) leaves the columns in
the order `6, 1, 2, 3, 4, 5, 7, 8, 9, 10, 11, 12, 0`: column `6` stands before
column `1`, of the same count. -/
theorem searchOrder_thirteen_columns :
    candidateMatrix thirteenColumns = .ok thirteenMatrix ∧
    searchOrderLoop 0 thirteenMatrix [] = thirteenUnsorted ∧
    sortSliceRun thirteenUnsorted lessCount = some thirteenSorted ∧
    searchOrder pdqsortSlice thirteenMatrix = thirteenSorted ∧
    (searchOrder pdqsortSlice thirteenMatrix).map Pair.idx =
      [6, 1, 2, 3, 4, 5, 7, 8, 9, 10, 11, 12, 0] ∧
    ¬ (searchOrder pdqsortSlice thirteenMatrix).Pairwise
      (fun a b => a.count < b.count ∨ (a.count = b.count ∧ a.idx < b.idx)) ∧
    detectOrder pdqsortSlice thirteenColumns =
      .ok ["f0", "f1", "f2", "f3", "f4", "f5", "f6", "f7", "f8", "f9", "f10", "f11", "f12"] := by
  have hso : searchOrder pdqsortSlice thirteenMatrix = thirteenSorted := by
    rw [searchOrder, thirteen_unsorted, pdqsortSlice, thirteen_run]
    rfl
  refine ⟨thirteen_matrix, thirteen_unsorted, thirteen_run, hso, ?_, ?_, thirteen_detect⟩
  · rw [hso]
    decide
  · rw [hso]
    decide

/-- Claim C17, as amended: for a `sort.Slice` that returns a rearrangement of its
argument in ascending order of the comparison, the search order of `detectOrder`
holds every column index once, each with the number of `true` entries of its row,
in ascending order of that count.  The order among columns of equal count is the
one `sort.Slice` leaves: with insertion sort it is the ascending column index, and
insertion sort is what Go's `sort.Slice` runs on a matrix of at most 12 columns. -/
theorem searchOrder_sorted (sortSlice : SortSlice)
    (hsort : ∀ xs less, (sortSlice xs less).Perm xs)
    (hsorted : ∀ xs, (sortSlice xs lessCount).Pairwise fun a b => ¬ lessCount b a = true)
    (m : List (List Bool)) :
    ((searchOrder sortSlice m).map Pair.idx).Perm (List.range m.length) ∧
    (∀ pr ∈ searchOrder sortSlice m, ∃ row, m[pr.idx]? = some row ∧ pr.count = row.count true) ∧
    ((searchOrder sortSlice m).Pairwise fun a b => a.count ≤ b.count) ∧
    ((searchOrder insertionSortSlice m).Pairwise
      fun a b => a.count < b.count ∨ (a.count = b.count ∧ a.idx < b.idx)) ∧
    (m.length ≤ 12 →
      sortSliceRun (searchOrderLoop 0 m []) lessCount =
        some (searchOrder insertionSortSlice m)) ∧
    (m.length ≤ 12 →
      (searchOrder pdqsortSlice m).Pairwise
        fun a b => a.count < b.count ∨ (a.count = b.count ∧ a.idx < b.idx)) := by
  refine ⟨searchOrder_cols sortSlice hsort m, ?_, ?_, insertionSortSlice_stable m, ?_, ?_⟩
  · intro pr hpr
    have hmem : pr ∈ searchOrderLoop 0 m [] := (hsort _ _).mem_iff.1 hpr
    rcases searchOrderLoop_mem m 0 [] pr hmem with h | ⟨i, row, hi, hpr'⟩
    · simp at h
    · refine ⟨row, ?_, ?_⟩
      · rw [hpr']; simpa using hi
      · rw [hpr']
  · refine (hsorted (searchOrderLoop 0 m [])).imp ?_
    intro a b hab
    simpa [lessCount] using hab
  · intro hm
    exact sortSliceRun_short _ _ (by rw [searchOrderLoop_length]; exact hm)
  · intro hm
    have h : searchOrder pdqsortSlice m = searchOrder insertionSortSlice m :=
      pdqsortSlice_short _ _ (by rw [searchOrderLoop_length]; exact hm)
    rw [h]
    exact insertionSortSlice_stable m

theorem searchOrder_sorted_witness :
    searchOrder insertionSortSlice [[false, true, false], [true, true, false], [true, true, true]]
      = [⟨0, 1⟩, ⟨1, 2⟩, ⟨2, 3⟩] ∧
    ((searchOrder insertionSortSlice
        [[false, true, false], [true, true, false], [true, true, true]]).map Pair.idx).Perm
      (List.range 3) ∧
    sortSliceRun
        (searchOrderLoop 0 [[false, true, false], [true, true, false], [true, true, true]] [])
        lessCount =
      some (searchOrder insertionSortSlice
        [[false, true, false], [true, true, false], [true, true, true]]) :=
  ⟨rfl, (searchOrder_sorted insertionSortSlice insertionSortSlice_perm insertionSortSlice_sorted
    [[false, true, false], [true, true, false], [true, true, true]]).1,
    (searchOrder_sorted insertionSortSlice insertionSortSlice_perm insertionSortSlice_sorted
    [[false, true, false], [true, true, false], [true, true, true]]).2.2.2.2.1 (by decide)⟩

end Day16

namespace Day7

open Day16 (Panic index assign wrapInt)

theorem lookup_mem (l : List (String × Nat)) (k : String) (v : Nat)
    (h : l.lookup k = some v) : (k, v) ∈ l := by
  induction l with
  | nil => simp at h
  | cons p l ih =>
    obtain ⟨k', v'⟩ := p
    rw [List.lookup_cons] at h
    by_cases hk : k = k'
    · subst hk
      simp only [beq_self_eq_true, Option.some.injEq] at h
      subst h
      exact List.mem_cons_self _ _
    · have : (k == k') = false := by simpa using hk
      rw [this] at h
      exact List.mem_cons_of_mem _ (ih h)

theorem lookup_of_mem (l : List (String × Nat)) (hnd : (l.map Prod.fst).Nodup) (k : String)
    (v : Nat) (h : (k, v) ∈ l) : l.lookup k = some v := by
  induction l with
  | nil => simp at h
  | cons p l ih =>
    obtain ⟨k', v'⟩ := p
    simp only [List.map_cons, List.nodup_cons, List.mem_map, not_exists, not_and] at hnd
    rw [List.lookup_cons]
    rcases List.mem_cons.1 h with e | hm
    · obtain ⟨rfl, rfl⟩ := Prod.mk.inj e
      simp
    · have hk : k ≠ k' := fun e => hnd.1 (k, v) hm e
      have : (k == k') = false := by simpa using hk
      rw [this]
      exact ih hnd.2 hm

theorem lookup_none (l : List (String × Nat)) (k : String) (h : l.lookup k = none) :
    k ∉ l.map Prod.fst := by
  induction l with
  | nil => simp
  | cons p l ih =>
    obtain ⟨k', v'⟩ := p
    rw [List.lookup_cons] at h
    by_cases hk : k = k'
    · subst hk; simp at h
    · have : (k == k') = false := by simpa using hk
      rw [this] at h
      simp only [List.map_cons, List.mem_cons, not_or]
      exact ⟨hk, ih h⟩

theorem getBagColorIndex_registered (ruleset : Ruleset) (bagColor : String) (idx : Nat)
    (h : ruleset.bagColorIndices.lookup bagColor = some idx) :
    ruleset.GetBagColorIndex bagColor = (idx, ruleset) := by
  simp [Ruleset.GetBagColorIndex, h]

theorem getBagColorIndex_new (ruleset : Ruleset) (bagColor : String)
    (h : ruleset.bagColorIndices.lookup bagColor = none) :
    ruleset.GetBagColorIndex bagColor = (ruleset.rules.length,
      ⟨ruleset.bagColorIndices ++ [(bagColor, ruleset.rules.length)], ruleset.rules ++ [[]]⟩) := by
  simp [Ruleset.GetBagColorIndex, h]

theorem mem_indices_lt (ruleset : Ruleset) (hw : WellFormed ruleset) (c : String) (i : Nat)
    (h : (c, i) ∈ ruleset.bagColorIndices) : i < ruleset.rules.length := by
  have : i ∈ ruleset.bagColorIndices.map Prod.snd := List.mem_map.2 ⟨(c, i), h, rfl⟩
  rw [hw.indices] at this
  exact List.mem_range.1 this

theorem wellFormed_getBagColorIndex (ruleset : Ruleset) (hw : WellFormed ruleset)
    (bagColor : String) :
    WellFormed (ruleset.GetBagColorIndex bagColor).2 ∧
    (ruleset.GetBagColorIndex bagColor).2.bagColorIndices.lookup bagColor =
      some (ruleset.GetBagColorIndex bagColor).1 ∧
    (ruleset.GetBagColorIndex bagColor).1 < (ruleset.GetBagColorIndex bagColor).2.rules.length ∧
    ruleset.rules.length ≤ (ruleset.GetBagColorIndex bagColor).2.rules.length ∧
    (∀ c i, ruleset.bagColorIndices.lookup c = some i →
      (ruleset.GetBagColorIndex bagColor).2.bagColorIndices.lookup c = some i) ∧
    (∀ (i : Nat) (rule : BagContent), ruleset.rules[i]? = some rule →
      (ruleset.GetBagColorIndex bagColor).2.rules[i]? = some rule) := by
  cases h : ruleset.bagColorIndices.lookup bagColor with
  | some idx =>
    rw [getBagColorIndex_registered _ _ _ h]
    exact ⟨hw, h, mem_indices_lt ruleset hw _ _ (lookup_mem _ _ _ h), le_refl _,
      fun _ _ hc => hc, fun _ _ hr => hr⟩
  | none =>
    rw [getBagColorIndex_new _ _ h]
    have hnew : bagColor ∉ ruleset.bagColorIndices.map Prod.fst := lookup_none _ _ h
    have hcol : ((ruleset.bagColorIndices ++ [(bagColor, ruleset.rules.length)]).map
        Prod.fst).Nodup := by
      rw [List.map_append, List.nodup_append]
      refine ⟨hw.colours, by simp, ?_⟩
      intro a ha hb
      simp only [List.map_cons, List.map_nil, List.mem_singleton] at hb
      exact hnew (hb ▸ ha)
    refine ⟨⟨?_, hcol, ?_, ?_⟩, ?_, by simp, by simp, ?_, ?_⟩
    · simp [hw.indices, List.range_succ]
    · intro rule hrule bc hbc
      simp only [List.length_append, List.length_singleton]
      rcases List.mem_append.1 hrule with h1 | h1
      · exact Nat.lt_succ_of_lt (hw.inRange rule h1 bc hbc)
      · rw [List.mem_singleton.1 h1] at hbc
        simp at hbc
    · intro rule hrule
      rcases List.mem_append.1 hrule with h1 | h1
      · exact hw.distinct rule h1
      · rw [List.mem_singleton.1 h1]
        simp
    · exact lookup_of_mem _ hcol _ _ (by simp)
    · intro c i hc
      exact lookup_of_mem _ hcol _ _ (List.mem_append_left _ (lookup_mem _ _ _ hc))
    · intro i rule hr
      have hi := (List.getElem?_eq_some.1 hr).1
      simp only
      rw [List.getElem?_append_left hi]
      exact hr

theorem lookup_injective (ruleset : Ruleset) (hw : WellFormed ruleset) (c1 c2 : String)
    (i : Nat) (h1 : ruleset.bagColorIndices.lookup c1 = some i)
    (h2 : ruleset.bagColorIndices.lookup c2 = some i) : c1 = c2 := by
  have hnd : (ruleset.bagColorIndices.map Prod.snd).Nodup := by
    rw [hw.indices]; exact List.nodup_range _
  have m1 := lookup_mem _ _ _ h1
  have m2 := lookup_mem _ _ _ h2
  have := List.inj_on_of_nodup_map hnd m1 m2 rfl
  exact (Prod.mk.inj this).1

theorem wellFormed_empty : WellFormed emptyRuleset :=
  ⟨rfl, List.nodup_nil, fun _ h => by simp [emptyRuleset] at h,
    fun _ h => by simp [emptyRuleset] at h⟩

theorem defineRuleLoop_spec (bagContent : List (String × Int)) :
    ∀ (ruleset : Ruleset) (rule : BagContent), WellFormed ruleset →
      (bagContent.map Prod.fst).Nodup →
      (∀ bc ∈ rule, ∃ c, c ∉ bagContent.map Prod.fst ∧
        ruleset.bagColorIndices.lookup c = some bc.bagIdx) →
      (rule.map BagCount.bagIdx).Nodup →
      WellFormed (defineRuleLoop bagContent ruleset rule).1 ∧
      (∀ bc ∈ (defineRuleLoop bagContent ruleset rule).2,
        bc.bagIdx < (defineRuleLoop bagContent ruleset rule).1.rules.length) ∧
      ((defineRuleLoop bagContent ruleset rule).2.map BagCount.bagIdx).Nodup ∧
      ruleset.rules.length ≤ (defineRuleLoop bagContent ruleset rule).1.rules.length ∧
      (∀ c i, ruleset.bagColorIndices.lookup c = some i →
        (defineRuleLoop bagContent ruleset rule).1.bagColorIndices.lookup c = some i) := by
  induction bagContent with
  | nil =>
    intro ruleset rule hw _ hrule hnd
    refine ⟨hw, ?_, hnd, le_refl _, fun _ _ h => h⟩
    intro bc hbc
    obtain ⟨c, _, hc⟩ := hrule bc hbc
    exact mem_indices_lt ruleset hw _ _ (lookup_mem _ _ _ hc)
  | cons p rest ih =>
    obtain ⟨bag, count⟩ := p
    intro ruleset rule hw hkeys hrule hnd
    simp only [List.map_cons, List.nodup_cons] at hkeys
    obtain ⟨hw', hlook, _, hle, hstable, _⟩ := wellFormed_getBagColorIndex ruleset hw bag
    have hrule' : ∀ bc ∈ rule ++ [BagCount.mk (ruleset.GetBagColorIndex bag).1 count],
        ∃ c, c ∉ rest.map Prod.fst ∧
          (ruleset.GetBagColorIndex bag).2.bagColorIndices.lookup c = some bc.bagIdx := by
      intro bc hbc
      rcases List.mem_append.1 hbc with h1 | h1
      · obtain ⟨c, hc1, hc2⟩ := hrule bc h1
        exact ⟨c, fun h => hc1 (List.mem_cons_of_mem _ h), hstable c _ hc2⟩
      · rw [List.mem_singleton.1 h1]
        exact ⟨bag, hkeys.1, hlook⟩
    have hnd' : ((rule ++ [BagCount.mk (ruleset.GetBagColorIndex bag).1 count]).map
        BagCount.bagIdx).Nodup := by
      rw [List.map_append, List.nodup_append]
      refine ⟨hnd, by simp, ?_⟩
      intro a ha hb
      simp only [List.map_cons, List.map_nil, List.mem_singleton] at hb
      obtain ⟨bc, hbc, rfl⟩ := List.mem_map.1 ha
      obtain ⟨c, hc1, hc2⟩ := hrule bc hbc
      have hc3 := hstable c _ hc2
      rw [hb] at hc3
      have : c = bag := lookup_injective _ hw' c bag _ hc3 hlook
      exact hc1 (this ▸ List.mem_cons_self _ _)
    obtain ⟨r1, r2, r3, r4, r5⟩ := ih (ruleset.GetBagColorIndex bag).2
      (rule ++ [BagCount.mk (ruleset.GetBagColorIndex bag).1 count]) hw' hkeys.2 hrule' hnd'
    exact ⟨r1, r2, r3, le_trans hle r4, fun c i h => r5 c i (hstable c i h)⟩

theorem wellFormed_defineRule (ruleset ruleset' : Ruleset) (hw : WellFormed ruleset)
    (bagColor : String) (bagContent : List (String × Int))
    (hkeys : (bagContent.map Prod.fst).Nodup)
    (h : ruleset.DefineRule bagColor bagContent = .ok ruleset') : WellFormed ruleset' := by
  obtain ⟨w1, hin, hnd, _, _⟩ := defineRuleLoop_spec bagContent ruleset [] hw hkeys
    (fun _ h => by simp at h) (by simp)
  obtain ⟨w2, _, hlt, hle, _, _⟩ :=
    wellFormed_getBagColorIndex (defineRuleLoop bagContent ruleset []).1 w1 bagColor
  simp only [Ruleset.DefineRule, Day16.assign_ok _ _ _ hlt, Day16.ok_bind] at h
  have h' := Except.ok.inj h
  subst h'
  refine ⟨?_, w2.colours, ?_, ?_⟩
  · simp [w2.indices]
  · intro rule hrule bc hbc
    simp only [List.length_set]
    rcases List.mem_or_eq_of_mem_set hrule with h1 | h1
    · exact w2.inRange rule h1 bc hbc
    · rw [h1] at hbc
      exact lt_of_lt_of_le (hin bc hbc) hle
  · intro rule hrule
    rcases List.mem_or_eq_of_mem_set hrule with h1 | h1
    · exact w2.distinct rule h1
    · rw [h1]; exact hnd

theorem wellFormed_of_reachable (ruleset : Ruleset) (h : Reachable ruleset) :
    WellFormed ruleset := by
  induction h with
  | empty => exact wellFormed_empty
  | getIndex rs c _ ih => exact (wellFormed_getBagColorIndex rs ih c).1
  | defineRule rs rs' c content _ hkeys hdef ih =>
    exact wellFormed_defineRule rs rs' ih c content hkeys hdef

theorem defineRule_ok (ruleset : Ruleset) (hw : WellFormed ruleset) (bagColor : String)
    (bagContent : List (String × Int)) (hkeys : (bagContent.map Prod.fst).Nodup) :
    ∃ ruleset', ruleset.DefineRule bagColor bagContent = .ok ruleset' := by
  obtain ⟨w1, _, _, _, _⟩ := defineRuleLoop_spec bagContent ruleset [] hw hkeys
    (fun _ h => by simp at h) (by simp)
  obtain ⟨_, _, hlt, _, _, _⟩ :=
    wellFormed_getBagColorIndex (defineRuleLoop bagContent ruleset []).1 w1 bagColor
  exact ⟨_, by simp only [Ruleset.DefineRule, Day16.assign_ok _ _ _ hlt, Day16.ok_bind]; rfl⟩

theorem reachable_published : Reachable publishedRuleset := by
  have h0 := Reachable.empty
  have h1 := Reachable.defineRule _ _ "light red" [("bright white", 1), ("muted yellow", 2)]
    h0 (by decide) rfl
  have h2 := Reachable.defineRule _ _ "dark orange" [("bright white", 3), ("muted yellow", 4)]
    h1 (by decide) rfl
  have h3 := Reachable.defineRule _ _ "bright white" [("shiny gold", 1)] h2 (by decide) rfl
  have h4 := Reachable.defineRule _ _ "muted yellow" [("shiny gold", 2), ("faded blue", 9)]
    h3 (by decide) rfl
  have h5 := Reachable.defineRule _ _ "shiny gold" [("dark olive", 1), ("vibrant plum", 2)]
    h4 (by decide) rfl
  have h6 := Reachable.defineRule _ _ "dark olive" [("faded blue", 3), ("dotted black", 4)]
    h5 (by decide) rfl
  have h7 := Reachable.defineRule _ _ "vibrant plum" [("faded blue", 5), ("dotted black", 6)]
    h6 (by decide) rfl
  have h8 := Reachable.defineRule _ _ "faded blue" [] h7 (by decide) rfl
  exact Reachable.defineRule _ publishedRuleset "dotted black" [] h8 (by decide) rfl

/-- Claim C20: in every ruleset reachable from the empty ruleset by calls of
`GetBagColorIndex` and `DefineRule`, the map from colours to indices is injective,
its values are exactly the numbers below `len(rules)`, and every `bagIdx` stored in
a rule is below `len(rules)`; `GetBagColorIndex` on a registered colour returns the
index the colour has and leaves the ruleset as it is. -/
theorem reachable_invariant (ruleset : Ruleset) (h : Reachable ruleset) :
    (∀ c1 c2 i, ruleset.bagColorIndices.lookup c1 = some i →
      ruleset.bagColorIndices.lookup c2 = some i → c1 = c2) ∧
    (∀ i, (∃ c, ruleset.bagColorIndices.lookup c = some i) ↔ i < ruleset.rules.length) ∧
    (∀ rule ∈ ruleset.rules, ∀ bc ∈ rule, bc.bagIdx < ruleset.rules.length) ∧
    (∀ c i, ruleset.bagColorIndices.lookup c = some i →
      ruleset.GetBagColorIndex c = (i, ruleset)) := by
  have hw := wellFormed_of_reachable ruleset h
  refine ⟨lookup_injective ruleset hw, ?_, hw.inRange, getBagColorIndex_registered ruleset⟩
  intro i
  constructor
  · rintro ⟨c, hc⟩
    exact mem_indices_lt ruleset hw c i (lookup_mem _ _ _ hc)
  · intro hi
    have : i ∈ ruleset.bagColorIndices.map Prod.snd := by
      rw [hw.indices]; exact List.mem_range.2 hi
    obtain ⟨p, hp, rfl⟩ := List.mem_map.1 this
    exact ⟨p.1, lookup_of_mem _ hw.colours _ _ hp⟩

theorem reachable_invariant_witness :
    (∀ i, (∃ c, publishedRuleset.bagColorIndices.lookup c = some i) ↔
      i < publishedRuleset.rules.length) ∧
    publishedRuleset.GetBagColorIndex "shiny gold" = (4, publishedRuleset) :=
  ⟨(reachable_invariant publishedRuleset reachable_published).2.1,
    (reachable_invariant publishedRuleset reachable_published).2.2.2 "shiny gold" 4 rfl⟩

theorem containersRule_spec (idx : Nat) (rule : BagContent) :
    ∀ containers : List (List Nat), (∀ bc ∈ rule, bc.bagIdx < containers.length) →
      containersRule idx rule containers = .ok ((List.range containers.length).map fun i =>
        containers.getD i [] ++ List.replicate (rule.countP fun bc => bc.bagIdx = i) idx) := by
  induction rule with
  | nil =>
    intro containers _
    simp only [containersRule, List.countP_nil, List.replicate_zero, List.append_nil]
    congr 1
    apply List.ext_getElem (by simp)
    intro i h1 h2
    simp [List.getD_eq_getElem?_getD, List.getElem?_eq_getElem h1]
  | cons bc rest ih =>
    intro containers h
    have hb : bc.bagIdx < containers.length := h bc (List.mem_cons_self _ _)
    simp only [containersRule, Day16.index_ok _ _ hb, Day16.assign_ok _ _ _ hb, Day16.ok_bind]
    rw [ih _ (by intro bc' hbc'; simpa using h bc' (List.mem_cons_of_mem _ hbc'))]
    congr 1
    simp only [List.length_set]
    apply List.map_congr_left
    intro i hi
    have hi' : i < containers.length := List.mem_range.1 hi
    by_cases hib : bc.bagIdx = i
    · subst hib
      simp [List.getD_eq_getElem?_getD, List.getElem?_set_self hb, List.getElem?_eq_getElem hb,
        List.countP_cons, List.replicate_succ]
    · simp [List.getD_eq_getElem?_getD, List.getElem?_set_ne hib, List.countP_cons, hib]

theorem containersLoop_spec (rules : List BagContent) :
    ∀ (k : Nat) (containers : List (List Nat)),
      (∀ rule ∈ rules, ∀ bc ∈ rule, bc.bagIdx < containers.length) →
      containersLoop k rules containers = .ok ((List.range containers.length).map fun i =>
        containers.getD i [] ++ containersOf rules k i) := by
  induction rules with
  | nil =>
    intro k containers _
    simp only [containersLoop, containersOf, List.append_nil]
    congr 1
    apply List.ext_getElem (by simp)
    intro i h1 h2
    simp [List.getD_eq_getElem?_getD, List.getElem?_eq_getElem h1]
  | cons rule rest ih =>
    intro k containers h
    simp only [containersLoop,
      containersRule_spec k rule containers (h rule (List.mem_cons_self _ _)), Day16.ok_bind]
    rw [ih _ _ (by
      intro r hr bc hbc
      simpa using h r (List.mem_cons_of_mem _ hr) bc hbc)]
    congr 1
    simp only [List.length_map, List.length_range]
    apply List.map_congr_left
    intro i hi
    have hi' : i < containers.length := List.mem_range.1 hi
    simp [containersOf, List.getD_eq_getElem?_getD, List.getElem?_range hi',
      List.getElem?_eq_getElem hi']

theorem computeContainers_spec (ruleset : Ruleset) (hw : WellFormed ruleset) :
    computeContainers ruleset = .ok ((List.range ruleset.rules.length).map fun i =>
      containersOf ruleset.rules 0 i) := by
  unfold computeContainers
  rw [containersLoop_spec _ _ _ (by simpa using hw.inRange)]
  congr 1
  simp only [List.length_replicate]
  apply List.map_congr_left
  intro i hi
  simp [List.getD_eq_getElem?_getD, List.getElem?_replicate, List.mem_range.1 hi]

theorem mem_containersOf (rules : List BagContent) :
    ∀ (k i j : Nat), j ∈ containersOf rules k i ↔
      k ≤ j ∧ ∃ rule, rules[j - k]? = some rule ∧ ∃ bc ∈ rule, bc.bagIdx = i := by
  induction rules with
  | nil => intro k i j; simp [containersOf]
  | cons rule rest ih =>
    intro k i j
    simp only [containersOf, List.mem_append, List.mem_replicate, ih]
    constructor
    · rintro (⟨hcnt, rfl⟩ | ⟨hk, r, hr, hbc⟩)
      · refine ⟨le_refl _, rule, by simp, ?_⟩
        have : 0 < rule.countP fun bc => bc.bagIdx = i := Nat.pos_of_ne_zero hcnt
        obtain ⟨bc, hbc, hp⟩ := List.countP_pos_iff.1 this
        exact ⟨bc, hbc, by simpa using hp⟩
      · refine ⟨by omega, r, ?_, hbc⟩
        have : j - k = (j - (k + 1)) + 1 := by omega
        rw [this]
        simpa using hr
    · rintro ⟨hk, r, hr, bc, hbc, hi⟩
      rcases Nat.eq_or_lt_of_le hk with heq | hlt
      · subst heq
        left
        simp only [Nat.sub_self, List.getElem?_cons_zero, Option.some.injEq] at hr
        subst hr
        refine ⟨?_, rfl⟩
        have : 0 < rule.countP fun bc => bc.bagIdx = i :=
          List.countP_pos_iff.2 ⟨bc, hbc, by simpa using hi⟩
        omega
      · right
        refine ⟨hlt, r, ?_, bc, hbc, hi⟩
        have : j - k = (j - (k + 1)) + 1 := by omega
        rw [this] at hr
        simpa using hr

theorem mem_containersOf_zero (rules : List BagContent) (i j : Nat) :
    j ∈ containersOf rules 0 i ↔ Contains rules j i := by
  rw [mem_containersOf]
  simp [Contains]

theorem count_false_set (visited : List Bool) (c : Nat) (hc : c < visited.length)
    (h : visited[c] = false) :
    (visited.set c true).count false + 1 = visited.count false := by
  induction visited generalizing c with
  | nil => simp at hc
  | cons b v ih =>
    cases c with
    | zero =>
      simp only [List.getElem_cons_zero] at h
      subst h
      simp
    | succ c =>
      simp only [List.getElem_cons_succ] at h
      have := ih c (by simpa using hc) h
      cases b <;> simp [List.set_cons_succ, List.count_cons] <;> omega

theorem visitLoop_spec (cs : List Nat) :
    ∀ (stack : List Nat) (visited : List Bool), (∀ c ∈ cs, c < visited.length) →
      ∃ stack' visited', visitLoop cs stack visited = .ok (stack', visited') ∧
        visited'.length = visited.length ∧
        (∀ j, visited'[j]? = some true ↔ (visited[j]? = some true ∨ j ∈ cs)) ∧
        (∀ x, x ∈ stack' ↔ (x ∈ stack ∨ (x ∈ cs ∧ visited[x]? = some false))) ∧
        stack'.length + visited'.count false = stack.length + visited.count false := by
  induction cs with
  | nil =>
    intro stack visited _
    exact ⟨stack, visited, rfl, rfl, by simp, by simp, rfl⟩
  | cons c cs ih =>
    intro stack visited h
    have hc : c < visited.length := h c (List.mem_cons_self _ _)
    have hcs : ∀ c' ∈ cs, c' < visited.length := fun c' hc' => h c' (List.mem_cons_of_mem _ hc')
    cases hv : visited[c] with
    | true =>
      obtain ⟨s', v', hrun, hlen, hmark, hstack, hmeas⟩ := ih stack visited hcs
      refine ⟨s', v', ?_, hlen, ?_, ?_, hmeas⟩
      · simp only [visitLoop, Day16.index_ok _ _ hc, hv, Day16.ok_bind]
        simpa using hrun
      · intro j
        rw [hmark j, List.mem_cons]
        constructor
        · rintro (h1 | h1)
          · exact Or.inl h1
          · exact Or.inr (Or.inr h1)
        · rintro (h1 | rfl | h1)
          · exact Or.inl h1
          · exact Or.inl (by rw [List.getElem?_eq_getElem hc, hv])
          · exact Or.inr h1
      · intro x
        rw [hstack x, List.mem_cons]
        constructor
        · rintro (h1 | ⟨h1, h2⟩)
          · exact Or.inl h1
          · exact Or.inr ⟨Or.inr h1, h2⟩
        · rintro (h1 | ⟨rfl | h1, h2⟩)
          · exact Or.inl h1
          · rw [List.getElem?_eq_getElem hc, hv] at h2
            exact absurd (Option.some.inj h2) (by decide)
          · exact Or.inr ⟨h1, h2⟩
    | false =>
      obtain ⟨s', v', hrun, hlen, hmark, hstack, hmeas⟩ :=
        ih (c :: stack) (visited.set c true) (by simpa using hcs)
      refine ⟨s', v', ?_, by simpa using hlen, ?_, ?_, ?_⟩
      · simp only [visitLoop, Day16.index_ok _ _ hc, hv, Day16.ok_bind,
          Day16.assign_ok _ _ _ hc]
        simpa using hrun
      · intro j
        rw [hmark j, List.mem_cons]
        by_cases hj : c = j
        · subst hj
          simp [List.getElem?_set_self hc]
        · rw [List.getElem?_set_ne hj]
          constructor
          · rintro (h1 | h1)
            · exact Or.inl h1
            · exact Or.inr (Or.inr h1)
          · rintro (h1 | h1 | h1)
            · exact Or.inl h1
            · exact absurd h1.symm hj
            · exact Or.inr h1
      · intro x
        rw [hstack x, List.mem_cons, List.mem_cons]
        by_cases hx : c = x
        · subst hx
          simp [List.getElem?_eq_getElem hc, hv]
        · rw [List.getElem?_set_ne hx]
          constructor
          · rintro ((h1 | h1) | ⟨h1, h2⟩)
            · exact absurd h1.symm hx
            · exact Or.inl h1
            · exact Or.inr ⟨Or.inr h1, h2⟩
          · rintro (h1 | ⟨h1 | h1, h2⟩)
            · exact Or.inl (Or.inr h1)
            · exact absurd h1.symm hx
            · exact Or.inr ⟨h1, h2⟩
      · have := count_false_set visited c hc hv
        simp only [List.length_cons] at hmeas
        omega

theorem visitSearch_spec (containers : List (List Nat)) (n start : Nat)
    (hclen : containers.length = n)
    (hcin : ∀ cs ∈ containers, ∀ c ∈ cs, c < n) :
    ∀ (fuel : Nat) (stack : List Nat) (visited : List Bool),
      visited.length = n → (∀ x ∈ stack, x < n) →
      (∀ j, visited[j]? = some true →
        Relation.TransGen (fun a b => a ∈ containers.getD b []) j start) →
      (∀ x ∈ stack, x = start ∨ visited[x]? = some true) →
      (∀ x, (x = start ∨ visited[x]? = some true) →
        x ∈ stack ∨ ∀ j ∈ containers.getD x [], visited[j]? = some true) →
      stack.length + visited.count false ≤ fuel →
      ∃ v, visitSearch containers fuel stack visited = .ok (some v) ∧ v.length = n ∧
        ∀ j, v[j]? = some true ↔
          Relation.TransGen (fun a b => a ∈ containers.getD b []) j start := by
  intro fuel
  induction fuel with
  | zero =>
    intro stack visited hlen _ ha _ hc hfuel
    have hs : stack = [] := List.length_eq_zero.1 (by omega)
    subst hs
    refine ⟨visited, rfl, hlen, fun j => ⟨ha j, ?_⟩⟩
    intro hreach
    induction hreach using Relation.TransGen.head_induction_on with
    | base hab =>
      rcases hc start (Or.inl rfl) with h | h
      · simp at h
      · exact h _ hab
    | ih hab _ hx =>
      rcases hc _ (Or.inr hx) with h | h
      · simp at h
      · exact h _ hab
  | succ fuel ih =>
    intro stack visited hlen hsl ha hb hc hfuel
    cases stack with
    | nil =>
      refine ⟨visited, rfl, hlen, fun j => ⟨ha j, ?_⟩⟩
      intro hreach
      induction hreach using Relation.TransGen.head_induction_on with
      | base hab =>
        rcases hc start (Or.inl rfl) with h | h
        · simp at h
        · exact h _ hab
      | ih hab _ hx =>
        rcases hc _ (Or.inr hx) with h | h
        · simp at h
        · exact h _ hab
    | cons idx stack =>
      have hidx : idx < containers.length := by
        rw [hclen]; exact hsl idx (List.mem_cons_self _ _)
      have hcs : ∀ c ∈ containers[idx], c < visited.length := by
        intro c hcm
        rw [hlen]
        exact hcin _ (List.getElem_mem _) c hcm
      have hgetD : containers.getD idx [] = containers[idx] := List.getD_eq_getElem _ _ hidx
      obtain ⟨s', v', hrun, hlen', hmark, hstack, hmeas⟩ :=
        visitLoop_spec containers[idx] stack visited hcs
      have hreachIdx : ∀ j ∈ containers[idx],
          Relation.TransGen (fun a b => a ∈ containers.getD b []) j start := by
        intro j hj
        have hedge : j ∈ containers.getD idx [] := by rw [hgetD]; exact hj
        rcases hb idx (List.mem_cons_self _ _) with h | h
        · rw [h] at hedge
          exact Relation.TransGen.single hedge
        · exact Relation.TransGen.head hedge (ha idx h)
      obtain ⟨v, hv, hvlen, hvspec⟩ := ih s' v' (by rw [hlen', hlen])
        (by
          intro x hx
          rcases (hstack x).1 hx with h | ⟨h, _⟩
          · exact hsl x (List.mem_cons_of_mem _ h)
          · exact hcin _ (List.getElem_mem _) x h)
        (by
          intro j hj
          rcases (hmark j).1 hj with h | h
          · exact ha j h
          · exact hreachIdx j h)
        (by
          intro x hx
          rcases (hstack x).1 hx with h | ⟨h, _⟩
          · rcases hb x (List.mem_cons_of_mem _ h) with h1 | h1
            · exact Or.inl h1
            · exact Or.inr ((hmark x).2 (Or.inl h1))
          · exact Or.inr ((hmark x).2 (Or.inr h)))
        (by
          intro x hx
          by_cases hxi : x = idx
          · right
            intro j hj
            rw [hxi, hgetD] at hj
            exact (hmark j).2 (Or.inr hj)
          · have hold : (x = start ∨ visited[x]? = some true) ∨
                (x ∈ containers[idx] ∧ visited[x]? = some false) := by
              rcases hx with h | h
              · exact Or.inl (Or.inl h)
              · rcases (hmark x).1 h with h1 | h1
                · exact Or.inl (Or.inr h1)
                · have hxl : x < visited.length := hcs x h1
                  cases hvx : visited[x] with
                  | true => exact Or.inl (Or.inr (by rw [List.getElem?_eq_getElem hxl, hvx]))
                  | false => exact Or.inr ⟨h1, by rw [List.getElem?_eq_getElem hxl, hvx]⟩
            rcases hold with h | h
            · rcases hc x h with h1 | h1
              · rcases List.mem_cons.1 h1 with h2 | h2
                · exact absurd h2 hxi
                · exact Or.inl ((hstack x).2 (Or.inl h2))
              · exact Or.inr fun j hj => (hmark j).2 (Or.inl (h1 j hj))
            · exact Or.inl ((hstack x).2 (Or.inr h)))
        (by simp only [List.length_cons] at hfuel; omega)
      refine ⟨v, ?_, hvlen, hvspec⟩
      simp only [visitSearch, Day16.index_ok _ _ hidx, Day16.ok_bind, hrun]
      exact hv

theorem countVisited_eq (v : List Bool) : ∀ count, countVisited v count = count + v.count true := by
  induction v with
  | nil => intro count; simp [countVisited]
  | cons b v ih =>
    intro count
    cases b with
    | true => simp only [countVisited, if_true, ih, List.count_cons_self]; omega
    | false => simp [countVisited, ih]

theorem countP_range_getD (v : List Bool) :
    (List.range v.length).countP (fun j => v.getD j false) = v.count true := by
  induction v with
  | nil => simp
  | cons b v ih =>
    rw [List.length_cons, List.range_succ_eq_map, List.countP_cons, List.countP_map]
    have : ((fun j => (b :: v).getD j false) ∘ Nat.succ) = fun j => v.getD j false := by
      funext j; simp
    rw [this, ih]
    cases b <;> simp

theorem contains_lt (ruleset : Ruleset) (hw : WellFormed ruleset) (j i : Nat)
    (h : Contains ruleset.rules j i) : j < ruleset.rules.length ∧ i < ruleset.rules.length := by
  obtain ⟨rule, hr, bc, hbc, rfl⟩ := h
  exact ⟨(List.getElem?_eq_some.1 hr).1, hw.inRange rule (List.getElem?_mem hr) bc hbc⟩

theorem colour_of_index (ruleset : Ruleset) (hw : WellFormed ruleset) (i : Nat)
    (hi : i < ruleset.rules.length) : ∃ c, ruleset.bagColorIndices.lookup c = some i := by
  have : i ∈ ruleset.bagColorIndices.map Prod.snd := by
    rw [hw.indices]; exact List.mem_range.2 hi
  obtain ⟨p, hp, rfl⟩ := List.mem_map.1 this
  exact ⟨p.1, lookup_of_mem _ hw.colours _ _ hp⟩

theorem colourChain_iff (ruleset : Ruleset) (hw : WellFormed ruleset) (X Y : String) :
    Relation.TransGen (ColourContains ruleset) X Y ↔
      ∃ j i, ruleset.bagColorIndices.lookup X = some j ∧
        ruleset.bagColorIndices.lookup Y = some i ∧
        Relation.TransGen (Contains ruleset.rules) j i := by
  constructor
  · intro h
    induction h with
    | single hxy =>
      obtain ⟨j, i, hj, hi, hc⟩ := hxy
      exact ⟨j, i, hj, hi, Relation.TransGen.single hc⟩
    | tail _ hzy ih =>
      obtain ⟨j, k, hj, hk, hjk⟩ := ih
      obtain ⟨k', i, hk', hi, hc⟩ := hzy
      rw [hk] at hk'
      have := Option.some.inj hk'
      subst this
      exact ⟨j, i, hj, hi, Relation.TransGen.tail hjk hc⟩
  · rintro ⟨j, i, hj, hi, h⟩
    revert Y
    induction h with
    | single hc =>
      intro Y hi
      exact Relation.TransGen.single ⟨j, _, hj, hi, hc⟩
    | tail hjb hc ih =>
      intro Y hi
      rename_i b c
      obtain ⟨Z, hZ⟩ := colour_of_index ruleset hw b (contains_lt ruleset hw _ _ hc).1
      exact Relation.TransGen.tail (ih Z hZ) ⟨b, _, hZ, hi, hc⟩

theorem visited_spec (ruleset : Ruleset) (hw : WellFormed ruleset) (bagColor : String)
    (start : Nat) (hreg : ruleset.bagColorIndices.lookup bagColor = some start)
    (fuel : Nat) (hfuel : ruleset.rules.length + 1 ≤ fuel) :
    ∃ v : List Bool, countIndirectContainers fuel ruleset bagColor =
        .ok (some (v.count true)) ∧ v.length = ruleset.rules.length ∧
      ∀ j, v[j]? = some true ↔ Relation.TransGen (Contains ruleset.rules) j start := by
  have hrel : ∀ a b, a ∈ ((List.range ruleset.rules.length).map fun i =>
      containersOf ruleset.rules 0 i).getD b [] ↔ Contains ruleset.rules a b := by
    intro a b
    by_cases hb : b < ruleset.rules.length
    · simp [List.getD_eq_getElem?_getD, List.getElem?_range hb, mem_containersOf_zero]
    · have hnone : ((List.range ruleset.rules.length).map fun i =>
          containersOf ruleset.rules 0 i)[b]? = none :=
        List.getElem?_eq_none (by simp; omega)
      simp only [List.getD_eq_getElem?_getD, hnone, Option.getD_none, List.not_mem_nil,
        false_iff]
      exact fun h => hb (contains_lt ruleset hw _ _ h).2
  have hstart : start < ruleset.rules.length := mem_indices_lt ruleset hw _ _ (lookup_mem _ _ _ hreg)
  obtain ⟨v, hv, hvlen, hvspec⟩ := visitSearch_spec
    ((List.range ruleset.rules.length).map fun i => containersOf ruleset.rules 0 i)
    ruleset.rules.length start (by simp)
    (by
      intro cs hcs c hc
      obtain ⟨i, _, rfl⟩ := List.mem_map.1 hcs
      exact (contains_lt ruleset hw _ _ ((mem_containersOf_zero _ _ _).1 hc)).1)
    fuel [start] (List.replicate ruleset.rules.length false) (by simp)
    (by simpa using hstart)
    (by
      intro j hj
      have hjl := (List.getElem?_eq_some.1 hj).1
      rw [List.getElem?_eq_getElem hjl] at hj
      simp at hj)
    (by simp)
    (by
      intro x hx
      rcases hx with h | h
      · exact Or.inl (by simp [h])
      · have hxl := (List.getElem?_eq_some.1 h).1
        rw [List.getElem?_eq_getElem hxl] at h
        simp at h)
    (by simp only [List.length_singleton, List.count_replicate_self]; omega)
  refine ⟨v, ?_, hvlen, ?_⟩
  · simp only [countIndirectContainers, computeContainers_spec ruleset hw, Day16.ok_bind,
      getBagColorIndex_registered _ _ _ hreg, hv]
    simp [countVisited_eq]
    rfl
  · intro j
    rw [hvspec j]
    constructor
    · exact Relation.TransGen.mono fun a b h => (hrel a b).1 h
    · exact Relation.TransGen.mono fun a b h => (hrel a b).2 h

/-- Claim C15: for a ruleset built from the empty ruleset and a colour registered in
it, `countIndirectContainers` returns, once its loop is given `len(rules) + 1`
iterations, the number of distinct colours `X` from which the given colour is
reached by a chain of one or more direct edges "`X` contains …"; on the published
example with its nine rules it returns `4` for shiny gold. -/
theorem countIndirectContainers_spec (ruleset : Ruleset) (hreach : Reachable ruleset)
    (bagColor : String) (start : Nat)
    (hreg : ruleset.bagColorIndices.lookup bagColor = some start)
    (fuel : Nat) (hfuel : ruleset.rules.length + 1 ≤ fuel) :
    (∃ S : Finset String,
      (∀ X, X ∈ S ↔ Relation.TransGen (ColourContains ruleset) X bagColor) ∧
      countIndirectContainers fuel ruleset bagColor = .ok (some S.card)) ∧
    countIndirectContainers 10 publishedRuleset "shiny gold" = .ok (some 4) := by
  refine ⟨?_, rfl⟩
  have hw := wellFormed_of_reachable ruleset hreach
  obtain ⟨v, hrun, hvlen, hvspec⟩ := visited_spec ruleset hw bagColor start hreg fuel hfuel
  have hnd : ((ruleset.bagColorIndices.filter fun p => v.getD p.2 false).map Prod.fst).Nodup :=
    (List.filter_sublist _).map Prod.fst |>.nodup hw.colours
  refine ⟨((ruleset.bagColorIndices.filter fun p => v.getD p.2 false).map Prod.fst).toFinset,
    ?_, ?_⟩
  · intro X
    rw [List.mem_toFinset, colourChain_iff ruleset hw]
    constructor
    · intro hX
      obtain ⟨p, hp, rfl⟩ := List.mem_map.1 hX
      obtain ⟨hmem, hvis⟩ := List.mem_filter.1 hp
      refine ⟨p.2, start, lookup_of_mem _ hw.colours _ _ hmem, hreg, (hvspec p.2).1 ?_⟩
      have hlt : p.2 < v.length := by
        rw [hvlen]; exact mem_indices_lt ruleset hw p.1 p.2 hmem
      rw [List.getD_eq_getElem _ _ hlt] at hvis
      rw [List.getElem?_eq_getElem hlt, hvis]
    · rintro ⟨j, i, hj, hi, hji⟩
      rw [hreg] at hi
      have := Option.some.inj hi
      subst this
      have hvj := (hvspec j).2 hji
      have hlt := (List.getElem?_eq_some.1 hvj).1
      refine List.mem_map.2 ⟨(X, j), List.mem_filter.2 ⟨lookup_mem _ _ _ hj, ?_⟩, rfl⟩
      rw [List.getD_eq_getElem _ _ hlt]
      rw [List.getElem?_eq_getElem hlt] at hvj
      exact Option.some.inj hvj
  · rw [hrun, List.toFinset_card_of_nodup hnd, List.length_map, ← List.countP_eq_length_filter]
    have h1 : ruleset.bagColorIndices.countP (fun p => v.getD p.2 false) =
        (ruleset.bagColorIndices.map Prod.snd).countP (fun j => v.getD j false) := by
      rw [List.countP_map]; rfl
    rw [h1, hw.indices, ← hvlen, countP_range_getD]

theorem countIndirectContainers_spec_witness :
    (∃ S : Finset String,
      (∀ X, X ∈ S ↔ Relation.TransGen (ColourContains publishedRuleset) X "shiny gold") ∧
      countIndirectContainers 10 publishedRuleset "shiny gold" = .ok (some S.card)) ∧
    countIndirectContainers 10 publishedRuleset "shiny gold" = .ok (some 4) :=
  countIndirectContainers_spec publishedRuleset reachable_published "shiny gold" 4 rfl 10
    (by decide)

theorem countP_bagIdx_le_one (rule : BagContent) (h : (rule.map BagCount.bagIdx).Nodup)
    (i : Nat) : rule.countP (fun bc => bc.bagIdx = i) ≤ 1 := by
  have h1 : rule.countP (fun bc => bc.bagIdx = i) = (rule.map BagCount.bagIdx).count i := by
    rw [List.count, List.countP_map]
    apply List.countP_congr
    intro bc _
    simp only [Function.comp, decide_eq_true_eq, beq_iff_eq]
  rw [h1]
  exact List.nodup_iff_count_le_one.1 h i

theorem containersOf_ge (rules : List BagContent) (k i x : Nat)
    (h : x ∈ containersOf rules k i) : k ≤ x :=
  ((mem_containersOf rules k i x).1 h).1

theorem containersOf_nodup (rules : List BagContent)
    (hd : ∀ rule ∈ rules, (rule.map BagCount.bagIdx).Nodup) :
    ∀ k i, (containersOf rules k i).Nodup := by
  induction rules with
  | nil => intro k i; simp [containersOf]
  | cons rule rest ih =>
    intro k i
    simp only [containersOf]
    rw [List.nodup_append]
    refine ⟨?_, ih (fun r hr => hd r (List.mem_cons_of_mem _ hr)) _ _, ?_⟩
    · exact List.nodup_replicate.2 (countP_bagIdx_le_one rule (hd rule (List.mem_cons_self _ _)) i)
    · intro a ha hb
      have h1 := (List.mem_replicate.1 ha).2
      have h2 := containersOf_ge rest (k + 1) i a hb
      omega

theorem countP_cons_inner (rule : BagContent) (idx : Nat) (P : List Nat) (h : idx ∉ P) :
    rule.countP (fun bc => decide (bc.bagIdx ∈ idx :: P)) =
      rule.countP (fun bc => decide (bc.bagIdx ∈ P)) + rule.countP (fun bc => bc.bagIdx = idx) := by
  induction rule with
  | nil => simp
  | cons bc rest ih =>
    rw [List.countP_cons, List.countP_cons, List.countP_cons, ih]
    by_cases h1 : bc.bagIdx = idx
    · have hP : bc.bagIdx ∉ P := h1 ▸ h
      have hm : bc.bagIdx ∈ idx :: P := h1 ▸ List.mem_cons_self _ _
      rw [if_pos (decide_eq_true hm), if_neg (by simpa using hP), if_pos (decide_eq_true h1)]
      omega
    · by_cases h2 : bc.bagIdx ∈ P
      · have hm : bc.bagIdx ∈ idx :: P := List.mem_cons_of_mem _ h2
        rw [if_pos (decide_eq_true hm), if_pos (decide_eq_true h2), if_neg (by simpa using h1)]
        omega
      · have hm : bc.bagIdx ∉ idx :: P := by
          intro hc
          rcases List.mem_cons.1 hc with e | e
          · exact h1 e
          · exact h2 e
        rw [if_neg (by simpa using hm), if_neg (by simpa using h2), if_neg (by simpa using h1)]
        omega

theorem countP_bagIdx_of_contains (rules : List BagContent)
    (hd : ∀ rule ∈ rules, (rule.map BagCount.bagIdx).Nodup) (c idx : Nat) (rule : BagContent)
    (hr : rules[c]? = some rule) :
    rule.countP (fun bc => bc.bagIdx = idx) = if c ∈ containersOf rules 0 idx then 1 else 0 := by
  have hle := countP_bagIdx_le_one rule (hd rule (List.getElem?_mem hr)) idx
  by_cases hc : c ∈ containersOf rules 0 idx
  · rw [if_pos hc]
    obtain ⟨rule', hr', bc, hbc, hi⟩ := (mem_containersOf_zero rules idx c).1 hc
    rw [hr] at hr'
    have := Option.some.inj hr'
    subst this
    have : 0 < rule.countP fun bc => bc.bagIdx = idx :=
      List.countP_pos_iff.2 ⟨bc, hbc, by simpa using hi⟩
    omega
  · rw [if_neg hc]
    by_contra hne
    have hpos : 0 < rule.countP fun bc => bc.bagIdx = idx := Nat.pos_of_ne_zero hne
    obtain ⟨bc, hbc, hp⟩ := List.countP_pos_iff.1 hpos
    exact hc ((mem_containersOf_zero rules idx c).2 ⟨rule, hr, bc, hbc, by simpa using hp⟩)

theorem contentSizeLoop_spec (total : Nat → Int) (bagSizes : List Int) (rule : BagContent) :
    ∀ acc : Int, (∀ bc ∈ rule, bagSizes[bc.bagIdx]? = some (wrapInt (total bc.bagIdx))) →
      contentSizeLoop bagSizes rule acc =
        .ok (wrapInt (acc + (rule.map fun bc => bc.count * (1 + total bc.bagIdx)).sum)) ∨
      rule = [] := by
  intro acc h
  cases rule with
  | nil => exact Or.inr rfl
  | cons bc0 rest0 =>
    left
    have key : ∀ (rule : BagContent) (acc : Int),
        (∀ bc ∈ rule, bagSizes[bc.bagIdx]? = some (wrapInt (total bc.bagIdx))) →
        ∃ r, contentSizeLoop bagSizes rule acc = .ok r ∧
          wrapInt r = wrapInt (acc + (rule.map fun bc => bc.count * (1 + total bc.bagIdx)).sum) ∧
          (rule ≠ [] → wrapInt r = r) := by
      intro rule
      induction rule with
      | nil => intro acc _; exact ⟨acc, rfl, by simp, fun h => absurd rfl h⟩
      | cons bc rest ih =>
        intro acc h
        have hb := h bc (List.mem_cons_self _ _)
        have hidx : index bagSizes bc.bagIdx = .ok (wrapInt (total bc.bagIdx)) := by
          simp [index, hb]
        obtain ⟨r, hr, hmod, hwr⟩ := ih
          (wrapInt (acc + wrapInt (bc.count + wrapInt (bc.count * wrapInt (total bc.bagIdx)))))
          (fun bc' hbc' => h bc' (List.mem_cons_of_mem _ hbc'))
        refine ⟨r, ?_, ?_, ?_⟩
        · simp only [contentSizeLoop, hidx, Day16.ok_bind]
          exact hr
        · rw [hmod]
          apply Day16.wrapInt_congr
          simp only [List.map_cons, List.sum_cons]
          have h1 : wrapInt (bc.count * wrapInt (total bc.bagIdx)) ≡
              bc.count * total bc.bagIdx [ZMOD 2 ^ Day16.intBits] :=
            (Day16.wrapInt_modEq _).trans ((Day16.wrapInt_modEq _).mul_left _)
          have h2 : wrapInt (bc.count + wrapInt (bc.count * wrapInt (total bc.bagIdx))) ≡
              bc.count + bc.count * total bc.bagIdx [ZMOD 2 ^ Day16.intBits] :=
            (Day16.wrapInt_modEq _).trans (h1.add_left _)
          have h3 := (Day16.wrapInt_modEq (acc + wrapInt (bc.count +
            wrapInt (bc.count * wrapInt (total bc.bagIdx))))).trans (h2.add_left acc)
          have h4 := h3.add_right
            (rest.map fun bc => bc.count * (1 + total bc.bagIdx)).sum
          have e : acc + (bc.count + bc.count * total bc.bagIdx) +
              (rest.map fun bc => bc.count * (1 + total bc.bagIdx)).sum =
              acc + (bc.count * (1 + total bc.bagIdx) +
                (rest.map fun bc => bc.count * (1 + total bc.bagIdx)).sum) := by ring
          rw [e] at h4
          exact h4
        · intro _
          cases rest with
          | nil =>
            simp only [contentSizeLoop] at hr
            rw [← Except.ok.inj hr]
            exact Day16.wrapInt_idem _
          | cons b r' => exact hwr (by simp)
    obtain ⟨r, hr, hmod, hwr⟩ := key (bc0 :: rest0) acc h
    rw [hr, ← hwr (by simp), hmod]

theorem doneLoop_spec (rules : List BagContent) (cs : List Nat) :
    ∀ (stack done : List Nat), cs.Nodup →
      (∀ c ∈ cs, c < done.length ∧ c < rules.length) →
      doneLoop rules cs stack done = .ok
        ((cs.filter fun c => decide (done.getD c 0 + 1 = (rules.getD c []).length)).reverse
            ++ stack,
          (List.range done.length).map fun c => done.getD c 0 + if c ∈ cs then 1 else 0) := by
  induction cs with
  | nil =>
    intro stack done _ _
    simp only [doneLoop, List.filter_nil, List.reverse_nil, List.nil_append, List.not_mem_nil,
      if_false, Nat.add_zero]
    congr 2
    apply List.ext_getElem (by simp)
    intro i h1 h2
    simp [List.getD_eq_getElem?_getD, List.getElem?_eq_getElem h1]
  | cons c cs ih =>
    intro stack done hnd hlt
    have hc := hlt c (List.mem_cons_self _ _)
    have hnd' := List.nodup_cons.1 hnd
    have hfilter : (cs.filter fun c' => decide ((done.set c (done[c] + 1)).getD c' 0 + 1 =
        (rules.getD c' []).length)) =
        cs.filter fun c' => decide (done.getD c' 0 + 1 = (rules.getD c' []).length) := by
      apply List.filter_congr
      intro c' hc'
      have hne : c ≠ c' := fun e => hnd'.1 (e ▸ hc')
      simp [List.getD_eq_getElem?_getD, List.getElem?_set_ne hne]
    have hmap : ((List.range (done.set c (done[c] + 1)).length).map fun x =>
        (done.set c (done[c] + 1)).getD x 0 + if x ∈ cs then 1 else 0) =
        (List.range done.length).map fun x => done.getD x 0 + if x ∈ c :: cs then 1 else 0 := by
      simp only [List.length_set]
      apply List.map_congr_left
      intro x hx
      by_cases hxc : c = x
      · subst hxc
        simp [List.getD_eq_getElem?_getD, List.getElem?_set_self hc.1, hnd'.1,
          List.getElem?_eq_getElem hc.1]
      · have : x ≠ c := fun e => hxc e.symm
        simp [List.getD_eq_getElem?_getD, List.getElem?_set_ne hxc, this]
    have hih := fun stack' => ih stack' (done.set c (done[c] + 1)) hnd'.2
      (by intro c' hc'; simpa using hlt c' (List.mem_cons_of_mem _ hc'))
    have hd : done.getD c 0 = done[c] := List.getD_eq_getElem _ _ hc.1
    have hr : rules.getD c [] = rules[c] := List.getD_eq_getElem _ _ hc.2
    simp only [doneLoop, Day16.index_ok _ _ hc.1, Day16.index_ok _ _ hc.2,
      Day16.assign_ok _ _ _ hc.1, Day16.ok_bind]
    by_cases hpush : done[c] + 1 = rules[c].length
    · rw [if_pos hpush, hih, hfilter, hmap,
        List.filter_cons_of_pos (by rw [hd, hr]; exact decide_eq_true hpush)]
      simp
    · rw [if_neg hpush, hih, hfilter, hmap,
        List.filter_cons_of_neg (by rw [hd, hr]; simpa using hpush)]

theorem emptyRulesLoop_mem (rules : List BagContent) :
    ∀ (k : Nat) (stack : List Nat) (x : Nat), x ∈ emptyRulesLoop k rules stack ↔
      x ∈ stack ∨ (k ≤ x ∧ ∃ rule, rules[x - k]? = some rule ∧ rule.length = 0) := by
  induction rules with
  | nil => intro k stack x; simp [emptyRulesLoop]
  | cons rule rest ih =>
    intro k stack x
    have hshift : ∀ r, k + 1 ≤ x → (rest[x - (k + 1)]? = some r ↔
        (rule :: rest)[x - k]? = some r) := by
      intro r hk
      have : x - k = (x - (k + 1)) + 1 := by omega
      rw [this]; simp
    unfold emptyRulesLoop
    by_cases hlen : rule.length = 0
    · rw [if_pos hlen, ih, List.mem_cons]
      constructor
      · rintro ((rfl | h) | ⟨hk, r, hr, hl⟩)
        · exact Or.inr ⟨le_refl _, rule, by simp, hlen⟩
        · exact Or.inl h
        · exact Or.inr ⟨by omega, r, (hshift r hk).1 hr, hl⟩
      · rintro (h | ⟨hk, r, hr, hl⟩)
        · exact Or.inl (Or.inr h)
        · rcases Nat.eq_or_lt_of_le hk with heq | hlt
          · exact Or.inl (Or.inl heq.symm)
          · exact Or.inr ⟨hlt, r, (hshift r hlt).2 hr, hl⟩
    · rw [if_neg hlen, ih]
      constructor
      · rintro (h | ⟨hk, r, hr, hl⟩)
        · exact Or.inl h
        · exact Or.inr ⟨by omega, r, (hshift r hk).1 hr, hl⟩
      · rintro (h | ⟨hk, r, hr, hl⟩)
        · exact Or.inl h
        · rcases Nat.eq_or_lt_of_le hk with heq | hlt
          · subst heq
            simp only [Nat.sub_self, List.getElem?_cons_zero, Option.some.injEq] at hr
            subst hr
            exact absurd hl hlen
          · exact Or.inr ⟨hlt, r, (hshift r hlt).2 hr, hl⟩

theorem emptyRulesLoop_nodup (rules : List BagContent) :
    ∀ (k : Nat) (stack : List Nat), stack.Nodup → (∀ x ∈ stack, x < k) →
      (emptyRulesLoop k rules stack).Nodup := by
  induction rules with
  | nil => intro k stack h _; simpa [emptyRulesLoop] using h
  | cons rule rest ih =>
    intro k stack hnd hlt
    unfold emptyRulesLoop
    split
    · apply ih
      · exact List.nodup_cons.2 ⟨fun h => Nat.lt_irrefl _ (hlt k h), hnd⟩
      · intro x hx
        rcases List.mem_cons.1 hx with rfl | h
        · omega
        · exact Nat.lt_succ_of_lt (hlt x h)
    · exact ih _ _ hnd fun x hx => Nat.lt_succ_of_lt (hlt x hx)

theorem length_le_of_nodup_lt (l : List Nat) (n : Nat) (hnd : l.Nodup) (hlt : ∀ x ∈ l, x < n) :
    l.length ≤ n := by
  have := (List.subperm_of_subset hnd (fun x hx => List.mem_range.2 (hlt x hx))).length_le
  simpa using this

theorem sizeSearch_spec (rules : List BagContent) (n : Nat) (total : Nat → Int)
    (hn : rules.length = n)
    (hd : ∀ rule ∈ rules, (rule.map BagCount.bagIdx).Nodup)
    (htotal : ∀ (b : Nat) (rule : BagContent), rules[b]? = some rule →
      total b = (rule.map fun bc => bc.count * (1 + total bc.bagIdx)).sum) :
    ∀ (fuel : Nat) (P stack : List Nat) (sizes : List Int) (done : List Nat),
      sizes.length = n → done.length = n →
      stack.Nodup → (∀ x ∈ stack, x < n ∧ x ∉ P) → P.Nodup → (∀ x ∈ P, x < n) →
      (∀ x ∈ P, sizes[x]? = some (wrapInt (total x))) →
      (∀ (c : Nat) (rule : BagContent), rules[c]? = some rule →
        done[c]? = some (rule.countP fun bc => decide (bc.bagIdx ∈ P))) →
      (∀ (c : Nat) (rule : BagContent), rules[c]? = some rule →
        ((c ∈ stack ∨ c ∈ P) ↔
          rule.countP (fun bc => decide (bc.bagIdx ∈ P)) = rule.length)) →
      n ≤ P.length + fuel →
      ∃ (sizes' : List Int) (P' : List Nat),
        sizeSearch rules ((List.range n).map fun i => containersOf rules 0 i)
          fuel stack sizes done = .ok (some sizes') ∧
        sizes'.length = n ∧
        (∀ x ∈ P', sizes'[x]? = some (wrapInt (total x))) ∧
        (∀ (c : Nat) (rule : BagContent), rules[c]? = some rule →
          (c ∈ P' ↔ rule.countP (fun bc => decide (bc.bagIdx ∈ P')) = rule.length)) := by
  intro fuel
  induction fuel with
  | zero =>
    intro P stack sizes done hs _ hsnd hstack hpnd hplt hsizes _ hready hfuel
    cases stack with
    | nil => exact ⟨sizes, P, rfl, hs, hsizes, by simpa using hready⟩
    | cons idx stack =>
      exfalso
      have h1 := hstack idx (List.mem_cons_self _ _)
      have h2 := length_le_of_nodup_lt (idx :: P) n (List.nodup_cons.2 ⟨h1.2, hpnd⟩)
        (by
          intro x hx
          rcases List.mem_cons.1 hx with rfl | h
          · exact h1.1
          · exact hplt x h)
      simp only [List.length_cons] at h2
      omega
  | succ fuel ih =>
    intro P stack sizes done hs hdl hsnd hstack hpnd hplt hsizes hdone hready hfuel
    cases stack with
    | nil => exact ⟨sizes, P, rfl, hs, hsizes, by simpa using hready⟩
    | cons idx stack =>
      obtain ⟨hidx, hidxP⟩ := hstack idx (List.mem_cons_self _ _)
      have hsnd' := List.nodup_cons.1 hsnd
      have hidxr : idx < rules.length := by rw [hn]; exact hidx
      have hrule : rules[idx]? = some rules[idx] := List.getElem?_eq_getElem hidxr
      -- every inner bag of `idx` has its size
      have hall : ∀ bc ∈ rules[idx], bc.bagIdx ∈ P := by
        have := (hready idx _ hrule).1 (Or.inl (List.mem_cons_self _ _))
        intro bc hbc
        simpa using (List.countP_eq_length.1 this) bc hbc
      have hcontent : contentSizeLoop sizes rules[idx] 0 = .ok (wrapInt (total idx)) := by
        rcases contentSizeLoop_spec total sizes rules[idx] 0
          (fun bc hbc => hsizes _ (hall bc hbc)) with h | h
        · rw [h, zero_add, ← htotal idx _ hrule]
        · have ht := htotal idx _ hrule
          rw [h] at ht
          simp only [List.map_nil, List.sum_nil] at ht
          rw [h, ht]
          rfl
      have hcs : ∀ c ∈ containersOf rules 0 idx, c < n := by
        intro c hc
        obtain ⟨r, hr, _⟩ := (mem_containersOf_zero rules idx c).1 hc
        rw [← hn]
        exact (List.getElem?_eq_some.1 hr).1
      have hcont : index ((List.range n).map fun i => containersOf rules 0 i) idx =
          .ok (containersOf rules 0 idx) := by
        simp [index, List.getElem?_range hidx]
      have hloop := doneLoop_spec rules (containersOf rules 0 idx) stack done
        (containersOf_nodup rules hd 0 idx)
        (fun c hc => ⟨by rw [hdl]; exact hcs c hc, by rw [hn]; exact hcs c hc⟩)
      -- the counters before the step
      have hget : ∀ (c : Nat) (rule : BagContent), rules[c]? = some rule →
          done.getD c 0 = rule.countP (fun bc => decide (bc.bagIdx ∈ P)) ∧
          rules.getD c [] = rule := by
        intro c rule hr
        simp [List.getD_eq_getElem?_getD, hdone c rule hr, hr]
      have hpushed : ∀ c, c ∈ (containersOf rules 0 idx).filter (fun c =>
          decide (done.getD c 0 + 1 = (rules.getD c []).length)) ↔
          c ∈ containersOf rules 0 idx ∧ ∃ rule, rules[c]? = some rule ∧
            rule.countP (fun bc => decide (bc.bagIdx ∈ P)) + 1 = rule.length := by
        intro c
        rw [List.mem_filter]
        constructor
        · rintro ⟨hc, hp⟩
          have hcl : c < rules.length := by rw [hn]; exact hcs c hc
          have hr := List.getElem?_eq_getElem hcl
          obtain ⟨e1, e2⟩ := hget c _ hr
          rw [e1, e2] at hp
          exact ⟨hc, _, hr, by simpa using hp⟩
        · rintro ⟨hc, rule, hr, hp⟩
          obtain ⟨e1, e2⟩ := hget c _ hr
          rw [e1, e2]
          exact ⟨hc, by simpa using hp⟩
      have hnotReady : ∀ c, c ∈ (containersOf rules 0 idx).filter (fun c =>
          decide (done.getD c 0 + 1 = (rules.getD c []).length)) →
          c ∉ idx :: stack ∧ c ∉ P := by
        intro c hc
        obtain ⟨_, rule, hr, hp⟩ := (hpushed c).1 hc
        have hiff := hready c rule hr
        constructor
        · intro h
          have := hiff.1 (Or.inl h)
          omega
        · intro h
          have := hiff.1 (Or.inr h)
          omega
      obtain ⟨sizes', P', hrun, hlen', hsizes', hready'⟩ := ih (idx :: P)
        (((containersOf rules 0 idx).filter fun c =>
          decide (done.getD c 0 + 1 = (rules.getD c []).length)).reverse ++ stack)
        (sizes.set idx (wrapInt (total idx)))
        ((List.range done.length).map fun c =>
          done.getD c 0 + if c ∈ containersOf rules 0 idx then 1 else 0)
        (by simpa using hs) (by simpa using hdl)
        (by
          rw [List.nodup_append]
          refine ⟨List.nodup_reverse.2 ((containersOf_nodup rules hd 0 idx).filter _),
            hsnd'.2, ?_⟩
          intro a ha hb
          exact (hnotReady a (List.mem_reverse.1 ha)).1 (List.mem_cons_of_mem _ hb))
        (by
          intro x hx
          rcases List.mem_append.1 hx with h | h
          · have h' := List.mem_reverse.1 h
            obtain ⟨h1, h2⟩ := hnotReady x h'
            refine ⟨hcs x (List.mem_filter.1 h').1, ?_⟩
            intro hm
            rcases List.mem_cons.1 hm with e | e
            · exact h1 (e ▸ List.mem_cons_self _ _)
            · exact h2 e
          · obtain ⟨h1, h2⟩ := hstack x (List.mem_cons_of_mem _ h)
            refine ⟨h1, ?_⟩
            intro hm
            rcases List.mem_cons.1 hm with e | e
            · exact hsnd'.1 (e ▸ h)
            · exact h2 e)
        (List.nodup_cons.2 ⟨hidxP, hpnd⟩)
        (by
          intro x hx
          rcases List.mem_cons.1 hx with rfl | h
          · exact hidx
          · exact hplt x h)
        (by
          intro x hx
          rcases List.mem_cons.1 hx with rfl | h
          · rw [List.getElem?_set_self (by rw [hs]; exact hidx)]
          · have hne : idx ≠ x := fun e => hidxP (e ▸ h)
            rw [List.getElem?_set_ne hne]
            exact hsizes x h)
        (by
          intro c rule hr
          have hcl : c < done.length := by
            rw [hdl, ← hn]; exact (List.getElem?_eq_some.1 hr).1
          rw [List.getElem?_map, List.getElem?_range hcl, Option.map_some',
            countP_cons_inner rule idx P hidxP, (hget c rule hr).1,
            countP_bagIdx_of_contains rules hd c idx rule hr])
        (by
          intro c rule hr
          rw [countP_cons_inner rule idx P hidxP,
            countP_bagIdx_of_contains rules hd c idx rule hr]
          have hle : rule.countP (fun bc => decide (bc.bagIdx ∈ idx :: P)) ≤ rule.length :=
            List.countP_le_length _
          rw [countP_cons_inner rule idx P hidxP,
            countP_bagIdx_of_contains rules hd c idx rule hr] at hle
          have hold := hready c rule hr
          constructor
          · rintro (h | h)
            · rcases List.mem_append.1 h with h1 | h1
              · obtain ⟨hc, rule', hr', hp⟩ := (hpushed c).1 (List.mem_reverse.1 h1)
                rw [hr] at hr'
                have := Option.some.inj hr'
                subst this
                rw [if_pos hc]
                exact hp
              · have hfull := hold.1 (Or.inl (List.mem_cons_of_mem _ h1))
                by_cases hc : c ∈ containersOf rules 0 idx
                · rw [if_pos hc] at hle; omega
                · rw [if_neg hc]; omega
            · have : c ∈ idx :: stack ∨ c ∈ P := by
                rcases List.mem_cons.1 h with e | e
                · exact Or.inl (e ▸ List.mem_cons_self _ _)
                · exact Or.inr e
              have hfull := hold.1 this
              by_cases hc : c ∈ containersOf rules 0 idx
              · rw [if_pos hc] at hle; omega
              · rw [if_neg hc]; omega
          · intro h
            by_cases hc : c ∈ containersOf rules 0 idx
            · rw [if_pos hc] at h
              exact Or.inl (List.mem_append_left _
                (List.mem_reverse.2 ((hpushed c).2 ⟨hc, rule, hr, h⟩)))
            · rw [if_neg hc, Nat.add_zero] at h
              rcases hold.2 h with h1 | h1
              · rcases List.mem_cons.1 h1 with e | e
                · exact Or.inr (e ▸ List.mem_cons_self _ _)
                · exact Or.inl (List.mem_append_right _ e)
              · exact Or.inr (List.mem_cons_of_mem _ h1))
        (by simp only [List.length_cons]; omega)
      refine ⟨sizes', P', ?_, hlen', hsizes', hready'⟩
      simp only [sizeSearch, Day16.index_ok _ _ hidxr, Day16.ok_bind, hcontent,
        Day16.assign_ok _ _ _ (show idx < sizes.length by rw [hs]; exact hidx), hcont, hloop]
      exact hrun

theorem acyclic_of_rank (rules : List BagContent) (rank : Nat → Nat)
    (h : ∀ j i, Contains rules j i → rank i < rank j) :
    ∀ b, ¬ Relation.TransGen (Contains rules) b b := by
  have key : ∀ a b, Relation.TransGen (Contains rules) a b → rank b < rank a := by
    intro a b hab
    induction hab with
    | single hc => exact h _ _ hc
    | tail _ hc ih => exact lt_trans (h _ _ hc) ih
  intro b hb
  exact Nat.lt_irrefl _ (key b b hb)

theorem all_sized (rules : List BagContent) (n : Nat) (hn : rules.length = n)
    (hin : ∀ rule ∈ rules, ∀ bc ∈ rule, bc.bagIdx < n)
    (hacyclic : ∀ b, ¬ Relation.TransGen (Contains rules) b b) (P : List Nat)
    (hready : ∀ (c : Nat) (rule : BagContent), rules[c]? = some rule →
      (c ∈ P ↔ rule.countP (fun bc => decide (bc.bagIdx ∈ P)) = rule.length)) :
    ∀ c, c < n → c ∈ P := by
  haveI : IsTrans (Fin n) (Relation.TransGen fun a b : Fin n => Contains rules b.val a.val) :=
    ⟨fun _ _ _ => Relation.TransGen.trans⟩
  haveI : IsIrrefl (Fin n) (Relation.TransGen fun a b : Fin n => Contains rules b.val a.val) :=
    ⟨by
      intro a ha
      have h1 : Relation.TransGen (Function.swap (Contains rules)) a.val a.val :=
        Relation.TransGen.lift Fin.val (fun _ _ h => h) ha
      exact hacyclic a.val (Relation.transGen_swap.1 h1)⟩
  have wf := Finite.wellFounded_of_trans_of_irrefl
    (Relation.TransGen fun a b : Fin n => Contains rules b.val a.val)
  have key : ∀ c : Fin n, c.val ∈ P := by
    intro c
    induction c using wf.induction with
    | _ c ih =>
      have hc : c.val < rules.length := by rw [hn]; exact c.isLt
      have hr := List.getElem?_eq_getElem hc
      rw [hready c.val _ hr, List.countP_eq_length]
      intro bc hbc
      have hlt : bc.bagIdx < n := hin _ (List.getElem_mem _) bc hbc
      have := ih ⟨bc.bagIdx, hlt⟩ (Relation.TransGen.single ⟨_, hr, bc, hbc, rfl⟩)
      simpa using this
  intro c hc
  exact key ⟨c, hc⟩

theorem countBagsInside_eq (ruleset : Ruleset) (hw : WellFormed ruleset)
    (hacyclic : ∀ b, ¬ Relation.TransGen (Contains ruleset.rules) b b)
    (total : Nat → Int)
    (htotal : ∀ (b : Nat) (rule : BagContent), ruleset.rules[b]? = some rule →
      total b = (rule.map fun bc => bc.count * (1 + total bc.bagIdx)).sum)
    (bagColor : String) (start : Nat)
    (hreg : ruleset.bagColorIndices.lookup bagColor = some start)
    (fuel : Nat) (hfuel : ruleset.rules.length ≤ fuel) :
    countBagsInside fuel ruleset bagColor = .ok (some (wrapInt (total start))) := by
  have hstart : start < ruleset.rules.length :=
    mem_indices_lt ruleset hw _ _ (lookup_mem _ _ _ hreg)
  obtain ⟨sizes, P, hrun, hlen, hsizes, hready⟩ := sizeSearch_spec ruleset.rules
    ruleset.rules.length total rfl hw.distinct htotal fuel []
    (emptyRulesLoop 0 ruleset.rules []) (List.replicate ruleset.rules.length 0)
    (List.replicate ruleset.rules.length 0) (by simp) (by simp)
    (emptyRulesLoop_nodup _ 0 [] List.nodup_nil (by simp))
    (by
      intro x hx
      rcases (emptyRulesLoop_mem _ 0 [] x).1 hx with h | ⟨_, r, hr, _⟩
      · simp at h
      · exact ⟨by simpa using (List.getElem?_eq_some.1 hr).1, by simp⟩)
    List.nodup_nil (by simp) (by simp)
    (by
      intro c rule hr
      have hc := (List.getElem?_eq_some.1 hr).1
      simp [List.getElem?_replicate, hc])
    (by
      intro c rule hr
      have hz : rule.countP (fun bc => decide (bc.bagIdx ∈ ([] : List Nat))) = 0 := by
        rw [List.countP_eq_zero]
        intro bc _
        simp
      rw [emptyRulesLoop_mem, hz]
      simp only [List.not_mem_nil, false_or, or_false, Nat.zero_le, Nat.sub_zero, true_and]
      constructor
      · rintro ⟨r, hr', hl⟩
        rw [hr] at hr'
        rw [Option.some.inj hr', hl]
      · intro h
        exact ⟨rule, hr, h.symm⟩)
    (by simpa using hfuel)
  have hall := all_sized ruleset.rules ruleset.rules.length rfl hw.inRange hacyclic P hready
  have hsize : index sizes start = .ok (wrapInt (total start)) := by
    simp [index, hsizes start (hall start hstart)]
  simp only [countBagsInside, computeContainers_spec ruleset hw, Day16.ok_bind, hrun,
    getBagColorIndex_registered _ _ _ hreg, hsize]
  rfl

theorem publishedRuleset_acyclic :
    ∀ b, ¬ Relation.TransGen (Contains publishedRuleset.rules) b b := by
  apply acyclic_of_rank _ publishedRank
  rintro j i ⟨rule, hr, bc, hbc, rfl⟩
  have hj : j < 9 := (List.getElem?_eq_some.1 hr).1
  interval_cases j <;> simp [publishedRuleset] at hr <;> subst hr <;>
    simp at hbc <;> rcases hbc with rfl | rfl <;> decide

theorem publishedTotal_spec (b : Nat) (rule : BagContent)
    (hr : publishedRuleset.rules[b]? = some rule) :
    publishedTotal b = (rule.map fun bc => bc.count * (1 + publishedTotal bc.bagIdx)).sum := by
  have hb : b < 9 := (List.getElem?_eq_some.1 hr).1
  interval_cases b <;> simp [publishedRuleset] at hr <;> subst hr <;> decide

theorem acyclic_induction (rules : List BagContent) (n : Nat) (hn : rules.length = n)
    (hin : ∀ rule ∈ rules, ∀ bc ∈ rule, bc.bagIdx < n)
    (hacyclic : ∀ b, ¬ Relation.TransGen (Contains rules) b b) (Q : Nat → Prop)
    (step : ∀ (c : Nat) (rule : BagContent), rules[c]? = some rule →
      (∀ bc ∈ rule, Q bc.bagIdx) → Q c) :
    ∀ c, c < n → Q c := by
  haveI : IsTrans (Fin n) (Relation.TransGen fun a b : Fin n => Contains rules b.val a.val) :=
    ⟨fun _ _ _ => Relation.TransGen.trans⟩
  haveI : IsIrrefl (Fin n) (Relation.TransGen fun a b : Fin n => Contains rules b.val a.val) :=
    ⟨by
      intro a ha
      have h1 : Relation.TransGen (Function.swap (Contains rules)) a.val a.val :=
        Relation.TransGen.lift Fin.val (fun _ _ h => h) ha
      exact hacyclic a.val (Relation.transGen_swap.1 h1)⟩
  have wf := Finite.wellFounded_of_trans_of_irrefl
    (Relation.TransGen fun a b : Fin n => Contains rules b.val a.val)
  have key : ∀ c : Fin n, Q c.val := by
    intro c
    induction c using wf.induction with
    | _ c ih =>
      have hc : c.val < rules.length := by rw [hn]; exact c.isLt
      have hr := List.getElem?_eq_getElem hc
      refine step c.val _ hr ?_
      intro bc hbc
      have hlt : bc.bagIdx < n := hin _ (List.getElem_mem _) bc hbc
      exact ih ⟨bc.bagIdx, hlt⟩ (Relation.TransGen.single ⟨_, hr, bc, hbc, rfl⟩)
  intro c hc
  exact key ⟨c, hc⟩

theorem total_unique (ruleset : Ruleset) (hw : WellFormed ruleset)
    (hacyclic : ∀ b, ¬ Relation.TransGen (Contains ruleset.rules) b b)
    (total total' : Nat → Int)
    (htotal : ∀ (b : Nat) (rule : BagContent), ruleset.rules[b]? = some rule →
      total b = (rule.map fun bc => bc.count * (1 + total bc.bagIdx)).sum)
    (htotal' : ∀ (b : Nat) (rule : BagContent), ruleset.rules[b]? = some rule →
      total' b = (rule.map fun bc => bc.count * (1 + total' bc.bagIdx)).sum) :
    ∀ c, c < ruleset.rules.length → total' c = total c := by
  apply acyclic_induction ruleset.rules ruleset.rules.length rfl hw.inRange hacyclic
  intro c rule hr ih
  rw [htotal c rule hr, htotal' c rule hr]
  congr 1
  apply List.map_congr_left
  intro bc hbc
  rw [ih bc hbc]

theorem reachable_overflow : Reachable overflowRuleset := by
  have h0 := Reachable.empty
  have h1 := Reachable.defineRule _ _ "shiny gold" [("dark red", 9223372036854775807)]
    h0 (by decide) rfl
  exact Reachable.defineRule _ overflowRuleset "dark red" [("faded blue", 1)] h1
    (by decide) rfl

theorem overflowRuleset_acyclic :
    ∀ b, ¬ Relation.TransGen (Contains overflowRuleset.rules) b b := by
  apply acyclic_of_rank _ (fun b => [1, 2, 0].getD b 0)
  rintro j i ⟨rule, hr, bc, hbc, rfl⟩
  have hj : j < 3 := (List.getElem?_eq_some.1 hr).1
  interval_cases j <;> simp [overflowRuleset] at hr <;> subst hr <;>
    simp at hbc <;> subst hbc <;> decide

theorem overflowTotal_spec (b : Nat) (rule : BagContent)
    (hr : overflowRuleset.rules[b]? = some rule) :
    overflowTotal b = (rule.map fun bc => bc.count * (1 + overflowTotal bc.bagIdx)).sum := by
  have hb : b < 3 := (List.getElem?_eq_some.1 hr).1
  interval_cases b <;> simp [overflowRuleset] at hr <;> subst hr <;> decide

theorem countBagsInside_published :
    countBagsInside 10 publishedRuleset "shiny gold" = .ok (some 32) := by
  have h := countBagsInside_eq publishedRuleset
    (wellFormed_of_reachable _ reachable_published) publishedRuleset_acyclic publishedTotal
    publishedTotal_spec "shiny gold" 4 rfl 10 (by decide)
  have h32 : wrapInt (publishedTotal 4) = 32 := by decide
  rw [h, h32]

theorem countBagsInside_overflowRuleset :
    countBagsInside 3 overflowRuleset "shiny gold" = .ok (some (-2)) := by
  have h := countBagsInside_eq overflowRuleset
    (wellFormed_of_reachable _ reachable_overflow) overflowRuleset_acyclic overflowTotal
    overflowTotal_spec "shiny gold" 1 rfl 3 (by decide)
  have h2 : wrapInt (overflowTotal 1) = -2 := by decide
  rw [h, h2]

/-- Claim C16, as the code has it: in a ruleset built from the empty ruleset by
`DefineRule` calls whose containment graph is acyclic, for a registered colour and a
function `total` with `total(b) = Σ n * (1 + total(c))` over the entries of the rule
of `b` (so `0` for an empty rule), `countBagsInside` returns `total(colour)` wrapped
to the 64-bit range of `int`, which is `total(colour)` itself when that lies in the
range; `total` is determined on the registered bags; the published example gives 32
for shiny gold. -/
theorem countBagsInside_spec (ruleset : Ruleset) (hreach : Reachable ruleset)
    (hacyclic : ∀ b, ¬ Relation.TransGen (Contains ruleset.rules) b b)
    (total : Nat → Int)
    (htotal : ∀ (b : Nat) (rule : BagContent), ruleset.rules[b]? = some rule →
      total b = (rule.map fun bc => bc.count * (1 + total bc.bagIdx)).sum)
    (bagColor : String) (start : Nat)
    (hreg : ruleset.bagColorIndices.lookup bagColor = some start)
    (fuel : Nat) (hfuel : ruleset.rules.length ≤ fuel) :
    countBagsInside fuel ruleset bagColor = .ok (some (wrapInt (total start))) ∧
    (-(2 : Int) ^ 63 ≤ total start → total start < (2 : Int) ^ 63 →
      countBagsInside fuel ruleset bagColor = .ok (some (total start))) ∧
    (∀ total' : Nat → Int,
      (∀ (b : Nat) (rule : BagContent), ruleset.rules[b]? = some rule →
        total' b = (rule.map fun bc => bc.count * (1 + total' bc.bagIdx)).sum) →
      ∀ c, c < ruleset.rules.length → total' c = total c) ∧
    (∀ b, ruleset.rules[b]? = some [] → total b = 0) ∧
    countBagsInside 10 publishedRuleset "shiny gold" = .ok (some 32) := by
  have hw := wellFormed_of_reachable ruleset hreach
  have hrun := countBagsInside_eq ruleset hw hacyclic total htotal bagColor start hreg fuel
    hfuel
  refine ⟨hrun, ?_, ?_, ?_, countBagsInside_published⟩
  · intro hlo hhi
    rw [hrun, Day16.wrapInt_of_range hlo hhi]
  · intro total' htotal'
    exact total_unique ruleset hw hacyclic total total' htotal htotal'
  · intro b hb
    rw [htotal b [] hb]
    rfl

theorem countBagsInside_spec_witness :
    countBagsInside 10 publishedRuleset "shiny gold" = .ok (some (wrapInt (publishedTotal 4))) ∧
    publishedTotal 4 = 32 :=
  ⟨(countBagsInside_spec publishedRuleset reachable_published publishedRuleset_acyclic
      publishedTotal publishedTotal_spec "shiny gold" 4 rfl 10 (by decide)).1, rfl⟩

/-- Claim C16 as stated fails when a product leaves the range of `int`: the ruleset
built by `DefineRule("shiny gold", {dark red: 9223372036854775807})` and
`DefineRule("dark red", {faded blue: 1})` is acyclic, `total(shiny gold)` is
`2^64 - 2`, and `countBagsInside` returns `-2`. -/
theorem countBagsInside_overflow :
    Reachable overflowRuleset ∧
    (∀ b, ¬ Relation.TransGen (Contains overflowRuleset.rules) b b) ∧
    (∀ (b : Nat) (rule : BagContent), overflowRuleset.rules[b]? = some rule →
      overflowTotal b = (rule.map fun bc => bc.count * (1 + overflowTotal bc.bagIdx)).sum) ∧
    overflowRuleset.bagColorIndices.lookup "shiny gold" = some 1 ∧
    overflowTotal 1 = 18446744073709551614 ∧
    countBagsInside 3 overflowRuleset "shiny gold" = .ok (some (-2)) ∧
    countBagsInside 3 overflowRuleset "shiny gold" ≠ .ok (some (overflowTotal 1)) :=
  ⟨reachable_overflow, overflowRuleset_acyclic, overflowTotal_spec, rfl, rfl,
    countBagsInside_overflowRuleset,
    by
      intro h
      rw [countBagsInside_overflowRuleset] at h
      have h3 := Option.some.inj (Except.ok.inj h)
      revert h3
      decide⟩

end Day7
